import Mathlib

/-!
Verification of the web-rpc library (cross-context RPC layer).

This file gives a shallow embedding of the core of the library:

* the identifier codec (`src/packages/webrpc/src/protocol/InvocationId.ts`),
* the value serializer (`src/packages/webrpc/src/common/serializeRequestData.ts`),
* the value deserializer (`deserializeRequestData`),
* the endpoint state machine (`WebRPCPort`, current-protocol version) and
  the router (`WebRPC`).

JavaScript strings are modelled as lists of characters, JavaScript object
graphs as a heap (an association list from addresses to objects) together
with values that are either primitives or references.  The two graph
traversals of the library are cycle-guarded by identity-keyed caches in the
source; they are embedded as fuel-indexed functions, and fuel-sufficiency
lemmas below recover the termination facts.
-/

namespace WebRPC

/-- Characters of a JavaScript string. -/
abbrev Str := List Char

/-! ## Identifier codec (`InvocationId.ts`) -/

/-- Embedding of JavaScript `String.prototype.split('/')`: splitting a string
on the separator character `'/'`; always returns one more part than there are
separators, so it never returns the empty list. -/
def splitOnSlash : Str → List Str
  | [] => [[]]
  | c :: rest =>
    if c = '/' then [] :: splitOnSlash rest
    else (c :: (splitOnSlash rest).headI) :: (splitOnSlash rest).tail

/-- Error message of `createSafeId` (`ID cannot contain forward slashes`). -/
def safeIdErr (id : Str) : Str :=
  "ID cannot contain forward slashes: ".toList ++ id

/-- Error message of `parseInvocationId` (`Invalid InvocationId format`). -/
def invocationIdErr (id : Str) : Str :=
  "Invalid InvocationId format: ".toList ++ id

/-- `createSafeId` from `InvocationId.ts`: throws when the id contains a
forward slash, and returns the id unchanged otherwise. -/
def createSafeId (id : Str) : Except Str Str :=
  if '/' ∈ id then .error (safeIdErr id) else .ok id

/-- `createInvocationId` from `InvocationId.ts`: concatenates the three
segments with the `'/'` separator, trusting its (already validated) inputs. -/
def createInvocationId (clientId portId id : Str) : Str :=
  clientId ++ ('/' :: (portId ++ ('/' :: id)))

/-- Result of parsing an invocation id: `{clientId, portId, id}`. -/
structure ParsedId where
  clientId : Str
  portId : Str
  id : Str
deriving DecidableEq, Repr

/-- `parseInvocationId` from `InvocationId.ts`: splits on `'/'`, throws a
format error unless the split yields exactly three parts, then re-validates
the first two parts with `createSafeId` before returning them. -/
def parseInvocationId (invocationId : Str) : Except Str ParsedId :=
  match splitOnSlash invocationId with
  | [clientId, portId, id] => do
      let c ← createSafeId clientId
      let p ← createSafeId portId
      .ok ⟨c, p, id⟩
  | _ => .error (invocationIdErr invocationId)

/-! ## JavaScript value and heap model

Values are primitives or references into a heap of objects.  The heap is an
association list from addresses to objects; plain objects carry their own
property descriptors (mirroring `Object.getOwnPropertyDescriptors`). -/

/-- JavaScript primitive values. -/
inductive JPrim : Type
  | str (s : Str)
  | num (n : Int)
  | bool (b : Bool)
  | null
  | undefinedV
deriving DecidableEq, Repr

/-- A JavaScript value: a primitive, or a reference to a heap object.
Reference equality (`===`) on objects is equality of addresses. -/
inductive Val : Type
  | prim (p : JPrim)
  | ref (a : Nat)
deriving DecidableEq, Repr

instance : Inhabited Val := ⟨.prim .undefinedV⟩

/-- A property descriptor: either a data property (value plus the
`enumerable`/`writable`/`configurable` attributes) or an accessor property
whose getter is the function object at the given address. -/
inductive PropD : Type
  | data (value : Val) (enumerable writable configurable : Bool)
  | accessor (get : Nat) (enumerable configurable : Bool)
deriving DecidableEq, Repr

/-- The eventual settlement of a native promise. -/
inductive PResult : Type
  | ok (v : Val)
  | err (msg : Str)
deriving DecidableEq, Repr

/-- Heap objects: arrays, plain objects, functions (opaque — their behaviour
is supplied separately where needed), native promises with their eventual
settlement, `ArrayBuffer`s and typed arrays viewing a buffer. -/
inductive Obj : Type
  | arr (elems : List Val)
  | obj (props : List (Str × PropD))
  | func
  | promise (outcome : PResult)
  | arrbuf
  | typedarr (buffer : Nat)
deriving DecidableEq, Repr

/-- The heap: an association list from addresses to objects. -/
abbrev Heap := List (Nat × Obj)

/-- Association-list lookup (first binding wins). -/
def alook {α β : Type} [DecidableEq α] : List (α × β) → α → Option β
  | [], _ => none
  | (k', v) :: rest, k => if k' = k then some v else alook rest k

/-- `Set.add`: append the element unless it is already present
(JavaScript `Set` iteration order is insertion order). -/
def addIfAbsent {α : Type} [DecidableEq α] (l : List α) (v : α) : List α :=
  if v ∈ l then l else l ++ [v]

/-- `isFunction` from `common/isFunction.ts`: `typeof value === 'function'`. -/
def isFunc (h : Heap) : Val → Bool
  | .ref a =>
    match alook h a with
    | some .func => true
    | _ => false
  | _ => false

/-- `isPlainObject` from `common/isPlainObject.ts`: an object whose prototype
is `null` or `Object.prototype` — in this model exactly the `Obj.obj` heap
objects. -/
def isPlainObjectV (h : Heap) : Val → Bool
  | .ref a =>
    match alook h a with
    | some (.obj _) => true
    | _ => false
  | _ => false

/-- `Array.isArray`. -/
def isArrayV (h : Heap) : Val → Bool
  | .ref a =>
    match alook h a with
    | some (.arr _) => true
    | _ => false
  | _ => false

/-! ## Value serializer (`common/serializeRequestData.ts`) -/

/-- `CALLBACK_FLAG` from `protocol/Callback.ts`. -/
def CALLBACK_FLAG : Str := "$$WEB-RPC-CALLBACK".toList

/-- `GETTER_FLAG` from `protocol/Getter.ts`. -/
def GETTER_FLAG : Str := "$$WEB-RPC-GETTER".toList

/-- Property key `"flag"`. -/
def flagKey : Str := "flag".toList

/-- Property key `"contextId"`. -/
def contextIdKey : Str := "contextId".toList

/-- Property key `"id"`. -/
def idKey : Str := "id".toList

/-- Unique-id generation (`uid('func-******')`).  The source draws random hex
characters; the model determinizes it with a counter, keeping the property
the source relies on: each generated id is fresh. -/
def uidStr (n : Nat) : Str := 'u' :: List.replicate n '*'

/-- The token object `{flag, contextId, id}` built by `createFunctionCallback`
and `createGetterObject` (an object literal: all attributes `true`). -/
def mkToken (flag cid fid : Str) : Obj :=
  .obj [(flagKey, .data (.prim (.str flag)) true true true),
        (contextIdKey, .data (.prim (.str cid)) true true true),
        (idKey, .data (.prim (.str fid)) true true true)]

/-- Mutable state of one `serializeRequestData` run: the heap (which grows by
the freshly built token objects and transformed arrays/objects), the
`functions` map, the `processedItems` set and the `transferables` set. -/
structure SState : Type where
  heap : Heap
  fresh : Nat
  visited : List Val
  functions : List (Str × Val)
  transferables : List Val
  uidc : Nat
deriving DecidableEq, Repr

/-- Initial serializer state over a given heap. -/
def SState.init (h : Heap) (fresh uidc : Nat) : SState :=
  ⟨h, fresh, [], [], [], uidc⟩

/-- `collectTransferables`: typed arrays contribute their backing buffer,
transferables (here: `ArrayBuffer`s) are added as-is. -/
def collectTransferables (s : SState) (v : Val) : SState :=
  match v with
  | .ref a =>
    match alook s.heap a with
    | some (.typedarr b) => { s with transferables := addIfAbsent s.transferables (.ref b) }
    | some .arrbuf => { s with transferables := addIfAbsent s.transferables v }
    | _ => s
  | _ => s

/-- `createFunctionCallback`: generate a fresh id, record the function in the
`functions` map, and build a callback token object. -/
def createFunctionCallbackS (cid : Str) (s : SState) (fv : Val) : Val × SState :=
  let fid := uidStr s.uidc
  let s1 := { s with uidc := s.uidc + 1, functions := s.functions ++ [(fid, fv)] }
  (.ref s1.fresh,
    { s1 with heap := s1.heap ++ [(s1.fresh, mkToken CALLBACK_FLAG cid fid)],
              fresh := s1.fresh + 1 })

/-- `createGetterObject`: same as `createFunctionCallback` with the getter
flag. -/
def createGetterObjectS (cid : Str) (s : SState) (fv : Val) : Val × SState :=
  let fid := uidStr s.uidc
  let s1 := { s with uidc := s.uidc + 1, functions := s.functions ++ [(fid, fv)] }
  (.ref s1.fresh,
    { s1 with heap := s1.heap ++ [(s1.fresh, mkToken GETTER_FLAG cid fid)],
              fresh := s1.fresh + 1 })

mutual

/-- `processValue` from `serializeRequestData.ts`, fuel-indexed.  A value
already in `processedItems` is returned unchanged; otherwise it is added and
dispatched: arrays are rebuilt element-wise, plain objects are rebuilt
property-wise by `processPropsF`, functions become callback tokens, and
everything else runs `collectTransferables` and passes through. -/
def processValueF (cid : Str) : Nat → SState → Val → Option (Val × SState)
  | 0, _, _ => none
  | fuel + 1, s0, v =>
    if v ∈ s0.visited then some (v, s0)
    else
      let s := { s0 with visited := v :: s0.visited }
      match v with
      | .prim _ => some (v, s)
      | .ref a =>
        match alook s.heap a with
        | some (.arr elems) => do
          let (elems', s') ← processValsF cid fuel s elems
          some (.ref s'.fresh,
            { s' with heap := s'.heap ++ [(s'.fresh, .arr elems')], fresh := s'.fresh + 1 })
        | some (.obj props) => do
          let (props', s') ← processPropsF cid fuel s props
          some (.ref s'.fresh,
            { s' with heap := s'.heap ++ [(s'.fresh, .obj props')], fresh := s'.fresh + 1 })
        | some .func => some (createFunctionCallbackS cid s v)
        | _ => some (v, collectTransferables s v)
termination_by fuel s v => (fuel, 0)

/-- The element-wise traversal `value.map(item => processValue(item))`. -/
def processValsF (cid : Str) : Nat → SState → List Val → Option (List Val × SState)
  | _, s, [] => some ([], s)
  | fuel, s, v :: rest => do
    let (v', s') ← processValueF cid fuel s v
    let (rest', s'') ← processValsF cid fuel s' rest
    some (v' :: rest', s'')
termination_by fuel s l => (fuel, l.length + 1)

/-- `processPlainObject`/`processPropertyDescriptor`: getter accessors become
getter tokens (the resulting data property's `writable` is `false`, since the
accessor descriptor has no `writable` attribute), function-valued data
properties are processed recursively (becoming callback tokens on first
visit), and every other descriptor is copied verbatim — note that the
serializer does not recurse into object- or array-valued properties. -/
def processPropsF (cid : Str) :
    Nat → SState → List (Str × PropD) → Option (List (Str × PropD) × SState)
  | _, s, [] => some ([], s)
  | fuel, s, (k, d) :: rest =>
    match d with
    | .accessor g en cf => do
      let pr := createGetterObjectS cid s (.ref g)
      let (rest', s'') ← processPropsF cid fuel pr.2 rest
      some ((k, .data pr.1 en false cf) :: rest', s'')
    | .data dv en w cf =>
      if isFunc s.heap dv then do
        let (dv', s') ← processValueF cid fuel s dv
        let (rest', s'') ← processPropsF cid fuel s' rest
        some ((k, .data dv' en w cf) :: rest', s'')
      else do
        let (rest', s') ← processPropsF cid fuel s rest
        some ((k, .data dv en w cf) :: rest', s')
termination_by fuel s l => (fuel, l.length + 1)

end

/-- `serializeRequestData`: runs the traversal over the argument list with
fresh `functions`/`processedItems`/`transferables` state. -/
def serializeRequestDataF (cid : Str) (fuel : Nat) (h : Heap) (fresh uidc : Nat)
    (data : List Val) : Option (List Val × SState) :=
  processValsF cid fuel (SState.init h fresh uidc) data

/-! ## Value deserializer (`common/deserializeRequestData.ts`) -/

/-- In-place heap update at an existing address. -/
def hset (h : Heap) (a : Nat) (o : Obj) : Heap :=
  match h with
  | [] => []
  | (a', o') :: rest => if a' = a then (a, o) :: rest else (a', o') :: hset rest a o

/-- JavaScript `Map.prototype.set`: overwrite in place, or append a new
binding. -/
def assocSet {α β : Type} [DecidableEq α] : List (α × β) → α → β → List (α × β)
  | [], k, v => [(k, v)]
  | (k', v') :: rest, k, v =>
    if k' = k then (k, v) :: rest else (k', v') :: assocSet rest k v

/-- The `flag` discriminator of a token-shaped value: the string stored in an
own `flag` data property of a plain object (`'flag' in data && data.flag`).
Reading an accessor-typed `flag` property would run arbitrary user code and
is outside the modelled fragment (it yields `none` here). -/
def tokenFlagOf (h : Heap) (v : Val) : Option Str :=
  match v with
  | .ref a =>
    match alook h a with
    | some (.obj props) =>
      match alook props flagKey with
      | some (.data (.prim (.str s)) _ _ _) => some s
      | _ => none
    | _ => none
  | _ => none

/-- `isCallback` from `protocol/Callback.ts`. -/
def isCallbackV (h : Heap) (v : Val) : Bool := tokenFlagOf h v = some CALLBACK_FLAG

/-- `isGetter` from `protocol/Getter.ts`. -/
def isGetterV (h : Heap) (v : Val) : Bool := tokenFlagOf h v = some GETTER_FLAG

/-- Reading a data property off a value (`value.id` on a token); absent
properties read as `undefined`. -/
def propValueOf (h : Heap) (v : Val) (k : Str) : Val :=
  match v with
  | .ref a =>
    match alook h a with
    | some (.obj props) =>
      match alook props k with
      | some (.data dv _ _ _) => dv
      | _ => .prim .undefinedV
    | _ => .prim .undefinedV
  | _ => .prim .undefinedV

/-- Append a property to the plain object stored at `addr` (the effect of
`object[key] = …` / `Object.defineProperty(object, key, …)` during
reconstruction). -/
def pushProp (h : Heap) (addr : Nat) (k : Str) (d : PropD) : Heap :=
  match alook h addr with
  | some (.obj ps) => hset h addr (.obj (ps ++ [(k, d)]))
  | _ => h

/-- Mutable state of one `deserializeRequestData` run: the heap (growing by
the reconstructed values), the `handled` cache from wire node to
reconstruction, the `FinalizationRegistry` registrations (reconstructed
function, held callback id), and for each reconstructed proxy function the
callback id its closure captured. -/
structure DState : Type where
  heap : Heap
  fresh : Nat
  handled : List (Val × Val)
  registered : List (Val × Val)
  proxies : List (Nat × Val)
deriving DecidableEq, Repr

/-- Initial deserializer state over a given heap. -/
def DState.init (h : Heap) (fresh : Nat) : DState := ⟨h, fresh, [], [], []⟩

mutual

/-- `transform` from `deserializeRequestData.ts`, fuel-indexed: a node in the
`handled` cache returns its cached reconstruction, anything else is handed to
`transformWorkF`. -/
def transformF : Nat → DState → Val → Option (Val × DState)
  | 0, _, _ => none
  | fuel + 1, st, v =>
    match alook st.handled v with
    | some o => some (o, st)
    | none => transformWorkF (fuel + 1) st v
termination_by fuel st v => (fuel, 2)

/-- The body of `transform` past the cache check: callback tokens become
fresh (live) proxy functions; arrays and plain objects are cached *before*
recursing into their children and rebuilt element/property-wise; everything
else passes through unchanged. -/
def transformWorkF : Nat → DState → Val → Option (Val × DState)
  | 0, _, _ => none
  | fuel + 1, st, v =>
    if isCallbackV st.heap v then
      let cbid := propValueOf st.heap v idKey
      let addr := st.fresh
      let fn : Val := .ref addr
      some (fn,
        { st with heap := st.heap ++ [(addr, .func)], fresh := addr + 1,
                  proxies := st.proxies ++ [(addr, cbid)],
                  registered := st.registered ++ [(fn, cbid)],
                  handled := assocSet st.handled v fn })
    else
      match v with
      | .ref a =>
        match alook st.heap a with
        | some (.arr elems) => do
          let addr := st.fresh
          let st1 := { st with heap := st.heap ++ [(addr, .arr [])], fresh := addr + 1,
                               handled := assocSet st.handled v (.ref addr) }
          let (elems', st2) ← transformElemsF fuel st1 elems
          some (.ref addr, { st2 with heap := hset st2.heap addr (.arr elems') })
        | some (.obj props) => do
          let addr := st.fresh
          let st1 := { st with heap := st.heap ++ [(addr, .obj [])], fresh := addr + 1,
                               handled := assocSet st.handled v (.ref addr) }
          let st2 ← transformPropsF fuel st1 addr props
          some (.ref addr, st2)
        | _ => some (v, st)
      | .prim _ => some (v, st)
termination_by fuel st v => (fuel, 1)

/-- The element loop of the array branch: each element consults the cache,
and the transformed element is written back into the cache. -/
def transformElemsF : Nat → DState → List Val → Option (List Val × DState)
  | _, st, [] => some ([], st)
  | fuel, st, it :: rest =>
    match alook st.handled it with
    | some o => do
      let (rest', st') ← transformElemsF fuel st rest
      some (o :: rest', st')
    | none => do
      let (r, st1) ← transformF fuel st it
      let st2 := { st1 with handled := assocSet st1.handled it r }
      let (rest', st') ← transformElemsF fuel st2 rest
      some (r :: rest', st')
termination_by fuel st l => (fuel, l.length + 3)

/-- The property loop of the plain-object branch: getter tokens become
accessor properties whose getter is a fresh proxy function (a `defineProperty`
with only `get` set, hence non-enumerable and non-configurable); other
property values are transformed recursively and assigned (yielding ordinary
data properties).  Reading an accessor property of the wire object would run
arbitrary user code (`value[key]`), which is outside the modelled fragment. -/
def transformPropsF : Nat → DState → Nat → List (Str × PropD) → Option DState
  | _, st, _, [] => some st
  | fuel, st, addr, (k, d) :: rest =>
    match d with
    | .accessor _ _ _ => none
    | .data dv _ _ _ =>
      if isGetterV st.heap dv then
        let gid := propValueOf st.heap dv idKey
        let gaddr := st.fresh
        let st1 := { st with heap := st.heap ++ [(gaddr, Obj.func)], fresh := gaddr + 1,
                             proxies := st.proxies ++ [(gaddr, gid)],
                             registered := st.registered ++ [(Val.ref gaddr, gid)] }
        let st2 := { st1 with heap := pushProp st1.heap addr k (.accessor gaddr false false) }
        transformPropsF fuel st2 addr rest
      else do
        let (r, st1) ← transformF fuel st dv
        let st2 := { st1 with heap := pushProp st1.heap addr k (.data r true true true) }
        transformPropsF fuel st2 addr rest
termination_by fuel st addr l => (fuel, l.length + 3)

end

/-- The top-level `data.map(transform)` of `deserializeRequestData`. -/
def deserializeTopF (fuel : Nat) : DState → List Val → Option (List Val × DState)
  | st, [] => some ([], st)
  | st, v :: rest => do
    let (v', st') ← transformF fuel st v
    let (rest', st'') ← deserializeTopF fuel st' rest
    some (v' :: rest', st'')

/-- `deserializeRequestData`: runs the traversal with a fresh `handled` cache
and a fresh `FinalizationRegistry`. -/
def deserializeRequestDataF (fuel : Nat) (h : Heap) (fresh : Nat) (data : List Val) :
    Option (List Val × DState) :=
  deserializeTopF fuel (DState.init h fresh) data

/-! ## Fuel bounds

Both traversals recurse only into values that occur in the initial heap or in
the argument list, and each level of recursion permanently marks one such
value (in `processedItems` resp. `handled`).  `bigFuel` is therefore enough
fuel for any run; the sufficiency lemmas below prove it. -/

/-- The child values a traversal can recurse into from one heap object. -/
def objChildVals : Obj → List Val
  | .arr es => es
  | .obj ps => ps.foldr (fun kd acc =>
      match kd.2 with
      | .data v _ _ _ => v :: acc
      | .accessor _ _ _ => acc) []
  | _ => []

/-- Every value occurring in the heap: each address as a reference, plus the
child values of each object. -/
def heapVals (h : Heap) : List Val :=
  h.foldr (fun ao acc => Val.ref ao.1 :: (objChildVals ao.2 ++ acc)) []

/-- Fuel that is sufficient for a whole traversal of `h` starting from
`extra`. -/
def bigFuel (h : Heap) (extra : List Val) : Nat :=
  (heapVals h ++ extra).length + 1

/-! ## Endpoint (`core/WebRPCPort.ts`, current protocol) -/

/-- `ErrorInfo` from `protocol/ErrorInfo.ts`. -/
structure ErrInfo : Type where
  code : Int
  message : Str
  stack : Option Str
deriving DecidableEq, Repr

/-- The wire messages.  The `_webrpc.action` tag is encoded by the
constructor (`method-call` / `method-return` / `cleanup-callback`), the
`_webrpc.timestamp` by the `timestamp` field.  A `method-return` carries its
`result` and `error` fields as `Option`s: `some` means the property is
present on the message (`'result' in message`), which is how the source
distinguishes success from failure. -/
inductive RPCMsg : Type
  | call (id : Str) (method : Str) (params : List Val) (timestamp : Int)
  | ret (id : Str) (result : Option Val) (error : Option ErrInfo) (timestamp : Int)
  | cleanup (id : Str) (timestamp : Int)
deriving DecidableEq, Repr

/-- The `id` field of a message. -/
def RPCMsg.msgId : RPCMsg → Str
  | .call id _ _ _ => id
  | .ret id _ _ _ => id
  | .cleanup id _ => id

/-- State of one `WebRPCPort`: identity, the local implementation object's
own properties, the `callbacks` registry, the pending `invocationDefers`
(represented by their action ids), and the JavaScript heap the port's values
live in. -/
structure PortSt : Type where
  clientId : Str
  portId : Str
  localInstance : List (Str × Val)
  callbacks : List (Str × Val)
  defers : List Str
  heap : Heap
  fresh : Nat
  uidc : Nat
deriving DecidableEq, Repr

/-- The behaviour of a local function when invoked: it either returns a value
(possibly a reference to a promise or thenable object in the heap) or throws
with a message.  Behaviours are assigned to function addresses by an
environment `beh : Nat → MethodBeh` supplied to the port operations. -/
inductive MethodBeh : Type
  | retv (v : Val)
  | raise (msg : Str)
deriving DecidableEq, Repr

/-- Observable effects of a port operation: transport sends, and settlements
of pending defers. -/
inductive Eff : Type
  | send (m : RPCMsg) (transferList : List Val)
  | resolveDefer (actionId : Str) (v : Val)
  | rejectDefer (actionId : Str) (e : ErrInfo)
deriving DecidableEq, Repr

/-- Property key `"then"`. -/
def thenKey : Str := "then".toList

/-- `isPromiseLike` from `common/isPromiseLike.ts`:
`typeof value === 'object' && value !== null && 'then' in value` — a property
*presence* check only, with no test that `then` is callable.  Native promises
have `then` on their prototype; arrays, buffers and typed arrays do not. -/
def isPromiseLikeV (h : Heap) (v : Val) : Bool :=
  match v with
  | .ref a =>
    match alook h a with
    | some (.obj props) => (alook props thenKey).isSome
    | some (.promise _) => true
    | _ => false
  | _ => false

/-- What `result.then(handleSuccess, handleError)` does: a native promise
settles exactly once; a non-callable `then` property throws a `TypeError`
synchronously; a user-defined callable `then` (or an accessor-typed `then`)
runs arbitrary user code and is outside the modelled fragment. -/
inductive ThenBehavior : Type
  | settles (r : PResult)
  | notCallable
  | user
deriving DecidableEq, Repr

/-- Classify the `then` call on a promise-like value. -/
def classifyThen (h : Heap) (v : Val) : ThenBehavior :=
  match v with
  | .ref a =>
    match alook h a with
    | some (.promise r) => .settles r
    | some (.obj props) =>
      match alook props thenKey with
      | some (.data w _ _ _) => if isFunc h w then .user else .notCallable
      | some (.accessor _ _ _) => .user
      | none => .notCallable
    | _ => .notCallable
  | _ => .notCallable

/-- Message of the `TypeError` raised by calling a non-callable `then`. -/
def thenTypeErrMsg : Str := "result.then is not a function".toList

/-- Message of the `TypeError` raised by `.bind` on a non-function own
property of the local instance. -/
def bindTypeErrMsg : Str := "method.bind is not a function".toList

/-- Error message of the `Method not found` throw in `handleMethodCall`. -/
def methodNotFoundErr (method : Str) : Str :=
  "Method not found: ".toList ++ method

/-- The success branch `handleSuccess` of `invokeLocalMethod`: serialize the
result under the port's scope, merge the emitted functions into the
`callbacks` registry, and send one `method-return` message whose `result`
property is present. -/
def handleSuccess (st : PortSt) (invocationId : Str) (result : Val) (now : Int) :
    Option (PortSt × List Eff) :=
  match serializeRequestDataF st.portId (bigFuel st.heap [result]) st.heap st.fresh st.uidc
      [result] with
  | none => none
  | some (data, s) =>
    some ({ st with heap := s.heap, fresh := s.fresh, uidc := s.uidc,
                    callbacks := s.functions.foldl (fun cb kv => assocSet cb kv.1 kv.2)
                      st.callbacks },
          [.send (.ret invocationId (some data.headI) none now) s.transferables])

/-- The failure branch `handleError` of `invokeLocalMethod`: send one
`method-return` message whose `error` property is present, always with the
internal-error code `-32603`. -/
def handleError (st : PortSt) (invocationId : Str) (msg : Str) (now : Int) :
    PortSt × List Eff :=
  (st, [.send (.ret invocationId none (some ⟨-32603, msg, none⟩) now) []])

/-- `invokeLocalMethod`: run the method, branch on `isPromiseLike` of the
result, and send exactly one return message; synchronous throws (including
the `TypeError` from calling a non-callable `then`) are caught by the
surrounding `try` and routed to `handleError`. -/
def invokeLocalMethod (beh : Nat → MethodBeh) (st : PortSt) (invocationId : Str)
    (methodAddr : Nat) (_args : List Val) (now : Int) : Option (PortSt × List Eff) :=
  match beh methodAddr with
  | .raise msg => some (handleError st invocationId msg now)
  | .retv result =>
    if isPromiseLikeV st.heap result then
      match classifyThen st.heap result with
      | .settles (.ok v) => handleSuccess st invocationId v now
      | .settles (.err m) => some (handleError st invocationId m now)
      | .notCallable => some (handleError st invocationId thenTypeErrMsg now)
      | .user => none
    else handleSuccess st invocationId result now

/-- `handleMethodCall`: deserialize the parameters, resolve the target —
first an own property of the local instance (a non-function own property
makes the `.bind` call throw a `TypeError`), then the `callbacks` registry —
and throw `Method not found` when neither yields a function; otherwise invoke
the method.  The throw propagates out of `receive` (nothing catches it). -/
def handleMethodCall (beh : Nat → MethodBeh) (st : PortSt) (id : Str) (method : Str)
    (params : List Val) (now : Int) : Option (Except Str (PortSt × List Eff)) :=
  match deserializeRequestDataF (bigFuel st.heap params) st.heap st.fresh params with
  | none => none
  | some (args, dst) =>
    let st1 := { st with heap := dst.heap, fresh := dst.fresh }
    match alook st1.localInstance method with
    | some v =>
      if isFunc st1.heap v then
        match v with
        | .ref fa => (invokeLocalMethod beh st1 id fa args now).map .ok
        | .prim _ => none
      else some (.error bindTypeErrMsg)
    | none =>
      match alook st1.callbacks method with
      | some cv =>
        if isFunc st1.heap cv then
          match cv with
          | .ref fa => (invokeLocalMethod beh st1 id fa args now).map .ok
          | .prim _ => none
        else some (.error (methodNotFoundErr method))
      | none => some (.error (methodNotFoundErr method))

/-- Association-list delete (`Map.prototype.delete`). -/
def assocErase {α β : Type} [DecidableEq α] : List (α × β) → α → List (α × β)
  | [], _ => []
  | (k', v') :: rest, k => if k' = k then rest else (k', v') :: assocErase rest k

/-- `handleMethodReturn`: parse the composite id (a malformed id throws), look
up the pending defer by action id; if present, branch on *property presence* —
`result` present deserializes and resolves, otherwise `error` present
rejects — and in every case delete the pending entry; an absent defer causes
no settlement and no error. -/
def handleMethodReturn (st : PortSt) (id : Str) (result : Option Val)
    (error : Option ErrInfo) : Option (Except Str (PortSt × List Eff)) :=
  match parseInvocationId id with
  | .error e => some (.error e)
  | .ok pid =>
    let actionId := pid.id
    if actionId ∈ st.defers then
      match result with
      | some r =>
        match deserializeRequestDataF (bigFuel st.heap [r]) st.heap st.fresh [r] with
        | none => none
        | some (res, dst) =>
          some (.ok ({ st with heap := dst.heap, fresh := dst.fresh,
                               defers := st.defers.erase actionId },
                     [.resolveDefer actionId res.headI]))
      | none =>
        match error with
        | some e =>
          some (.ok ({ st with defers := st.defers.erase actionId },
                     [.rejectDefer actionId e]))
        | none => some (.ok ({ st with defers := st.defers.erase actionId }, []))
    else some (.ok ({ st with defers := st.defers.erase actionId }, []))

/-- `cleanupLocalCallback`: delete the registry entry named by the cleanup
notice (validated by `createSafeId`); absence of the entry is not an error.
The `CleanupCallbackMessage` declaration is not in the snapshot; the id
carried by the message is used as the callback id, as the sending side
(`cleanupRemoteCallback`) fills it. -/
def cleanupLocalCallback (st : PortSt) (cbid : Str) : Except Str (PortSt × List Eff) :=
  match createSafeId cbid with
  | .error e => .error e
  | .ok c => .ok ({ st with callbacks := assocErase st.callbacks c }, [])

/-- `WebRPCPort.receive`: dispatch on the message's action tag. -/
def portReceive (beh : Nat → MethodBeh) (st : PortSt) (m : RPCMsg) (now : Int) :
    Option (Except Str (PortSt × List Eff)) :=
  match m with
  | .call id method params _ => handleMethodCall beh st id method params now
  | .ret id result error _ => handleMethodReturn st id result error
  | .cleanup cbid _ => some (cleanupLocalCallback st cbid)

/-! ## Router (`core/WebRPC.ts`) -/

/-- State of one `WebRPC` router: its participant identity and its named
ports. -/
structure RouterSt : Type where
  clientId : Str
  ports : List (Str × PortSt)
deriving DecidableEq, Repr

/-- `WebRPC.receive`.  An inbound raw datum either fails the `isRPCMessage`
shape check (`none`: silently dropped) or is a message.  The participant and
endpoint segments are read from the message and compared against the
router's identity and port table; mismatches and unknown ports are silently
dropped, and only then is the message dispatched to the port.  The snapshot
carries the pre-refactor `receive` (which reads a structured `invocationId`
object); the current-protocol message carries the composite string id, so the
segments are extracted with `parseInvocationId` here, per the specified
routing (discard malformed, discard foreign participant, drop unknown
endpoint names). -/
def routerReceive (beh : Nat → MethodBeh) (rt : RouterSt) (raw : Option RPCMsg) (now : Int) :
    Option (Except Str (RouterSt × List Eff)) :=
  match raw with
  | none => some (.ok (rt, []))
  | some m =>
    match parseInvocationId m.msgId with
    | .error _ => some (.ok (rt, []))
    | .ok pid =>
      if pid.clientId ≠ rt.clientId then some (.ok (rt, []))
      else
        match alook rt.ports pid.portId with
        | none => some (.ok (rt, []))
        | some p =>
          (portReceive beh p m now).map (Except.map (fun pr =>
            ({ rt with ports := assocSet rt.ports pid.portId pr.1 }, pr.2)))

/-- The `method-return` messages among a list of effects. -/
def returnSends (effs : List Eff) : List RPCMsg :=
  effs.filterMap (fun e =>
    match e with
    | .send (.ret i r er t) _ => some (.ret i r er t)
    | _ => none)

/-! ## JSON-compatible trees

An acyclic JSON-compatible value — primitives, arrays and plain objects, no
functions, accessors or binary payloads — is a tree.  `ReadsT h v t l` says
the heap value `v` reads back as the tree `t`, using the heap nodes listed in
`l`; it is the structural-equality yardstick for the round-trip law. -/

/-- JSON-compatible value trees. -/
inductive JTree : Type
  | prim (p : JPrim)
  | arr (ts : List JTree)
  | obj (props : List (Str × JTree))

mutual

/-- Size of a tree (used as a fuel bound). -/
def tsize : JTree → Nat
  | .prim _ => 1
  | .arr ts => tsizeL ts + 1
  | .obj ps => tsizeP ps + 1

/-- Size of a list of trees. -/
def tsizeL : List JTree → Nat
  | [] => 0
  | t :: ts => tsize t + tsizeL ts

/-- Size of a property list of trees. -/
def tsizeP : List (Str × JTree) → Nat
  | [] => 0
  | kt :: ps => tsize kt.2 + tsizeP ps

end

mutual

/-- No object node of the tree carries the reserved token discriminator: a
`flag` property whose value is `CALLBACK_FLAG` or `GETTER_FLAG`. -/
def tokenFree : JTree → Bool
  | .prim _ => true
  | .arr ts => tokenFreeL ts
  | .obj ps =>
    (match alook ps flagKey with
     | some (.prim (.str s)) => decide (s ≠ CALLBACK_FLAG) && decide (s ≠ GETTER_FLAG)
     | _ => true) && tokenFreeP ps

/-- `tokenFree` on a list of trees. -/
def tokenFreeL : List JTree → Bool
  | [] => true
  | t :: ts => tokenFree t && tokenFreeL ts

/-- `tokenFree` on a property list. -/
def tokenFreeP : List (Str × JTree) → Bool
  | [] => true
  | kt :: ps => tokenFree kt.2 && tokenFreeP ps

end

mutual

/-- `ReadsT h v t l`: `v` reads back as the JSON tree `t` in heap `h`, the
object nodes used being exactly those listed in `l` (in traversal order).
JSON objects have data properties with all attributes `true`. -/
inductive ReadsT : Heap → Val → JTree → List Nat → Prop
  | prim (h : Heap) (p : JPrim) : ReadsT h (.prim p) (.prim p) []
  | arr (h : Heap) (a : Nat) (vs : List Val) (ts : List JTree) (ls : List Nat) :
      alook h a = some (.arr vs) → ReadsL h vs ts ls →
      ReadsT h (.ref a) (.arr ts) (a :: ls)
  | obj (h : Heap) (a : Nat) (props : List (Str × PropD)) (pts : List (Str × JTree))
      (ls : List Nat) :
      alook h a = some (.obj props) → ReadsP h props pts ls →
      ReadsT h (.ref a) (.obj pts) (a :: ls)

/-- `ReadsT` element-wise on arrays. -/
inductive ReadsL : Heap → List Val → List JTree → List Nat → Prop
  | nil (h : Heap) : ReadsL h [] [] []
  | cons (h : Heap) (v : Val) (t : JTree) (l : List Nat) (vs : List Val) (ts : List JTree)
      (ls : List Nat) :
      ReadsT h v t l → ReadsL h vs ts ls → ReadsL h (v :: vs) (t :: ts) (l ++ ls)

/-- `ReadsT` property-wise on plain objects. -/
inductive ReadsP : Heap → List (Str × PropD) → List (Str × JTree) → List Nat → Prop
  | nil (h : Heap) : ReadsP h [] [] []
  | cons (h : Heap) (k : Str) (v : Val) (t : JTree) (l : List Nat)
      (ps : List (Str × PropD)) (ts : List (Str × JTree)) (ls : List Nat) :
      ReadsT h v t l → ReadsP h ps ts ls →
      ReadsP h ((k, .data v true true true) :: ps) ((k, t) :: ts) (l ++ ls)

end

mutual

/-- Build a fresh tree-shaped heap region for a JSON tree, starting at
address `n`: returns the value, the new heap entries and the next fresh
address. -/
def buildT : JTree → Nat → Val × Heap × Nat
  | .prim p, n => (.prim p, [], n)
  | .arr ts, n =>
    match buildL ts n with
    | (vs, hs, n') => (.ref n', hs ++ [(n', .arr vs)], n' + 1)
  | .obj ps, n =>
    match buildP ps n with
    | (ps', hs, n') => (.ref n', hs ++ [(n', .obj ps')], n' + 1)

/-- `buildT` over a list of trees. -/
def buildL : List JTree → Nat → List Val × Heap × Nat
  | [], n => ([], [], n)
  | t :: ts, n =>
    match buildT t n with
    | (v, h1, n1) =>
      match buildL ts n1 with
      | (vs, h2, n2) => (v :: vs, h1 ++ h2, n2)

/-- `buildT` over a property list. -/
def buildP : List (Str × JTree) → Nat → List (Str × PropD) × Heap × Nat
  | [], n => ([], [], n)
  | kt :: ps, n =>
    match buildT kt.2 n with
    | (v, h1, n1) =>
      match buildP ps n1 with
      | (ps', h2, n2) => ((kt.1, .data v true true true) :: ps', h1 ++ h2, n2)

end

/-! ## Concrete inputs used by counterexamples and witnesses -/

/-- A sample endpoint-scoping context id. -/
def ctxId : Str := "ctx".toList

/-- Property key `"self"`. -/
def selfKey : Str := "self".toList

/-- Property key `"b"`. -/
def bKey : Str := "b".toList

/-- Property key `"f"`. -/
def fKey : Str := "f".toList

/-- A heap with a function at address `0` and the array `[fn]` at `1`. -/
def sharedHeap : Heap := [(0, .func), (1, .arr [.ref 0])]

/-- A heap with `{b: {f: fn}}` at address `2` (the inner object at `0`, the
function at `1`). -/
def deepHeap : Heap :=
  [(0, .obj [(fKey, .data (.ref 1) true true true)]),
   (1, .func),
   (2, .obj [(bKey, .data (.ref 0) true true true)])]

/-- A heap with the self-referential object `v = {self: v}` at address `0`. -/
def selfRefHeap : Heap := [(0, .obj [(selfKey, .data (.ref 0) true true true)])]

/-- A heap with the (function-free, JSON-compatible) plain object
`{flag: '$$WEB-RPC-CALLBACK'}` at address `0`. -/
def flagHeap : Heap :=
  [(0, .obj [(flagKey, .data (.prim (.str CALLBACK_FLAG)) true true true)])]

/-- The JSON tree of `{flag: '$$WEB-RPC-CALLBACK'}`. -/
def flagTree : JTree := .obj [(flagKey, .prim (.str CALLBACK_FLAG))]

/-- The heap after serializing `[{self: v}]` over `selfRefHeap`: the shallow
copy at address `1` still points back at the original `v`. -/
def selfSerHeap : Heap :=
  [(0, .obj [(selfKey, .data (.ref 0) true true true)]),
   (1, .obj [(selfKey, .data (.ref 0) true true true)])]

/-- The heap after serializing `[{flag: '$$WEB-RPC-CALLBACK'}]` over
`flagHeap`: a shallow copy of the token-shaped object at address `1`. -/
def flagSerHeap : Heap :=
  [(0, .obj [(flagKey, .data (.prim (.str CALLBACK_FLAG)) true true true)]),
   (1, .obj [(flagKey, .data (.prim (.str CALLBACK_FLAG)) true true true)])]

/-! ## Invariants used by the structural lemmas -/

/-- All heap addresses lie strictly below the allocation counter. -/
def heapWF (h : Heap) (fresh : Nat) : Prop := ∀ p ∈ h, p.1 < fresh

/-- How one serializer step may evolve the state: the heap only grows by
appended allocations, the counters only grow, the `processedItems` set only
grows, the `functions` map only grows by appended entries, and
well-formedness is preserved. -/
def SStep (s s' : SState) : Prop :=
  (∃ hs, s'.heap = s.heap ++ hs) ∧
  (∀ k, k < s.fresh → alook s'.heap k = alook s.heap k) ∧
  s.fresh ≤ s'.fresh ∧ s.uidc ≤ s'.uidc ∧
  (∀ x ∈ s.visited, x ∈ s'.visited) ∧ (∃ fs, s'.functions = s.functions ++ fs) ∧
  (heapWF s.heap s.fresh → heapWF s'.heap s'.fresh)

/-- How one deserializer step may evolve the state: bindings of
already-allocated addresses are untouched, the allocation counter only grows,
`handled` bindings are stable (never removed or changed), and
well-formedness is preserved. -/
def DStep (st st' : DState) : Prop :=
  (∀ k, k < st.fresh → alook st'.heap k = alook st.heap k) ∧
  st.fresh ≤ st'.fresh ∧
  (∀ k x, alook st.handled k = some x → alook st'.handled k = some x) ∧
  (heapWF st.heap st.fresh → heapWF st'.heap st'.fresh)

/-- Is a property descriptor a data property? -/
def PropD.isData : PropD → Bool
  | .data _ _ _ _ => true
  | .accessor _ _ _ => false

/-- The own property list of a heap object (empty for non-objects). -/
def objProps : Obj → List (Str × PropD)
  | .obj ps => ps
  | _ => []

/-- A set of values closed under the serializer's recursion: every reference
in it is already allocated (below the fresh counter) and the children of the
object it denotes stay in the set. -/
def SClosed (univ : Finset Val) (h : Heap) (fresh : Nat) : Prop :=
  ∀ a, Val.ref a ∈ univ → a < fresh ∧
    ∀ o, alook h a = some o → ∀ c ∈ objChildVals o, c ∈ univ

/-- Values of the universe not yet in `processedItems`: the serializer's
termination measure. -/
def sMeasure (univ : Finset Val) (s : SState) : Nat :=
  (univ.filter (fun x => x ∉ s.visited)).card

/-- A set of values closed under the deserializer's recursion; additionally
every object it can reach has only data properties (reading an accessor
property would run arbitrary user code). -/
def DClosed (univ : Finset Val) (h : Heap) (fresh : Nat) : Prop :=
  ∀ a, Val.ref a ∈ univ → a < fresh ∧
    ∀ o, alook h a = some o →
      (∀ c ∈ objChildVals o, c ∈ univ) ∧ (∀ kd ∈ objProps o, kd.2.isData = true)

/-- Values of the universe not yet in the `handled` cache: the deserializer's
termination measure. -/
def dMeasure (univ : Finset Val) (st : DState) : Nat :=
  (univ.filter (fun x => alook st.handled x = none)).card

/-- Every reference occurring in the heap's objects or in the extra values is
already allocated.  This is true of every real JavaScript object graph (a
reference always denotes a live object) and rules out the modelling artifact
of a dangling reference that a later allocation could capture. -/
def heapClosedVals (h : Heap) (fresh : Nat) (extra : List Val) : Prop :=
  ∀ a, Val.ref a ∈ heapVals h ++ extra → a < fresh

/-- Every plain object of the heap has only data properties. -/
def heapDataOnly (h : Heap) : Prop :=
  ∀ p ∈ h, ∀ kd ∈ objProps p.2, kd.2.isData = true

/-- A value's references lie strictly below the allocation frontier. -/
def valClosed (fresh : Nat) : Val → Prop
  | .ref a => a < fresh
  | .prim _ => True

/-- Every reconstruction cached in `handled` is closed below the frontier. -/
def cacheClosed (st : DState) : Prop :=
  ∀ k r, alook st.handled k = some r → valClosed st.fresh r

/-- Every value stored inside a heap object is closed below the frontier. -/
def heapValsClosed (h : Heap) (fresh : Nat) : Prop :=
  ∀ p ∈ h, ∀ c ∈ objChildVals p.2, valClosed fresh c

/-! ## Concrete ports and routers used by witnesses and counterexamples -/

/-- A port with empty local instance, callback registry, pending table and
heap. -/
def port0 : PortSt := ⟨"c".toList, "p".toList, [], [], [], [], 0, 0⟩

/-- A trivial behaviour environment: every function returns `undefined`. -/
def beh0 : Nat → MethodBeh := fun _ => .retv (.prim .undefinedV)

/-- A router owning the single port `"p"`. -/
def router0 : RouterSt := ⟨"c".toList, [("p".toList, port0)]⟩

/-- A heap whose object at `0` carries a non-callable `then` property, and a
function at `1`. -/
def thenHeap : Heap :=
  [(0, .obj [(thenKey, .data (.prim (.num 1)) true true true)]), (1, .func)]

/-- A port whose local instance binds method `"m"` to the function at `1` of
`thenHeap`. -/
def port10 : PortSt := ⟨"c".toList, "p".toList, [("m".toList, .ref 1)], [], [], thenHeap, 2, 0⟩

/-- Behaviour environment for `port10`: the local method returns the
`then`-carrying object at `0`. -/
def beh10 : Nat → MethodBeh := fun _ => .retv (.ref 0)

/-- A port with the single local method `"m"`, a function at `0`. -/
def port2 : PortSt := ⟨"c".toList, "p".toList, [("m".toList, .ref 0)], [], [], [(0, Obj.func)], 1, 0⟩

/-! ## Identifier codec lemmas and theorems -/

theorem splitOnSlash_ne_nil (s : Str) : splitOnSlash s ≠ [] := by
  cases s with
  | nil => simp [splitOnSlash]
  | cons c rest => by_cases hc : c = '/' <;> simp [splitOnSlash, hc]

theorem splitOnSlash_no_sep (s : Str) (h : '/' ∉ s) : splitOnSlash s = [s] := by
  induction s with
  | nil => rfl
  | cons c rest ih =>
    simp only [List.mem_cons, not_or] at h
    have hc : ¬ c = '/' := fun hc => h.1 hc.symm
    simp [splitOnSlash, ih h.2, hc]

theorem splitOnSlash_append (p t : Str) (h : '/' ∉ p) :
    splitOnSlash (p ++ '/' :: t) = p :: splitOnSlash t := by
  induction p with
  | nil => simp [splitOnSlash]
  | cons c rest ih =>
    simp only [List.mem_cons, not_or] at h
    have hc : ¬ c = '/' := fun hc => h.1 hc.symm
    simp [splitOnSlash, ih h.2, hc]

theorem mem_splitOnSlash_no_sep (s t : Str) (ht : t ∈ splitOnSlash s) : '/' ∉ t := by
  induction s generalizing t with
  | nil =>
    simp only [splitOnSlash, List.mem_singleton] at ht
    subst ht; simp
  | cons c rest ih =>
    by_cases hc : c = '/'
    · simp only [splitOnSlash, hc, if_pos rfl] at ht
      rcases List.mem_cons.mp ht with h1 | h1
      · subst h1; simp
      · exact ih t h1
    · simp only [splitOnSlash, if_neg hc, List.mem_cons] at ht
      cases h : splitOnSlash rest with
      | nil => exact absurd h (splitOnSlash_ne_nil rest)
      | cons a l =>
        rw [h] at ht
        rcases ht with h1 | h1
        · subst h1
          intro hmem
          rcases List.mem_cons.mp hmem with h2 | h2
          · exact hc h2.symm
          · exact ih a (by rw [h]; exact List.mem_cons_self a l) (by simpa using h2)
        · exact ih t (by rw [h]; exact List.mem_cons_of_mem a h1)

/-- C7: the identifier codec round-trips.  For all participant and endpoint
segments containing no `'/'`, and any action segment containing no `'/'`,
`parseInvocationId (createInvocationId p e a)` returns exactly the three
original segments. -/
theorem parse_createInvocationId_round_trip (p e a : Str)
    (hp : '/' ∉ p) (he : '/' ∉ e) (ha : '/' ∉ a) :
    parseInvocationId (createInvocationId p e a) = .ok ⟨p, e, a⟩ := by
  unfold createInvocationId parseInvocationId
  rw [splitOnSlash_append p (e ++ '/' :: a) hp, splitOnSlash_append e a he,
    splitOnSlash_no_sep a ha]
  simp only [createSafeId, if_neg hp, if_neg he]
  rfl

/-- Witness for `parse_createInvocationId_round_trip` at concrete segments. -/
theorem parse_createInvocationId_round_trip_witness :
    parseInvocationId (createInvocationId "cli".toList "prt".toList "act".toList) =
      .ok ⟨"cli".toList, "prt".toList, "act".toList⟩ :=
  parse_createInvocationId_round_trip _ _ _ (by decide) (by decide) (by decide)

theorem parse_of_split_three (s x y z : Str) (h : splitOnSlash s = [x, y, z]) :
    parseInvocationId s = .ok ⟨x, y, z⟩ := by
  have hx : '/' ∉ x := mem_splitOnSlash_no_sep s x (by rw [h]; simp)
  have hy : '/' ∉ y := mem_splitOnSlash_no_sep s y (by rw [h]; simp)
  unfold parseInvocationId
  rw [h]
  simp only [createSafeId, if_neg hx, if_neg hy]
  rfl

/-- C8: `createSafeId` throws exactly for the strings containing `'/'`, and
`parseInvocationId` throws a format error exactly when splitting its input on
`'/'` does not yield exactly three parts, and returns the three segments
otherwise. -/
theorem createSafeId_parseInvocationId_strict (s : Str) :
    ((∃ e, createSafeId s = .error e) ↔ '/' ∈ s) ∧
    ((∃ e, parseInvocationId s = .error e) ↔ (splitOnSlash s).length ≠ 3) ∧
    (∀ x y z, splitOnSlash s = [x, y, z] → parseInvocationId s = .ok ⟨x, y, z⟩) := by
  refine ⟨⟨?_, ?_⟩, ⟨?_, ?_⟩, parse_of_split_three s⟩
  · rintro ⟨e, he⟩
    by_contra hs
    simp [createSafeId, hs] at he
  · intro hs
    exact ⟨safeIdErr s, by simp [createSafeId, hs]⟩
  · rintro ⟨e, he⟩ hlen
    obtain ⟨x, y, z, hxyz⟩ := List.length_eq_three.mp hlen
    rw [parse_of_split_three s x y z hxyz] at he
    exact Except.noConfusion he
  · intro hlen
    rcases hl : splitOnSlash s with _ | ⟨a, _ | ⟨b, _ | ⟨c, _ | ⟨d, t⟩⟩⟩⟩
    · exact ⟨invocationIdErr s, by unfold parseInvocationId; rw [hl]⟩
    · exact ⟨invocationIdErr s, by unfold parseInvocationId; rw [hl]⟩
    · exact ⟨invocationIdErr s, by unfold parseInvocationId; rw [hl]⟩
    · exact absurd (by rw [hl]; rfl : (splitOnSlash s).length = 3) hlen
    · exact ⟨invocationIdErr s, by unfold parseInvocationId; rw [hl]⟩

/-- Witness for `createSafeId_parseInvocationId_strict` at concrete inputs. -/
theorem createSafeId_parseInvocationId_strict_witness :
    (∃ e, createSafeId "a/b".toList = .error e) ∧
    (∃ e, parseInvocationId "part1/part2".toList = .error e) ∧
    parseInvocationId "a/b/c".toList = .ok ⟨"a".toList, "b".toList, "c".toList⟩ :=
  ⟨(createSafeId_parseInvocationId_strict "a/b".toList).1.mpr (by decide),
   (createSafeId_parseInvocationId_strict "part1/part2".toList).2.1.mpr (by decide),
   (createSafeId_parseInvocationId_strict "a/b/c".toList).2.2 _ _ _ (by decide)⟩

theorem uidStr_injective : Function.Injective uidStr := by
  intro a b hab
  have := congrArg List.length hab
  simpa [uidStr] using this

/-! ## Serializer: counterexamples -/

/-- C5 counterexample: on the input `[a, a]` where `a = [fn]` is one shared
array node, the first occurrence is transformed into the fresh placeholder
(address `3`) but the second occurrence yields the *original* node `a`
(address `1`), still untransformed and still holding the live function, not
the already-produced placeholder. -/
theorem serialize_revisit_yields_original_counterexample :
    (serializeRequestDataF ctxId 10 sharedHeap 2 0 [.ref 1, .ref 1]).map
        (fun p => (p.1, alook p.2.heap 1, alook p.2.heap 0)) =
      some ([.ref 3, .ref 1], some (.arr [.ref 0]), some .func) ∧
    (Val.ref 1 : Val) ≠ .ref 3 := by
  refine ⟨?_, by decide⟩
  simp [serializeRequestDataF, processValsF, processValueF, processPropsF, SState.init,
    createFunctionCallbackS, collectTransferables, mkToken, uidStr, ctxId, sharedHeap,
    alook, addIfAbsent, isFunc, flagKey, contextIdKey, idKey, CALLBACK_FLAG]

/-- C4 counterexample: on the input `[{b: {f: fn}}]` the serializer copies
the object-valued property `b` verbatim without recursing, so the function
nested two objects deep is not replaced by a callback token, the function map
stays empty, and the returned data still reaches the live function
(`data[0].b.f` is the original function object). -/
theorem serialize_nested_function_counterexample :
    (serializeRequestDataF ctxId 10 deepHeap 3 0 [.ref 2]).map
        (fun p => (p.1, p.2.functions, alook p.2.heap 3, alook p.2.heap 0, alook p.2.heap 1)) =
      some ([.ref 3], [],
        some (.obj [(bKey, .data (.ref 0) true true true)]),
        some (.obj [(fKey, .data (.ref 1) true true true)]),
        some .func) := by
  simp [serializeRequestDataF, processValsF, processValueF, processPropsF, SState.init,
    createFunctionCallbackS, collectTransferables, mkToken, uidStr, ctxId, deepHeap,
    alook, addIfAbsent, isFunc, flagKey, contextIdKey, idKey, CALLBACK_FLAG, bKey, fKey]

set_option maxHeartbeats 1000000 in
set_option synthInstance.maxHeartbeats 200000 in
/-- C1 counterexample: for `v = {self: v}`, serializing `[v]` and then
deserializing the result terminates, but the reconstructed value does not
satisfy `result.self === result`: the result is the object at address `2`
while its `self` property holds the (itself self-referential) object at
address `3`. -/
theorem round_trip_self_identity_counterexample :
    (serializeRequestDataF ctxId 10 selfRefHeap 1 0 [.ref 0]).map
        (fun p => (p.1, p.2.heap, p.2.fresh)) = some ([.ref 1], selfSerHeap, 2) ∧
    (deserializeRequestDataF 10 selfSerHeap 2 [.ref 1]).map
        (fun p => (p.1, propValueOf p.2.heap p.1.headI selfKey)) =
      some ([.ref 2], .ref 3) ∧
    (Val.ref 3 : Val) ≠ .ref 2 := by
  refine ⟨?_, ?_, by decide⟩
  · simp [serializeRequestDataF, processValsF, processValueF, processPropsF, SState.init,
      createFunctionCallbackS, collectTransferables, mkToken, uidStr, ctxId, selfRefHeap,
      selfSerHeap, alook, addIfAbsent, isFunc, flagKey, contextIdKey, idKey, selfKey]
  · simp [deserializeRequestDataF, deserializeTopF, transformF, transformWorkF,
      transformElemsF, transformPropsF, DState.init, assocSet, hset, pushProp,
      tokenFlagOf, isCallbackV, isGetterV, propValueOf, alook, selfSerHeap, selfKey,
      flagKey, CALLBACK_FLAG, GETTER_FLAG]

set_option maxHeartbeats 1000000 in
set_option synthInstance.maxHeartbeats 200000 in
/-- C6 counterexample: the plain object `{flag: '$$WEB-RPC-CALLBACK'}` is an
acyclic JSON-compatible value with no functions, but its round trip yields a
*function* (the deserializer mistakes the wire object for a callback token),
which is not structurally equal to the original object. -/
theorem round_trip_token_shaped_counterexample :
    buildT flagTree 0 = (.ref 0, flagHeap, 1) ∧
    (serializeRequestDataF ctxId 10 flagHeap 1 0 [.ref 0]).map
        (fun p => (p.1, p.2.heap, p.2.fresh)) = some ([.ref 1], flagSerHeap, 2) ∧
    (deserializeRequestDataF 10 flagSerHeap 2 [.ref 1]).map
        (fun p => (p.1, alook p.2.heap 2)) = some ([.ref 2], some .func) ∧
    (∀ (h : Heap) (l : List Nat), alook h 2 = some .func →
      ¬ ReadsT h (.ref 2) flagTree l) := by
  refine ⟨by simp [buildT, buildP, flagTree, flagHeap, flagKey, CALLBACK_FLAG], ?_, ?_, ?_⟩
  · simp [serializeRequestDataF, processValsF, processValueF, processPropsF, SState.init,
      createFunctionCallbackS, collectTransferables, mkToken, uidStr, ctxId, flagHeap,
      flagSerHeap, alook, addIfAbsent, isFunc, flagKey, contextIdKey, idKey]
  · simp [deserializeRequestDataF, deserializeTopF, transformF, transformWorkF,
      transformElemsF, transformPropsF, DState.init, assocSet, hset, pushProp,
      tokenFlagOf, isCallbackV, isGetterV, propValueOf, alook, flagSerHeap, flagKey,
      CALLBACK_FLAG, GETTER_FLAG, idKey]
  · intro h l hfn hr
    have hr' : ReadsT h (.ref 2) (.obj [(flagKey, .prim (.str CALLBACK_FLAG))]) l := hr
    cases hr'
    rename_i hlook hreads
    rw [hfn] at hlook
    simp at hlook

/-! ## Association-list and heap lemmas -/

theorem optBind_eq_some {α β : Type} {o : Option α} {f : α → Option β} {b : β} :
    o >>= f = some b ↔ ∃ a, o = some a ∧ f a = some b :=
  Option.bind_eq_some

theorem alook_append_some {α β : Type} [DecidableEq α] {m1 : List (α × β)}
    (m2 : List (α × β)) {k : α} {x : β} (h : alook m1 k = some x) :
    alook (m1 ++ m2) k = some x := by
  induction m1 with
  | nil => simp [alook] at h
  | cons p rest ih =>
    obtain ⟨k', v⟩ := p
    by_cases hk : k' = k
    · simpa [alook, hk] using h
    · simp only [alook, if_neg hk] at h
      simpa [alook, hk] using ih h

theorem alook_append_none {α β : Type} [DecidableEq α] {m1 : List (α × β)}
    (m2 : List (α × β)) {k : α} (h : alook m1 k = none) :
    alook (m1 ++ m2) k = alook m2 k := by
  induction m1 with
  | nil => simp [alook]
  | cons p rest ih =>
    obtain ⟨k', v⟩ := p
    by_cases hk : k' = k
    · simp [alook, hk] at h
    · simp only [alook, if_neg hk] at h
      simpa [alook, hk] using ih h

theorem alook_mem {α β : Type} [DecidableEq α] {m : List (α × β)} {k : α} {x : β}
    (h : alook m k = some x) : (k, x) ∈ m := by
  induction m with
  | nil => simp [alook] at h
  | cons p rest ih =>
    obtain ⟨k', v⟩ := p
    by_cases hk : k' = k
    · subst hk
      simp [alook] at h
      subst h
      exact List.mem_cons_self _ _
    · simp only [alook, if_neg hk] at h
      exact List.mem_cons_of_mem _ (ih h)

theorem alook_append_ne {α β : Type} [DecidableEq α] (m : List (α × β)) {n : α} (o : β)
    {k : α} (hk : k ≠ n) : alook (m ++ [(n, o)]) k = alook m k := by
  cases hm : alook m k with
  | some x => exact alook_append_some _ hm
  | none =>
    rw [alook_append_none _ hm]
    simp only [alook, if_neg (fun he => hk (Eq.symm he))]

theorem heapWF_alook {h : Heap} {n : Nat} (hWF : heapWF h n) {k : Nat} {o : Obj}
    (hl : alook h k = some o) : k < n :=
  hWF (k, o) (alook_mem hl)

theorem alook_ge_fresh {h : Heap} {n : Nat} (hWF : heapWF h n) {k : Nat} (hk : n ≤ k) :
    alook h k = none := by
  cases ho : alook h k with
  | none => rfl
  | some o => exact absurd (heapWF_alook hWF ho) (by omega)

theorem heapWF_append {h : Heap} {n : Nat} (hWF : heapWF h n) (o : Obj) :
    heapWF (h ++ [(n, o)]) (n + 1) := by
  intro p hp
  rcases List.mem_append.mp hp with hp | hp
  · exact Nat.lt_succ_of_lt (hWF p hp)
  · simp only [List.mem_singleton] at hp
    subst hp
    exact Nat.lt_succ_self n

theorem heapWF_mono {h : Heap} {n m : Nat} (hWF : heapWF h n) (hnm : n ≤ m) :
    heapWF h m := fun p hp => lt_of_lt_of_le (hWF p hp) hnm

theorem alook_hset_ne {h : Heap} {a : Nat} {o : Obj} {k : Nat} (hk : k ≠ a) :
    alook (hset h a o) k = alook h k := by
  induction h with
  | nil => simp [hset]
  | cons p rest ih =>
    obtain ⟨a', o'⟩ := p
    by_cases ha : a' = a
    · subst ha
      simp only [hset, if_pos rfl, alook, if_neg (Ne.symm hk)]
    · simp only [hset, if_neg ha, alook]
      by_cases he : a' = k
      · simp [he]
      · simp only [if_neg he]
        exact ih

theorem alook_hset_self {h : Heap} {a : Nat} {o o0 : Obj} (ha : alook h a = some o0) :
    alook (hset h a o) a = some o := by
  induction h with
  | nil => simp [alook] at ha
  | cons p rest ih =>
    obtain ⟨a', o'⟩ := p
    by_cases he : a' = a
    · subst he
      simp [hset, alook]
    · simp only [alook, if_neg he] at ha
      simp only [hset, if_neg he, alook, if_neg he]
      exact ih ha

theorem hset_mem {h : Heap} {a : Nat} {o : Obj} {p : Nat × Obj} (hp : p ∈ hset h a o) :
    p.1 = a ∨ p ∈ h := by
  induction h with
  | nil => simp [hset] at hp
  | cons q rest ih =>
    obtain ⟨a', o'⟩ := q
    by_cases he : a' = a
    · subst he
      simp only [hset, if_pos rfl] at hp
      rcases List.mem_cons.mp hp with h1 | h1
      · subst h1; exact Or.inl rfl
      · exact Or.inr (List.mem_cons_of_mem _ h1)
    · simp only [hset, if_neg he] at hp
      rcases List.mem_cons.mp hp with h1 | h1
      · subst h1; exact Or.inr (List.mem_cons_self _ _)
      · rcases ih h1 with h2 | h2
        · exact Or.inl h2
        · exact Or.inr (List.mem_cons_of_mem _ h2)

theorem heapWF_hset {h : Heap} {n : Nat} (hWF : heapWF h n) {a : Nat} (ha : a < n)
    (o : Obj) : heapWF (hset h a o) n := by
  intro p hp
  rcases hset_mem hp with hp1 | hp1
  · omega
  · exact hWF p hp1

theorem alook_assocSet_self {α β : Type} [DecidableEq α] (m : List (α × β)) (k : α)
    (v : β) : alook (assocSet m k v) k = some v := by
  induction m with
  | nil => simp [assocSet, alook]
  | cons p rest ih =>
    obtain ⟨k', v'⟩ := p
    by_cases he : k' = k
    · simp [assocSet, he, alook]
    · simp only [assocSet, if_neg he, alook, if_neg he]
      exact ih

theorem alook_assocSet_ne {α β : Type} [DecidableEq α] (m : List (α × β)) {k : α}
    (v : β) {k' : α} (hk : k' ≠ k) : alook (assocSet m k v) k' = alook m k' := by
  induction m with
  | nil => simp [assocSet, alook, if_neg (Ne.symm hk)]
  | cons p rest ih =>
    obtain ⟨k0, v0⟩ := p
    by_cases he : k0 = k
    · subst he
      simp only [assocSet, if_pos rfl, alook, if_neg (Ne.symm hk)]
    · simp only [assocSet, if_neg he, alook]
      by_cases h0 : k0 = k'
      · simp [h0]
      · simp only [if_neg h0]
        exact ih

theorem assocSet_stable {α β : Type} [DecidableEq α] {m : List (α × β)} {k : α} {v : β}
    (hv : alook m k = none ∨ alook m k = some v) {k' : α} {x : β}
    (hx : alook m k' = some x) : alook (assocSet m k v) k' = some x := by
  by_cases he : k' = k
  · subst he
    rcases hv with hv | hv
    · rw [hv] at hx; cases hx
    · rw [hv] at hx
      rw [alook_assocSet_self]
      exact hx
  · rw [alook_assocSet_ne m v he]
    exact hx

/-! ## Serializer monotonicity -/

theorem SStep_refl (s : SState) : SStep s s :=
  ⟨⟨[], by simp⟩, fun _ _ => rfl, le_refl _, le_refl _, fun _ hx => hx, ⟨[], by simp⟩, id⟩

theorem SStep_trans {s1 s2 s3 : SState} (h12 : SStep s1 s2) (h23 : SStep s2 s3) :
    SStep s1 s3 := by
  obtain ⟨⟨hs, hh⟩, hb, hf, hu, hv, ⟨fs, hfn⟩, hw⟩ := h12
  obtain ⟨⟨hs', hh'⟩, hb', hf', hu', hv', ⟨fs', hfn'⟩, hw'⟩ := h23
  refine ⟨⟨hs ++ hs', by rw [hh', hh, List.append_assoc]⟩,
    (fun k hk => by rw [hb' k (lt_of_lt_of_le hk hf), hb k hk]), le_trans hf hf',
    le_trans hu hu', fun x hx => hv' x (hv x hx),
    ⟨fs ++ fs', by rw [hfn', hfn, List.append_assoc]⟩, fun h => hw' (hw h)⟩

theorem SStep_alook {s s' : SState} (h : SStep s s') {k : Nat} {x : Obj}
    (hx : alook s.heap k = some x) : alook s'.heap k = some x := by
  obtain ⟨⟨hs, hh⟩, _⟩ := h
  rw [hh]
  exact alook_append_some hs hx

theorem SStep_visit (s : SState) (v : Val) :
    SStep s { s with visited := v :: s.visited } :=
  ⟨⟨[], by simp⟩, fun _ _ => rfl, le_refl _, le_refl _,
    fun x hx => List.mem_cons_of_mem _ hx, ⟨[], by simp⟩, id⟩

theorem SStep_alloc (s : SState) (o : Obj) :
    SStep s { s with heap := s.heap ++ [(s.fresh, o)], fresh := s.fresh + 1 } :=
  ⟨⟨[(s.fresh, o)], rfl⟩, fun k hk => alook_append_ne s.heap o (by omega), Nat.le_succ _,
    le_refl _, fun _ hx => hx, ⟨[], by simp⟩, fun hw => heapWF_append hw o⟩

theorem SStep_collect (s : SState) (v : Val) : SStep s (collectTransferables s v) := by
  cases v with
  | prim p => exact SStep_refl s
  | ref a =>
    cases halook : alook s.heap a with
    | none =>
      simp only [collectTransferables, halook]
      exact SStep_refl s
    | some o =>
      cases o <;> simp only [collectTransferables, halook] <;>
        first
          | exact SStep_refl s
          | exact ⟨⟨[], by simp⟩, fun _ _ => rfl, le_refl _, le_refl _, fun _ hx => hx,
              ⟨[], by simp⟩, id⟩

theorem SStep_cfc (cid : Str) (s : SState) (fv : Val) :
    SStep s (createFunctionCallbackS cid s fv).2 := by
  unfold createFunctionCallbackS
  exact ⟨⟨[(s.fresh, mkToken CALLBACK_FLAG cid (uidStr s.uidc))], rfl⟩,
    fun k hk => alook_append_ne s.heap _ (show k ≠ s.fresh by omega), Nat.le_succ _,
    Nat.le_succ _, fun _ hx => hx, ⟨[(uidStr s.uidc, fv)], rfl⟩,
    fun hw => heapWF_append hw _⟩

theorem SStep_cgo (cid : Str) (s : SState) (fv : Val) :
    SStep s (createGetterObjectS cid s fv).2 := by
  unfold createGetterObjectS
  exact ⟨⟨[(s.fresh, mkToken GETTER_FLAG cid (uidStr s.uidc))], rfl⟩,
    fun k hk => alook_append_ne s.heap _ (show k ≠ s.fresh by omega), Nat.le_succ _,
    Nat.le_succ _, fun _ hx => hx, ⟨[(uidStr s.uidc, fv)], rfl⟩,
    fun hw => heapWF_append hw _⟩

theorem processValsF_mono_of (cid : Str) (fuel : Nat)
    (hVF : ∀ s v r s', processValueF cid fuel s v = some (r, s') → SStep s s') :
    ∀ (l : List Val) (s : SState) (rl : List Val) (s' : SState),
      processValsF cid fuel s l = some (rl, s') → SStep s s' := by
  intro l
  induction l with
  | nil =>
    intro s rl s' heq
    simp only [processValsF, Option.some.injEq, Prod.mk.injEq] at heq
    rw [← heq.2]
    exact SStep_refl s
  | cons v rest ih =>
    intro s rl s' heq
    simp only [processValsF, optBind_eq_some] at heq
    obtain ⟨⟨v', s1⟩, h1, ⟨rest', s2⟩, h2, heq⟩ := heq
    simp only [Option.some.injEq, Prod.mk.injEq] at heq
    rw [← heq.2]
    exact SStep_trans (hVF s v v' s1 h1) (ih s1 rest' s2 h2)

theorem processPropsF_mono_of (cid : Str) (fuel : Nat)
    (hVF : ∀ s v r s', processValueF cid fuel s v = some (r, s') → SStep s s') :
    ∀ (pl : List (Str × PropD)) (s : SState) (rl : List (Str × PropD)) (s' : SState),
      processPropsF cid fuel s pl = some (rl, s') → SStep s s' := by
  intro pl
  induction pl with
  | nil =>
    intro s rl s' heq
    simp only [processPropsF, Option.some.injEq, Prod.mk.injEq] at heq
    rw [← heq.2]
    exact SStep_refl s
  | cons kd rest ih =>
    intro s rl s' heq
    obtain ⟨k, d⟩ := kd
    cases d with
    | accessor g en cf =>
      simp only [processPropsF, optBind_eq_some] at heq
      obtain ⟨⟨rest', s2⟩, h2, heq⟩ := heq
      simp only [Option.some.injEq, Prod.mk.injEq] at heq
      rw [← heq.2]
      exact SStep_trans (SStep_cgo cid s (.ref g)) (ih _ rest' s2 h2)
    | data dv en w cf =>
      simp only [processPropsF] at heq
      by_cases hf : isFunc s.heap dv
      · rw [if_pos hf] at heq
        simp only [optBind_eq_some] at heq
        obtain ⟨⟨dv', s1⟩, h1, ⟨rest', s2⟩, h2, heq⟩ := heq
        simp only [Option.some.injEq, Prod.mk.injEq] at heq
        rw [← heq.2]
        exact SStep_trans (hVF s dv dv' s1 h1) (ih s1 rest' s2 h2)
      · rw [if_neg hf] at heq
        simp only [optBind_eq_some] at heq
        obtain ⟨⟨rest', s2⟩, h2, heq⟩ := heq
        simp only [Option.some.injEq, Prod.mk.injEq] at heq
        rw [← heq.2]
        exact ih s rest' s2 h2

theorem processValueF_mono (cid : Str) :
    ∀ (fuel : Nat) (s : SState) (v : Val) (r : Val) (s' : SState),
      processValueF cid fuel s v = some (r, s') → SStep s s' := by
  intro fuel
  induction fuel with
  | zero => intro s v r s' heq; simp [processValueF] at heq
  | succ fuel ih =>
    intro s v r s' heq
    by_cases hv : v ∈ s.visited
    · simp only [processValueF, if_pos hv, Option.some.injEq, Prod.mk.injEq] at heq
      rw [← heq.2]
      exact SStep_refl s
    · have hstep1 : SStep s { s with visited := v :: s.visited } := SStep_visit s v
      cases v with
      | prim p =>
        simp only [processValueF, if_neg hv, Option.some.injEq, Prod.mk.injEq] at heq
        rw [← heq.2]
        exact hstep1
      | ref a =>
        cases halook : alook s.heap a with
        | none =>
          simp only [processValueF, if_neg hv, halook, Option.some.injEq,
            Prod.mk.injEq] at heq
          rw [← heq.2]
          exact SStep_trans hstep1 (SStep_collect _ (.ref a))
        | some o =>
          cases o with
          | arr elems =>
            simp only [processValueF, if_neg hv, halook, optBind_eq_some] at heq
            obtain ⟨⟨elems', s2⟩, h2, heq⟩ := heq
            simp only [Option.some.injEq, Prod.mk.injEq] at heq
            rw [← heq.2]
            exact SStep_trans hstep1
              (SStep_trans (processValsF_mono_of cid fuel (ih) elems _ elems' s2 h2)
                (SStep_alloc s2 (.arr elems')))
          | obj props =>
            simp only [processValueF, if_neg hv, halook, optBind_eq_some] at heq
            obtain ⟨⟨props', s2⟩, h2, heq⟩ := heq
            simp only [Option.some.injEq, Prod.mk.injEq] at heq
            rw [← heq.2]
            exact SStep_trans hstep1
              (SStep_trans (processPropsF_mono_of cid fuel (ih) props _ props' s2 h2)
                (SStep_alloc s2 (.obj props')))
          | func =>
            simp only [processValueF, if_neg hv, halook, Option.some.injEq] at heq
            have hs' : s' = (createFunctionCallbackS cid
                { s with visited := Val.ref a :: s.visited } (.ref a)).2 :=
              (congrArg Prod.snd heq).symm
            rw [hs']
            exact SStep_trans hstep1 (SStep_cfc cid _ (.ref a))
          | promise r0 =>
            simp only [processValueF, if_neg hv, halook, Option.some.injEq,
              Prod.mk.injEq] at heq
            rw [← heq.2]
            exact SStep_trans hstep1 (SStep_collect _ (.ref a))
          | arrbuf =>
            simp only [processValueF, if_neg hv, halook, Option.some.injEq,
              Prod.mk.injEq] at heq
            rw [← heq.2]
            exact SStep_trans hstep1 (SStep_collect _ (.ref a))
          | typedarr b =>
            simp only [processValueF, if_neg hv, halook, Option.some.injEq,
              Prod.mk.injEq] at heq
            rw [← heq.2]
            exact SStep_trans hstep1 (SStep_collect _ (.ref a))

theorem processValsF_mono (cid : Str) (fuel : Nat) :
    ∀ (l : List Val) (s : SState) (rl : List Val) (s' : SState),
      processValsF cid fuel s l = some (rl, s') → SStep s s' :=
  processValsF_mono_of cid fuel (processValueF_mono cid fuel)

theorem processPropsF_mono (cid : Str) (fuel : Nat) :
    ∀ (pl : List (Str × PropD)) (s : SState) (rl : List (Str × PropD)) (s' : SState),
      processPropsF cid fuel s pl = some (rl, s') → SStep s s' :=
  processPropsF_mono_of cid fuel (processValueF_mono cid fuel)

/-! ## Deserializer monotonicity -/

theorem alook_pushProp_ne {h : Heap} {addr : Nat} {k0 : Str} {d : PropD} {k : Nat}
    (hk : k ≠ addr) : alook (pushProp h addr k0 d) k = alook h k := by
  unfold pushProp
  cases ha : alook h addr with
  | none => rfl
  | some o => cases o <;> first | rfl | exact alook_hset_ne hk

theorem heapWF_pushProp {h : Heap} {n : Nat} (hw : heapWF h n) {addr : Nat}
    (ha : addr < n) (k0 : Str) (d : PropD) : heapWF (pushProp h addr k0 d) n := by
  unfold pushProp
  cases hao : alook h addr with
  | none => exact hw
  | some o => cases o <;> first | exact hw | exact heapWF_hset hw ha _

/-- The extra fact `transformF` guarantees about its own result: either the
input node is now cached as exactly the returned reconstruction, or the value
passed through unchanged with the cache untouched. -/
def DPost (st : DState) (v r : Val) (st' : DState) : Prop :=
  alook st'.handled v = some r ∨ (r = v ∧ st'.handled = st.handled)

/-- `DStep` away from one protected address (used for the object currently
under construction, whose property list is written incrementally). -/
def DStepX (addr : Nat) (st st' : DState) : Prop :=
  (∀ k, k < st.fresh → k ≠ addr → alook st'.heap k = alook st.heap k) ∧
  st.fresh ≤ st'.fresh ∧
  (∀ k x, alook st.handled k = some x → alook st'.handled k = some x) ∧
  (heapWF st.heap st.fresh → heapWF st'.heap st'.fresh)

theorem DStep_refl (st : DState) : DStep st st :=
  ⟨fun _ _ => rfl, le_refl _, fun _ _ hx => hx, id⟩

theorem DStep_trans {st1 st2 st3 : DState} (h12 : DStep st1 st2) (h23 : DStep st2 st3) :
    DStep st1 st3 := by
  obtain ⟨hh, hf, hc, hw⟩ := h12
  obtain ⟨hh', hf', hc', hw'⟩ := h23
  exact ⟨fun k hk => by rw [hh' k (lt_of_lt_of_le hk hf), hh k hk], le_trans hf hf',
    fun k x hx => hc' k x (hc k x hx), fun h => hw' (hw h)⟩

theorem DStep.toX {st st' : DState} (h : DStep st st') (addr : Nat) : DStepX addr st st' :=
  ⟨fun k hk _ => h.1 k hk, h.2.1, h.2.2.1, h.2.2.2⟩

theorem DStepX_trans {addr : Nat} {st1 st2 st3 : DState} (h12 : DStepX addr st1 st2)
    (h23 : DStepX addr st2 st3) : DStepX addr st1 st3 := by
  obtain ⟨hh, hf, hc, hw⟩ := h12
  obtain ⟨hh', hf', hc', hw'⟩ := h23
  exact ⟨fun k hk hka => by rw [hh' k (lt_of_lt_of_le hk hf) hka, hh k hk hka],
    le_trans hf hf', fun k x hx => hc' k x (hc k x hx), fun h => hw' (hw h)⟩

/-- Allocating a fresh node and caching the current wire node. -/
theorem DStep_allocCache (st : DState) (o : Obj) (v : Val)
    (hv : alook st.handled v = none) :
    DStep st { st with heap := st.heap ++ [(st.fresh, o)], fresh := st.fresh + 1,
                       handled := assocSet st.handled v (.ref st.fresh) } := by
  refine ⟨fun k hk => alook_append_ne st.heap o (by omega), Nat.le_succ _, ?_, ?_⟩
  · intro k x hx
    exact assocSet_stable (Or.inl hv) hx
  · intro hw
    exact heapWF_append hw o

/-- The callback branch's state change. -/
theorem DStep_callback (st : DState) (v cbid : Val) (hv : alook st.handled v = none) :
    DStep st { st with heap := st.heap ++ [(st.fresh, .func)], fresh := st.fresh + 1,
                       proxies := st.proxies ++ [(st.fresh, cbid)],
                       registered := st.registered ++ [(Val.ref st.fresh, cbid)],
                       handled := assocSet st.handled v (.ref st.fresh) } := by
  refine ⟨fun k hk => alook_append_ne st.heap _ (by omega), Nat.le_succ _, ?_, ?_⟩
  · intro k x hx
    exact assocSet_stable (Or.inl hv) hx
  · intro hw
    exact heapWF_append hw _

theorem transformElemsF_mono_of (fuel : Nat)
    (hTF : ∀ st v r st', transformF fuel st v = some (r, st') →
      DStep st st' ∧ DPost st v r st') :
    ∀ (l : List Val) (st : DState) (rl : List Val) (st' : DState),
      transformElemsF fuel st l = some (rl, st') → DStep st st' := by
  intro l
  induction l with
  | nil =>
    intro st rl st' heq
    simp only [transformElemsF, Option.some.injEq, Prod.mk.injEq] at heq
    rw [← heq.2]
    exact DStep_refl st
  | cons it rest ih =>
    intro st rl st' heq
    cases hh : alook st.handled it with
    | some o =>
      simp only [transformElemsF, hh, optBind_eq_some] at heq
      obtain ⟨⟨rest', st2⟩, h2, heq⟩ := heq
      simp only [Option.some.injEq, Prod.mk.injEq] at heq
      rw [← heq.2]
      exact ih st rest' st2 h2
    | none =>
      simp only [transformElemsF, hh, optBind_eq_some] at heq
      obtain ⟨⟨r, st1⟩, h1, ⟨rest', st2⟩, h2, heq⟩ := heq
      simp only [Option.some.injEq, Prod.mk.injEq] at heq
      rw [← heq.2]
      obtain ⟨hstep1, hpost1⟩ := hTF st it r st1 h1
      have hmid : DStep st1 { st1 with handled := assocSet st1.handled it r } := by
        refine ⟨fun _ _ => rfl, le_refl _, ?_, id⟩
        intro k x hx
        rcases hpost1 with hp | ⟨_, hhan⟩
        · exact assocSet_stable (Or.inr hp) hx
        · exact assocSet_stable (Or.inl (hhan ▸ hh)) hx
      exact DStep_trans hstep1 (DStep_trans hmid (ih _ rest' st2 h2))

theorem transformPropsF_mono_of (fuel : Nat)
    (hTF : ∀ st v r st', transformF fuel st v = some (r, st') →
      DStep st st' ∧ DPost st v r st') :
    ∀ (pl : List (Str × PropD)) (st : DState) (addr : Nat) (st' : DState),
      addr < st.fresh → transformPropsF fuel st addr pl = some st' →
      DStepX addr st st' := by
  intro pl
  induction pl with
  | nil =>
    intro st addr st' haddr heq
    simp only [transformPropsF, Option.some.injEq] at heq
    rw [← heq]
    exact ⟨fun _ _ _ => rfl, le_refl _, fun _ _ hx => hx, id⟩
  | cons kd rest ih =>
    intro st addr st' haddr heq
    obtain ⟨k0, d⟩ := kd
    cases d with
    | accessor g en cf => simp [transformPropsF] at heq
    | data dv en w cf =>
      by_cases hg : isGetterV st.heap dv
      · simp only [transformPropsF, if_pos hg] at heq
        have hstepG : DStepX addr st
            { st with
              heap := pushProp (st.heap ++ [(st.fresh, Obj.func)]) addr k0
                (.accessor st.fresh false false),
              fresh := st.fresh + 1,
              proxies := st.proxies ++ [(st.fresh, propValueOf st.heap dv idKey)],
              registered := st.registered ++
                [(Val.ref st.fresh, propValueOf st.heap dv idKey)] } := by
          refine ⟨?_, Nat.le_succ _, fun _ _ hx => hx, ?_⟩
          · intro k hk hka
            rw [alook_pushProp_ne hka, alook_append_ne st.heap _ (by omega)]
          · intro hw
            exact heapWF_pushProp (heapWF_append hw _) (by omega) _ _
        exact DStepX_trans hstepG (ih _ addr st' (by simpa using Nat.lt_succ_of_lt haddr) heq)
      · simp only [transformPropsF, if_neg hg, optBind_eq_some] at heq
        obtain ⟨⟨r, st1⟩, h1, heq⟩ := heq
        obtain ⟨hstep1, _⟩ := hTF st dv r st1 h1
        have haddr1 : addr < st1.fresh := lt_of_lt_of_le haddr hstep1.2.1
        have hstepP : DStepX addr st1
            { st1 with heap := pushProp st1.heap addr k0 (.data r true true true) } := by
          refine ⟨?_, le_refl _, fun _ _ hx => hx, ?_⟩
          · intro k hk hka
            exact alook_pushProp_ne hka
          · intro hw
            exact heapWF_pushProp hw haddr1 _ _
        exact DStepX_trans (hstep1.toX addr)
          (DStepX_trans hstepP (ih _ addr st' (by simpa using haddr1) heq))

theorem transformWorkF_mono_of (fuel : Nat)
    (hTF : ∀ st v r st', transformF fuel st v = some (r, st') →
      DStep st st' ∧ DPost st v r st') :
    ∀ (st : DState) (v : Val) (r : Val) (st' : DState),
      alook st.handled v = none →
      transformWorkF (fuel + 1) st v = some (r, st') →
      DStep st st' ∧ DPost st v r st' := by
  intro st v r st' hh heq
  rw [transformWorkF.eq_def] at heq
  by_cases hcb : isCallbackV st.heap v
  · simp only [if_pos hcb, Option.some.injEq, Prod.mk.injEq] at heq
    obtain ⟨h1, h2⟩ := heq
    subst h1
    rw [← h2]
    exact ⟨DStep_callback st v _ hh, Or.inl (alook_assocSet_self _ _ _)⟩
  · cases v with
    | prim p =>
      simp only [if_neg hcb, Option.some.injEq, Prod.mk.injEq] at heq
      obtain ⟨h1, h2⟩ := heq
      subst h1
      rw [← h2]
      exact ⟨DStep_refl st, Or.inr ⟨rfl, rfl⟩⟩
    | ref a =>
      cases halook : alook st.heap a with
      | none =>
        simp only [if_neg hcb, halook, Option.some.injEq,
          Prod.mk.injEq] at heq
        obtain ⟨h1, h2⟩ := heq
        subst h1
        rw [← h2]
        exact ⟨DStep_refl st, Or.inr ⟨rfl, rfl⟩⟩
      | some o =>
        cases o with
        | arr elems =>
          simp only [if_neg hcb, halook, optBind_eq_some] at heq
          obtain ⟨⟨elems', st2⟩, h2, heq⟩ := heq
          simp only [Option.some.injEq, Prod.mk.injEq] at heq
          obtain ⟨h1, h3⟩ := heq
          subst h1
          rw [← h3]
          have hstep1 := DStep_allocCache st (Obj.arr []) (.ref a) hh
          have hstep2 := transformElemsF_mono_of fuel hTF elems _ elems' st2 h2
          have hfr2 : st.fresh + 1 ≤ st2.fresh := hstep2.2.1
          have hcache : alook st2.handled (Val.ref a) = some (.ref st.fresh) :=
            hstep2.2.2.1 _ _ (alook_assocSet_self _ _ _)
          refine ⟨⟨?_, ?_, ?_, ?_⟩, Or.inl ?_⟩
          · intro k hk
            rw [alook_hset_ne (by omega)]
            exact (DStep_trans hstep1 hstep2).1 k hk
          · simpa using le_trans (Nat.le_succ _) hfr2
          · exact (DStep_trans hstep1 hstep2).2.2.1
          · intro hw
            have hw2 := (DStep_trans hstep1 hstep2).2.2.2 hw
            simpa using heapWF_hset hw2 (by omega) (Obj.arr elems')
          · simpa using hcache
        | obj props =>
          simp only [if_neg hcb, halook, optBind_eq_some] at heq
          obtain ⟨st2, h2, heq⟩ := heq
          simp only [Option.some.injEq, Prod.mk.injEq] at heq
          obtain ⟨h1, h3⟩ := heq
          subst h1
          rw [← h3]
          have hstep1 := DStep_allocCache st (Obj.obj []) (.ref a) hh
          have hstep2 := transformPropsF_mono_of fuel hTF props _ st.fresh st2
            (by simp) h2
          have hcache : alook st2.handled (Val.ref a) = some (.ref st.fresh) :=
            hstep2.2.2.1 _ _ (alook_assocSet_self _ _ _)
          refine ⟨⟨?_, ?_, ?_, ?_⟩, Or.inl hcache⟩
          · intro k hk
            rw [hstep2.1 k (by simpa using Nat.lt_succ_of_lt hk) (by omega)]
            exact hstep1.1 k hk
          · exact le_trans (Nat.le_succ _) (by simpa using hstep2.2.1)
          · exact fun k x hx => hstep2.2.2.1 k x (hstep1.2.2.1 k x hx)
          · intro hw
            exact hstep2.2.2.2 (hstep1.2.2.2 hw)
        | func =>
          simp only [if_neg hcb, halook, Option.some.injEq,
            Prod.mk.injEq] at heq
          obtain ⟨h1, h2⟩ := heq
          subst h1
          rw [← h2]
          exact ⟨DStep_refl st, Or.inr ⟨rfl, rfl⟩⟩
        | promise r0 =>
          simp only [if_neg hcb, halook, Option.some.injEq,
            Prod.mk.injEq] at heq
          obtain ⟨h1, h2⟩ := heq
          subst h1
          rw [← h2]
          exact ⟨DStep_refl st, Or.inr ⟨rfl, rfl⟩⟩
        | arrbuf =>
          simp only [if_neg hcb, halook, Option.some.injEq,
            Prod.mk.injEq] at heq
          obtain ⟨h1, h2⟩ := heq
          subst h1
          rw [← h2]
          exact ⟨DStep_refl st, Or.inr ⟨rfl, rfl⟩⟩
        | typedarr b =>
          simp only [if_neg hcb, halook, Option.some.injEq,
            Prod.mk.injEq] at heq
          obtain ⟨h1, h2⟩ := heq
          subst h1
          rw [← h2]
          exact ⟨DStep_refl st, Or.inr ⟨rfl, rfl⟩⟩

theorem transformF_mono :
    ∀ (fuel : Nat) (st : DState) (v : Val) (r : Val) (st' : DState),
      transformF fuel st v = some (r, st') → DStep st st' ∧ DPost st v r st' := by
  intro fuel
  induction fuel with
  | zero => intro st v r st' heq; simp [transformF] at heq
  | succ fuel ih =>
    intro st v r st' heq
    cases hh : alook st.handled v with
    | some o =>
      simp only [transformF, hh, Option.some.injEq, Prod.mk.injEq] at heq
      obtain ⟨h1, h2⟩ := heq
      subst h1
      rw [← h2]
      exact ⟨DStep_refl st, Or.inl hh⟩
    | none =>
      simp only [transformF, hh] at heq
      exact transformWorkF_mono_of fuel ih st v r st' hh heq

theorem transformElemsF_mono (fuel : Nat) :
    ∀ (l : List Val) (st : DState) (rl : List Val) (st' : DState),
      transformElemsF fuel st l = some (rl, st') → DStep st st' :=
  transformElemsF_mono_of fuel (transformF_mono fuel)

theorem transformPropsF_mono (fuel : Nat) :
    ∀ (pl : List (Str × PropD)) (st : DState) (addr : Nat) (st' : DState),
      addr < st.fresh → transformPropsF fuel st addr pl = some st' → DStepX addr st st' :=
  transformPropsF_mono_of fuel (transformF_mono fuel)

theorem deserializeTopF_mono (fuel : Nat) :
    ∀ (l : List Val) (st : DState) (rl : List Val) (st' : DState),
      deserializeTopF fuel st l = some (rl, st') → DStep st st' := by
  intro l
  induction l with
  | nil =>
    intro st rl st' heq
    simp only [deserializeTopF, Option.some.injEq, Prod.mk.injEq] at heq
    rw [← heq.2]
    exact DStep_refl st
  | cons v rest ih =>
    intro st rl st' heq
    simp only [deserializeTopF, optBind_eq_some] at heq
    obtain ⟨⟨v', st1⟩, h1, ⟨rest', st2⟩, h2, heq⟩ := heq
    simp only [Option.some.injEq, Prod.mk.injEq] at heq
    rw [← heq.2]
    exact DStep_trans (transformF_mono fuel st v v' st1 h1).1 (ih st1 rest' st2 h2)

/-! ## Serializer fuel sufficiency -/

theorem SStep_below {s s' : SState} (h : SStep s s') :
    ∀ k, k < s.fresh → alook s'.heap k = alook s.heap k := h.2.1

theorem SStep_fresh {s s' : SState} (h : SStep s s') : s.fresh ≤ s'.fresh := h.2.2.1

theorem SStep_visited {s s' : SState} (h : SStep s s') :
    ∀ x ∈ s.visited, x ∈ s'.visited := h.2.2.2.2.1

theorem SStep_wf {s s' : SState} (h : SStep s s') :
    heapWF s.heap s.fresh → heapWF s'.heap s'.fresh := h.2.2.2.2.2.2

theorem SClosed_step {univ : Finset Val} {s s' : SState}
    (hc : SClosed univ s.heap s.fresh) (hstep : SStep s s') :
    SClosed univ s'.heap s'.fresh := by
  intro a ha
  obtain ⟨haf, hch⟩ := hc a ha
  refine ⟨lt_of_lt_of_le haf (SStep_fresh hstep), ?_⟩
  intro o ho
  rw [SStep_below hstep a haf] at ho
  exact hch o ho

theorem sMeasure_mono {univ : Finset Val} {s s' : SState} (hstep : SStep s s') :
    sMeasure univ s' ≤ sMeasure univ s := by
  apply Finset.card_le_card
  intro x hx
  simp only [Finset.mem_filter] at hx ⊢
  exact ⟨hx.1, fun hmem => hx.2 (SStep_visited hstep x hmem)⟩

theorem sMeasure_visit_lt {univ : Finset Val} {s : SState} {v : Val} (hv : v ∈ univ)
    (hnv : v ∉ s.visited) :
    sMeasure univ { s with visited := v :: s.visited } < sMeasure univ s := by
  apply Finset.card_lt_card
  rw [Finset.ssubset_iff_subset_ne]
  constructor
  · intro x hx
    simp only [Finset.mem_filter] at hx ⊢
    exact ⟨hx.1, fun hmem => hx.2 (List.mem_cons_of_mem _ hmem)⟩
  · intro heqf
    have hv1 : v ∈ univ.filter (fun x => x ∉ s.visited) := Finset.mem_filter.mpr ⟨hv, hnv⟩
    rw [← heqf] at hv1
    simp only [Finset.mem_filter] at hv1
    exact hv1.2 (List.mem_cons_self _ _)

theorem objChildVals_obj_mem {ps : List (Str × PropD)} {k : Str} {v : Val}
    {e w c : Bool} (hm : (k, .data v e w c) ∈ ps) : v ∈ objChildVals (.obj ps) := by
  induction ps with
  | nil => cases hm
  | cons kd rest ih =>
    rcases List.mem_cons.mp hm with h1 | h1
    · subst h1
      simp [objChildVals]
    · have := ih h1
      simp only [objChildVals] at this ⊢
      obtain ⟨k0, d0⟩ := kd
      cases d0 <;> simp only [List.foldr_cons] <;>
        first
          | exact List.mem_cons_of_mem _ this
          | exact this

theorem processValsF_suff_of (cid : Str) (fuel : Nat) (univ : Finset Val)
    (hVF : ∀ s v, heapWF s.heap s.fresh → SClosed univ s.heap s.fresh → v ∈ univ →
      sMeasure univ s < fuel → (processValueF cid fuel s v).isSome) :
    ∀ (l : List Val) (s : SState), heapWF s.heap s.fresh → SClosed univ s.heap s.fresh →
      (∀ x ∈ l, x ∈ univ) → sMeasure univ s < fuel →
      (processValsF cid fuel s l).isSome := by
  intro l
  induction l with
  | nil => intro s _ _ _ _; simp [processValsF]
  | cons v rest ih =>
    intro s hw hc hl hm
    have h1 := hVF s v hw hc (hl v (List.mem_cons_self _ _)) hm
    cases he1 : processValueF cid fuel s v with
    | none => rw [he1] at h1; cases h1
    | some p1 =>
      obtain ⟨v', s1⟩ := p1
      have hstep := processValueF_mono cid fuel s v v' s1 he1
      have h2 := ih s1 (SStep_wf hstep hw) (SClosed_step hc hstep)
        (fun x hx => hl x (List.mem_cons_of_mem _ hx))
        (lt_of_le_of_lt (sMeasure_mono hstep) hm)
      cases he2 : processValsF cid fuel s1 rest with
      | none => rw [he2] at h2; cases h2
      | some p2 =>
        simp [processValsF, he1, he2]

theorem processPropsF_suff_of (cid : Str) (fuel : Nat) (univ : Finset Val)
    (hVF : ∀ s v, heapWF s.heap s.fresh → SClosed univ s.heap s.fresh → v ∈ univ →
      sMeasure univ s < fuel → (processValueF cid fuel s v).isSome) :
    ∀ (pl : List (Str × PropD)) (s : SState), heapWF s.heap s.fresh →
      SClosed univ s.heap s.fresh →
      (∀ kd ∈ pl, ∀ v e w c, kd.2 = PropD.data v e w c → v ∈ univ) →
      sMeasure univ s < fuel →
      (processPropsF cid fuel s pl).isSome := by
  intro pl
  induction pl with
  | nil => intro s _ _ _ _; simp [processPropsF]
  | cons kd rest ih =>
    intro s hw hc hl hm
    obtain ⟨k, d⟩ := kd
    cases d with
    | accessor g en cf =>
      have hstep := SStep_cgo cid s (.ref g)
      have h2 := ih (createGetterObjectS cid s (.ref g)).2 (SStep_wf hstep hw)
        (SClosed_step hc hstep) (fun x hx => hl x (List.mem_cons_of_mem _ hx))
        (lt_of_le_of_lt (sMeasure_mono hstep) hm)
      cases he2 : processPropsF cid fuel (createGetterObjectS cid s (.ref g)).2 rest with
      | none => rw [he2] at h2; cases h2
      | some p2 => simp [processPropsF, he2]
    | data dv en w cf =>
      by_cases hf : isFunc s.heap dv
      · have h1 := hVF s dv hw hc (hl (k, .data dv en w cf) (List.mem_cons_self _ _)
          dv en w cf rfl) hm
        cases he1 : processValueF cid fuel s dv with
        | none => rw [he1] at h1; cases h1
        | some p1 =>
          obtain ⟨dv', s1⟩ := p1
          have hstep := processValueF_mono cid fuel s dv dv' s1 he1
          have h2 := ih s1 (SStep_wf hstep hw) (SClosed_step hc hstep)
            (fun x hx => hl x (List.mem_cons_of_mem _ hx))
            (lt_of_le_of_lt (sMeasure_mono hstep) hm)
          cases he2 : processPropsF cid fuel s1 rest with
          | none => rw [he2] at h2; cases h2
          | some p2 => simp [processPropsF, hf, he1, he2]
      · have h2 := ih s hw hc (fun x hx => hl x (List.mem_cons_of_mem _ hx)) hm
        cases he2 : processPropsF cid fuel s rest with
        | none => rw [he2] at h2; cases h2
        | some p2 => simp [processPropsF, hf, he2]

theorem processValueF_suff (cid : Str) :
    ∀ (fuel : Nat) (univ : Finset Val) (s : SState) (v : Val),
      heapWF s.heap s.fresh → SClosed univ s.heap s.fresh → v ∈ univ →
      sMeasure univ s < fuel → (processValueF cid fuel s v).isSome := by
  intro fuel
  induction fuel with
  | zero => intro univ s v _ _ _ hm; exact absurd hm (Nat.not_lt_zero _)
  | succ fuel ih =>
    intro univ s v hw hc hv hm
    by_cases hvis : v ∈ s.visited
    · simp [processValueF, hvis]
    · cases v with
      | prim p => simp [processValueF, hvis]
      | ref a =>
        obtain ⟨haf, hch⟩ := hc a hv
        have hm1 : sMeasure univ { s with visited := Val.ref a :: s.visited } < fuel := by
          have := sMeasure_visit_lt hv hvis
          omega
        cases halook : alook s.heap a with
        | none => simp [processValueF, hvis, halook]
        | some o =>
          cases o with
          | arr elems =>
            have helems : ∀ x ∈ elems, x ∈ univ := by
              intro x hx
              exact hch (Obj.arr elems) halook x (by simpa [objChildVals] using hx)
            have h2 := processValsF_suff_of cid fuel univ (fun s v => ih univ s v)
              elems { s with visited := Val.ref a :: s.visited } hw hc helems hm1
            cases he2 : processValsF cid fuel { s with visited := Val.ref a :: s.visited }
                elems with
            | none => rw [he2] at h2; cases h2
            | some p2 => simp [processValueF, hvis, halook, he2]
          | obj props =>
            have hprops : ∀ kd ∈ props, ∀ v e w c, kd.2 = PropD.data v e w c → v ∈ univ := by
              intro kd hkd v e w c hd
              obtain ⟨k0, d0⟩ := kd
              simp only at hd
              subst hd
              exact hch (Obj.obj props) halook v (objChildVals_obj_mem hkd)
            have h2 := processPropsF_suff_of cid fuel univ (fun s v => ih univ s v)
              props { s with visited := Val.ref a :: s.visited } hw hc hprops hm1
            cases he2 : processPropsF cid fuel { s with visited := Val.ref a :: s.visited }
                props with
            | none => rw [he2] at h2; cases h2
            | some p2 => simp [processValueF, hvis, halook, he2]
          | func => simp [processValueF, hvis, halook]
          | promise r0 => simp [processValueF, hvis, halook]
          | arrbuf => simp [processValueF, hvis, halook]
          | typedarr b => simp [processValueF, hvis, halook]

theorem mem_heapVals_of_child {h : Heap} {a : Nat} {o : Obj} (hm : (a, o) ∈ h) :
    ∀ c ∈ objChildVals o, c ∈ heapVals h := by
  induction h with
  | nil => cases hm
  | cons p rest ih =>
    intro c hc
    rcases List.mem_cons.mp hm with h1 | h1
    · subst h1
      simp only [heapVals, List.foldr_cons]
      exact List.mem_cons_of_mem _ (List.mem_append.mpr (Or.inl hc))
    · have := ih h1 c hc
      simp only [heapVals, List.foldr_cons]
      exact List.mem_cons_of_mem _ (List.mem_append.mpr (Or.inr this))

theorem alook_mem_heapVals {h : Heap} {a : Nat} {o : Obj} (ha : alook h a = some o) :
    ∀ c ∈ objChildVals o, c ∈ heapVals h :=
  mem_heapVals_of_child (alook_mem ha)

/-- `bigFuel` is always enough for `serializeRequestData` over a
closed-reference heap. -/
theorem serializeRequestDataF_total (cid : Str) (h : Heap) (fresh uidc : Nat)
    (args : List Val) (hw : heapWF h fresh) (hcl : heapClosedVals h fresh args) :
    (serializeRequestDataF cid (bigFuel h args) h fresh uidc args).isSome := by
  have hsc : SClosed ((heapVals h ++ args).toFinset) h fresh := by
    intro a ha
    refine ⟨hcl a (by simpa using ha), ?_⟩
    intro o ho c hc
    simp only [List.mem_toFinset]
    exact List.mem_append.mpr (Or.inl (alook_mem_heapVals ho c hc))
  have hm : sMeasure ((heapVals h ++ args).toFinset) (SState.init h fresh uidc) <
      bigFuel h args := by
    calc (((heapVals h ++ args).toFinset).filter _).card
        ≤ ((heapVals h ++ args).toFinset).card := Finset.card_filter_le _ _
      _ ≤ (heapVals h ++ args).length := List.toFinset_card_le _
      _ < bigFuel h args := Nat.lt_succ_self _
  exact processValsF_suff_of cid (bigFuel h args) _
    (fun s v => processValueF_suff cid (bigFuel h args) _ s v) args
    (SState.init h fresh uidc) hw hsc
    (fun x hx => by simp only [List.mem_toFinset]; exact List.mem_append.mpr (Or.inr hx))
    hm

/-! ## Deserializer fuel sufficiency -/

theorem DClosed_step {univ : Finset Val} {st st' : DState}
    (hc : DClosed univ st.heap st.fresh) (hstep : DStep st st') :
    DClosed univ st'.heap st'.fresh := by
  intro a ha
  obtain ⟨haf, hch⟩ := hc a ha
  refine ⟨lt_of_lt_of_le haf hstep.2.1, ?_⟩
  intro o ho
  rw [hstep.1 a haf] at ho
  exact hch o ho

theorem DClosed_stepX {univ : Finset Val} {addr : Nat} {st st' : DState}
    (hc : DClosed univ st.heap st.fresh) (hstep : DStepX addr st st')
    (hna : ∀ a, Val.ref a ∈ univ → a ≠ addr) :
    DClosed univ st'.heap st'.fresh := by
  intro a ha
  obtain ⟨haf, hch⟩ := hc a ha
  refine ⟨lt_of_lt_of_le haf hstep.2.1, ?_⟩
  intro o ho
  rw [hstep.1 a haf (hna a ha)] at ho
  exact hch o ho

theorem dMeasure_mono {univ : Finset Val} {st st' : DState} (hstep : DStep st st') :
    dMeasure univ st' ≤ dMeasure univ st := by
  apply Finset.card_le_card
  intro x hx
  simp only [dMeasure, Finset.mem_filter] at hx ⊢
  refine ⟨hx.1, ?_⟩
  cases hb : alook st.handled x with
  | none => rfl
  | some y =>
    have := hstep.2.2.1 x y hb
    rw [this] at hx
    cases hx.2

theorem dMeasure_monoX {univ : Finset Val} {addr : Nat} {st st' : DState}
    (hstep : DStepX addr st st') : dMeasure univ st' ≤ dMeasure univ st := by
  apply Finset.card_le_card
  intro x hx
  simp only [dMeasure, Finset.mem_filter] at hx ⊢
  refine ⟨hx.1, ?_⟩
  cases hb : alook st.handled x with
  | none => rfl
  | some y =>
    have := hstep.2.2.1 x y hb
    rw [this] at hx
    cases hx.2

theorem dMeasure_cache_lt {univ : Finset Val} (st st' : DState) (v r : Val)
    (hv : v ∈ univ) (hn : alook st.handled v = none)
    (hst' : st'.handled = assocSet st.handled v r) :
    dMeasure univ st' < dMeasure univ st := by
  apply Finset.card_lt_card
  rw [Finset.ssubset_iff_subset_ne]
  constructor
  · intro x hx
    simp only [dMeasure, Finset.mem_filter] at hx ⊢
    refine ⟨hx.1, ?_⟩
    by_cases hxv : x = v
    · subst hxv
      rw [hst', alook_assocSet_self] at hx
      cases hx.2
    · rw [hst', alook_assocSet_ne _ _ hxv] at hx
      exact hx.2
  · intro heqf
    have hv1 : v ∈ univ.filter (fun x => alook st.handled x = none) :=
      Finset.mem_filter.mpr ⟨hv, hn⟩
    rw [← heqf] at hv1
    rw [Finset.mem_filter, hst', alook_assocSet_self] at hv1
    cases hv1.2

theorem transformElemsF_suff_of (fuel : Nat) (univ : Finset Val)
    (hTF : ∀ st v, heapWF st.heap st.fresh → DClosed univ st.heap st.fresh → v ∈ univ →
      dMeasure univ st < fuel → (transformF fuel st v).isSome) :
    ∀ (l : List Val) (st : DState), heapWF st.heap st.fresh →
      DClosed univ st.heap st.fresh → (∀ x ∈ l, x ∈ univ) → dMeasure univ st < fuel →
      (transformElemsF fuel st l).isSome := by
  intro l
  induction l with
  | nil => intro st _ _ _ _; simp [transformElemsF]
  | cons it rest ih =>
    intro st hw hc hl hm
    cases hh : alook st.handled it with
    | some o =>
      have h2 := ih st hw hc (fun x hx => hl x (List.mem_cons_of_mem _ hx)) hm
      cases he2 : transformElemsF fuel st rest with
      | none => rw [he2] at h2; cases h2
      | some p2 => simp [transformElemsF, hh, he2]
    | none =>
      have h1 := hTF st it hw hc (hl it (List.mem_cons_self _ _)) hm
      cases he1 : transformF fuel st it with
      | none => rw [he1] at h1; cases h1
      | some p1 =>
        obtain ⟨r, st1⟩ := p1
        obtain ⟨hstep1, hpost1⟩ := transformF_mono fuel st it r st1 he1
        have hmid : DStep st1 { st1 with handled := assocSet st1.handled it r } := by
          refine ⟨fun _ _ => rfl, le_refl _, ?_, id⟩
          intro k x hx
          rcases hpost1 with hp | ⟨_, hhan⟩
          · exact assocSet_stable (Or.inr hp) hx
          · exact assocSet_stable (Or.inl (hhan ▸ hh)) hx
        have hstep2 := DStep_trans hstep1 hmid
        have h2 := ih { st1 with handled := assocSet st1.handled it r }
          (hstep2.2.2.2 hw) (DClosed_step hc hstep2)
          (fun x hx => hl x (List.mem_cons_of_mem _ hx))
          (lt_of_le_of_lt (dMeasure_mono hstep2) hm)
        cases he2 : transformElemsF fuel { st1 with handled := assocSet st1.handled it r }
            rest with
        | none => rw [he2] at h2; cases h2
        | some p2 => simp [transformElemsF, hh, he1, he2]

theorem transformPropsF_suff_of (fuel : Nat) (univ : Finset Val)
    (hTF : ∀ st v, heapWF st.heap st.fresh → DClosed univ st.heap st.fresh → v ∈ univ →
      dMeasure univ st < fuel → (transformF fuel st v).isSome) :
    ∀ (pl : List (Str × PropD)) (st : DState) (addr : Nat), addr < st.fresh →
      heapWF st.heap st.fresh → DClosed univ st.heap st.fresh →
      (∀ a, Val.ref a ∈ univ → a ≠ addr) →
      (∀ kd ∈ pl, kd.2.isData = true) →
      (∀ kd ∈ pl, ∀ v e w c, kd.2 = PropD.data v e w c → v ∈ univ) →
      dMeasure univ st < fuel →
      (transformPropsF fuel st addr pl).isSome := by
  intro pl
  induction pl with
  | nil => intro st addr _ _ _ _ _ _ _; simp [transformPropsF]
  | cons kd rest ih =>
    intro st addr haddr hw hc hna hdata hvals hm
    obtain ⟨k, d⟩ := kd
    cases d with
    | accessor g en cf =>
      have := hdata (k, .accessor g en cf) (List.mem_cons_self _ _)
      simp [PropD.isData] at this
    | data dv en w cf =>
      by_cases hg : isGetterV st.heap dv
      · set stG : DState := { st with
          heap := pushProp (st.heap ++ [(st.fresh, Obj.func)]) addr k
            (.accessor st.fresh false false),
          fresh := st.fresh + 1,
          proxies := st.proxies ++ [(st.fresh, propValueOf st.heap dv idKey)],
          registered := st.registered ++
            [(Val.ref st.fresh, propValueOf st.heap dv idKey)] } with hstG
        have hstepG : DStepX addr st stG := by
          refine ⟨?_, Nat.le_succ _, fun _ _ hx => hx, ?_⟩
          · intro k1 hk1 hka
            simp only [hstG]
            rw [alook_pushProp_ne hka, alook_append_ne st.heap _ (show k1 ≠ st.fresh by omega)]
          · intro hwf
            simp only [hstG]
            exact heapWF_pushProp (heapWF_append hwf _) (by omega) _ _
        have h2 := ih stG addr (by simp [hstG]; omega)
          (hstepG.2.2.2 hw) (DClosed_stepX hc hstepG hna) hna
          (fun x hx => hdata x (List.mem_cons_of_mem _ hx))
          (fun x hx => hvals x (List.mem_cons_of_mem _ hx))
          (lt_of_le_of_lt (dMeasure_monoX hstepG) hm)
        cases he2 : transformPropsF fuel stG addr rest with
        | none => rw [he2] at h2; cases h2
        | some p2 =>
          rw [transformPropsF.eq_def]
          simp only [if_pos hg]
          simp only [hstG] at he2
          simp [he2]
      · have h1 := hTF st dv hw hc
          (hvals (k, .data dv en w cf) (List.mem_cons_self _ _) dv en w cf rfl) hm
        cases he1 : transformF fuel st dv with
        | none => rw [he1] at h1; cases h1
        | some p1 =>
          obtain ⟨r, st1⟩ := p1
          obtain ⟨hstep1, _⟩ := transformF_mono fuel st dv r st1 he1
          have haddr1 : addr < st1.fresh := lt_of_lt_of_le haddr hstep1.2.1
          set st2 : DState :=
            { st1 with heap := pushProp st1.heap addr k (.data r true true true) }
            with hst2
          have hstepP : DStepX addr st1 st2 := by
            refine ⟨?_, le_refl _, fun _ _ hx => hx, ?_⟩
            · intro k1 hk1 hka
              simp only [hst2]
              exact alook_pushProp_ne hka
            · intro hwf
              simp only [hst2]
              exact heapWF_pushProp hwf haddr1 _ _
          have hstep12 := DStepX_trans (hstep1.toX addr) hstepP
          have h2 := ih st2 addr (by simp [hst2]; omega)
            (hstep12.2.2.2 hw) (DClosed_stepX hc hstep12 hna) hna
            (fun x hx => hdata x (List.mem_cons_of_mem _ hx))
            (fun x hx => hvals x (List.mem_cons_of_mem _ hx))
            (lt_of_le_of_lt (dMeasure_monoX hstep12) hm)
          cases he2 : transformPropsF fuel st2 addr rest with
          | none => rw [he2] at h2; cases h2
          | some p2 =>
            rw [transformPropsF.eq_def]
            simp only [if_neg hg]
            simp only [hst2] at he2
            simp [he1, he2]

theorem transformF_suff :
    ∀ (fuel : Nat) (univ : Finset Val) (st : DState) (v : Val),
      heapWF st.heap st.fresh → DClosed univ st.heap st.fresh → v ∈ univ →
      dMeasure univ st < fuel → (transformF fuel st v).isSome := by
  intro fuel
  induction fuel with
  | zero => intro univ st v _ _ _ hm; exact absurd hm (Nat.not_lt_zero _)
  | succ fuel ih =>
    intro univ st v hw hc hv hm
    cases hh : alook st.handled v with
    | some o => simp [transformF, hh]
    | none =>
      rw [show transformF (fuel + 1) st v = transformWorkF (fuel + 1) st v by
        simp [transformF, hh]]
      by_cases hcb : isCallbackV st.heap v
      · rw [transformWorkF.eq_def]
        simp [if_pos hcb]
      · cases v with
        | prim p =>
          rw [transformWorkF.eq_def]
          simp [if_neg hcb]
        | ref a =>
          obtain ⟨haf, hch⟩ := hc a hv
          cases halook : alook st.heap a with
          | none =>
            rw [transformWorkF.eq_def]
            simp [if_neg hcb, halook]
          | some o =>
            cases o with
            | arr elems =>
              set st1 : DState := { st with
                heap := st.heap ++ [(st.fresh, Obj.arr [])], fresh := st.fresh + 1,
                handled := assocSet st.handled (Val.ref a) (.ref st.fresh) } with hst1
              have hstep1 : DStep st st1 := by
                rw [hst1]
                exact DStep_allocCache st (Obj.arr []) (Val.ref a) hh
              have hm1 : dMeasure univ st1 < fuel := by
                have hlt := dMeasure_cache_lt st st1 (Val.ref a) (Val.ref st.fresh)
                  hv hh (by simp [hst1])
                omega
              have helems : ∀ x ∈ elems, x ∈ univ := by
                intro x hx
                exact (hch (Obj.arr elems) halook).1 x (by simpa [objChildVals] using hx)
              have h2 := transformElemsF_suff_of fuel univ (fun st v => ih univ st v)
                elems st1 (hstep1.2.2.2 hw) (DClosed_step hc hstep1) helems hm1
              cases he2 : transformElemsF fuel st1 elems with
              | none => rw [he2] at h2; cases h2
              | some p2 =>
                rw [transformWorkF.eq_def]
                simp only [if_neg hcb, halook]
                simp only [hst1] at he2
                simp [he2]
            | obj props =>
              set st1 : DState := { st with
                heap := st.heap ++ [(st.fresh, Obj.obj [])], fresh := st.fresh + 1,
                handled := assocSet st.handled (Val.ref a) (.ref st.fresh) } with hst1
              have hstep1 : DStep st st1 := by
                rw [hst1]
                exact DStep_allocCache st (Obj.obj []) (Val.ref a) hh
              have hm1 : dMeasure univ st1 < fuel := by
                have hlt := dMeasure_cache_lt st st1 (Val.ref a) (Val.ref st.fresh)
                  hv hh (by simp [hst1])
                omega
              have hprops1 : ∀ kd ∈ props, kd.2.isData = true := by
                intro kd hkd
                exact (hch (Obj.obj props) halook).2 kd (by simpa [objProps] using hkd)
              have hprops2 : ∀ kd ∈ props, ∀ v e w c, kd.2 = PropD.data v e w c →
                  v ∈ univ := by
                intro kd hkd v e w c hd
                obtain ⟨k0, d0⟩ := kd
                simp only at hd
                subst hd
                exact (hch (Obj.obj props) halook).1 v (objChildVals_obj_mem hkd)
              have hna : ∀ a', Val.ref a' ∈ univ → a' ≠ st.fresh := by
                intro a' ha'
                have := (hc a' ha').1
                omega
              have h2 := transformPropsF_suff_of fuel univ (fun st v => ih univ st v)
                props st1 st.fresh (by simp [hst1]) (hstep1.2.2.2 hw)
                (DClosed_step hc hstep1) hna hprops1 hprops2 hm1
              cases he2 : transformPropsF fuel st1 st.fresh props with
              | none => rw [he2] at h2; cases h2
              | some p2 =>
                rw [transformWorkF.eq_def]
                simp only [if_neg hcb, halook]
                simp only [hst1] at he2
                simp [he2]
            | func =>
              rw [transformWorkF.eq_def]
              simp [if_neg hcb, halook]
            | promise r0 =>
              rw [transformWorkF.eq_def]
              simp [if_neg hcb, halook]
            | arrbuf =>
              rw [transformWorkF.eq_def]
              simp [if_neg hcb, halook]
            | typedarr b =>
              rw [transformWorkF.eq_def]
              simp [if_neg hcb, halook]

theorem deserializeTopF_suff (fuel : Nat) (univ : Finset Val) :
    ∀ (l : List Val) (st : DState), heapWF st.heap st.fresh →
      DClosed univ st.heap st.fresh → (∀ x ∈ l, x ∈ univ) → dMeasure univ st < fuel →
      (deserializeTopF fuel st l).isSome := by
  intro l
  induction l with
  | nil => intro st _ _ _ _; simp [deserializeTopF]
  | cons v rest ih =>
    intro st hw hc hl hm
    have h1 := transformF_suff fuel univ st v hw hc (hl v (List.mem_cons_self _ _)) hm
    cases he1 : transformF fuel st v with
    | none => rw [he1] at h1; cases h1
    | some p1 =>
      obtain ⟨v', st1⟩ := p1
      have hstep := (transformF_mono fuel st v v' st1 he1).1
      have h2 := ih st1 (hstep.2.2.2 hw) (DClosed_step hc hstep)
        (fun x hx => hl x (List.mem_cons_of_mem _ hx))
        (lt_of_le_of_lt (dMeasure_mono hstep) hm)
      cases he2 : deserializeTopF fuel st1 rest with
      | none => rw [he2] at h2; cases h2
      | some p2 => simp [deserializeTopF, he1, he2]

/-- `bigFuel` is always enough for `deserializeRequestData` over a
closed-reference, data-property-only heap. -/
theorem deserializeRequestDataF_total (h : Heap) (fresh : Nat) (data : List Val)
    (hw : heapWF h fresh) (hcl : heapClosedVals h fresh data) (hdo : heapDataOnly h) :
    (deserializeRequestDataF (bigFuel h data) h fresh data).isSome := by
  have hdc : DClosed ((heapVals h ++ data).toFinset) h fresh := by
    intro a ha
    refine ⟨hcl a (by simpa using ha), ?_⟩
    intro o ho
    constructor
    · intro c hc
      simp only [List.mem_toFinset]
      exact List.mem_append.mpr (Or.inl (alook_mem_heapVals ho c hc))
    · intro kd hkd
      exact hdo (a, o) (alook_mem ho) kd hkd
  have hm : dMeasure ((heapVals h ++ data).toFinset) (DState.init h fresh) <
      bigFuel h data := by
    calc (((heapVals h ++ data).toFinset).filter _).card
        ≤ ((heapVals h ++ data).toFinset).card := Finset.card_filter_le _ _
      _ ≤ (heapVals h ++ data).length := List.toFinset_card_le _
      _ < bigFuel h data := Nat.lt_succ_self _
  exact deserializeTopF_suff (bigFuel h data) _ data (DState.init h fresh) hw hdc
    (fun x hx => by simp only [List.mem_toFinset]; exact List.mem_append.mpr (Or.inr hx))
    hm

/-! ## Endpoint theorems -/

/-- C9: a `method-return` message with a well-formed composite id whose
action id has no entry in the pending-completion table leaves the whole port
state unchanged (`invocationDefers.delete` of an absent key is a no-op, and
neither settlement branch runs) and raises no error. -/
theorem return_unmatched_is_frame (beh : Nat → MethodBeh) (st : PortSt) (id : Str)
    (result : Option Val) (error : Option ErrInfo) (now : Int) (pid : ParsedId)
    (hid : parseInvocationId id = .ok pid) (habs : pid.id ∉ st.defers) :
    portReceive beh st (.ret id result error now) now = some (.ok (st, [])) := by
  simp only [portReceive, handleMethodReturn, hid]
  rw [if_neg habs, List.erase_of_not_mem habs]

/-- Witness for `return_unmatched_is_frame`: an empty pending table and the
id `c/p/a`. -/
theorem return_unmatched_is_frame_witness :
    portReceive beh0 port0 (.ret "c/p/a".toList none none 0) 0 = some (.ok (port0, [])) :=
  return_unmatched_is_frame beh0 port0 _ none none 0
    ⟨"c".toList, "p".toList, "a".toList⟩ (by rfl) (by decide)

/-- C10: a local method returning an object whose `then` property exists but
is not a function is treated as promise-like (`isPromiseLike` only tests
property presence), the `result.then(...)` call throws a `TypeError`, the
surrounding `try` catches it, and one *error* Return message (code `-32603`)
is sent — the remote call rejects instead of resolving with the object. -/
theorem then_not_callable_rejects (beh : Nat → MethodBeh) (st : PortSt) (invId : Str)
    (fa a : Nat) (args : List Val) (now : Int) (props : List (Str × PropD)) (w : Val)
    (en wr cf : Bool)
    (hbeh : beh fa = .retv (.ref a))
    (hobj : alook st.heap a = some (.obj props))
    (hthen : alook props thenKey = some (.data w en wr cf))
    (hfn : isFunc st.heap w = false) :
    isPromiseLikeV st.heap (.ref a) = true ∧
    invokeLocalMethod beh st invId fa args now =
      some (st, [.send (.ret invId none (some ⟨-32603, thenTypeErrMsg, none⟩) now) []]) := by
  have hpl : isPromiseLikeV st.heap (.ref a) = true := by
    simp [isPromiseLikeV, hobj, hthen]
  have hct : classifyThen st.heap (.ref a) = .notCallable := by
    simp [classifyThen, hobj, hthen, hfn]
  refine ⟨hpl, ?_⟩
  simp [invokeLocalMethod, hbeh, hpl, hct, handleError]

/-- Witness for `then_not_callable_rejects` on `port10`. -/
theorem then_not_callable_rejects_witness :
    isPromiseLikeV port10.heap (.ref 0) = true ∧
    invokeLocalMethod beh10 port10 "i".toList 1 [] 0 =
      some (port10,
        [.send (.ret "i".toList none (some ⟨-32603, thenTypeErrMsg, none⟩) 0) []]) :=
  then_not_callable_rejects beh10 port10 _ 1 0 [] 0
    [(thenKey, .data (.prim (.num 1)) true true true)] (.prim (.num 1)) true true true
    (by rfl) (by rfl) (by rfl) (by rfl)

/-- C2 counterexample: a `method-call` naming a method bound in neither the
local instance nor the callback registry makes `handleMethodCall` throw
`Method not found` out of `receive`; the throw produces no effects at all, so
no Return message carrying the call's id is ever sent — `receive` does not
satisfy "exactly one Return for every Call". -/
theorem method_not_found_no_return_counterexample :
    portReceive beh0 port0 (.call "c/p/a".toList "m".toList [] 0) 0 =
      some (.error (methodNotFoundErr "m".toList)) := by
  simp [portReceive, handleMethodCall, port0, deserializeRequestDataF, deserializeTopF,
    DState.init, bigFuel, heapVals, alook, methodNotFoundErr]

/-- C3 counterexample: an inbound Call addressed to a *known* endpoint but
naming an unknown method is not dropped or rejected locally — the
`Method not found` exception escapes the router's `receive`. -/
theorem receive_unknown_method_throws_counterexample :
    routerReceive beh0 router0 (some (.call "c/p/a".toList "m".toList [] 0)) 0 =
      some (.error (methodNotFoundErr "m".toList)) := by
  have hp : parseInvocationId ['c', '/', 'p', '/', 'a'] =
      .ok ⟨"c".toList, "p".toList, "a".toList⟩ := by rfl
  simp [routerReceive, RPCMsg.msgId, hp, router0, alook, portReceive, handleMethodCall,
    port0, deserializeRequestDataF, deserializeTopF, DState.init, bigFuel, heapVals,
    methodNotFoundErr, Except.map]

/-- C5 (amended): the first processing of a node records it in the visited
set, and a node reached a second time is returned early — but as the
*original untransformed* value with the serializer state unchanged, not as
the already-produced transformed placeholder. -/
theorem serialize_visit_semantics :
    (∀ (cid : Str) (fuel : Nat) (s : SState) (v v' : Val) (s' : SState),
        processValueF cid (fuel + 1) s v = some (v', s') → v ∈ s'.visited) ∧
    (∀ (cid : Str) (fuel : Nat) (s : SState) (v : Val), v ∈ s.visited →
        processValueF cid (fuel + 1) s v = some (v, s)) := by
  constructor
  · intro cid fuel s v v' s' h
    by_cases hv : v ∈ s.visited
    · rw [processValueF, if_pos hv] at h
      simp only [Option.some.injEq, Prod.mk.injEq] at h
      rw [← h.2]
      exact hv
    · rw [processValueF, if_neg hv] at h
      cases v with
      | prim p =>
        simp only [Option.some.injEq, Prod.mk.injEq] at h
        rw [← h.2]
        exact List.mem_cons_self _ _
      | ref a =>
        simp only at h
        cases halook : alook s.heap a with
        | none =>
          simp only [halook] at h
          have hs' : s' = collectTransferables { s with visited := .ref a :: s.visited }
              (.ref a) := by
            simp only [Option.some.injEq, Prod.mk.injEq] at h
            exact h.2.symm
          have hstep := SStep_collect { s with visited := .ref a :: s.visited } (.ref a)
          rw [hs']
          exact hstep.2.2.2.2.1 _ (List.mem_cons_self _ _)
        | some o =>
          cases o with
          | arr elems =>
            simp only [halook, bind, Option.bind] at h
            cases he : processValsF cid fuel { s with visited := .ref a :: s.visited }
                elems with
            | none => rw [he] at h; cases h
            | some p =>
              rw [he] at h
              obtain ⟨es, s2⟩ := p
              simp only [Option.some.injEq, Prod.mk.injEq] at h
              have hstep := processValsF_mono cid fuel _ _ _ _ he
              rw [← h.2]
              exact hstep.2.2.2.2.1 _ (List.mem_cons_self _ _)
          | obj props =>
            simp only [halook, bind, Option.bind] at h
            cases he : processPropsF cid fuel { s with visited := .ref a :: s.visited }
                props with
            | none => rw [he] at h; cases h
            | some p =>
              rw [he] at h
              obtain ⟨ps, s2⟩ := p
              simp only [Option.some.injEq, Prod.mk.injEq] at h
              have hstep := processPropsF_mono cid fuel _ _ _ _ he
              rw [← h.2]
              exact hstep.2.2.2.2.1 _ (List.mem_cons_self _ _)
          | func =>
            simp only [halook, Option.some.injEq] at h
            have hs' : s' =
                (createFunctionCallbackS cid { s with visited := .ref a :: s.visited }
                  (.ref a)).2 :=
              (congrArg Prod.snd h).symm
            rw [hs']
            have hstep := SStep_cfc cid { s with visited := .ref a :: s.visited } (.ref a)
            exact hstep.2.2.2.2.1 _ (List.mem_cons_self _ _)
          | promise r =>
            simp only [halook] at h
            have hs' : s' = collectTransferables { s with visited := .ref a :: s.visited }
                (.ref a) := by
              simp only [Option.some.injEq, Prod.mk.injEq] at h
              exact h.2.symm
            have hstep := SStep_collect { s with visited := .ref a :: s.visited } (.ref a)
            rw [hs']
            exact hstep.2.2.2.2.1 _ (List.mem_cons_self _ _)
          | arrbuf =>
            simp only [halook] at h
            have hs' : s' = collectTransferables { s with visited := .ref a :: s.visited }
                (.ref a) := by
              simp only [Option.some.injEq, Prod.mk.injEq] at h
              exact h.2.symm
            have hstep := SStep_collect { s with visited := .ref a :: s.visited } (.ref a)
            rw [hs']
            exact hstep.2.2.2.2.1 _ (List.mem_cons_self _ _)
          | typedarr b =>
            simp only [halook] at h
            have hs' : s' = collectTransferables { s with visited := .ref a :: s.visited }
                (.ref a) := by
              simp only [Option.some.injEq, Prod.mk.injEq] at h
              exact h.2.symm
            have hstep := SStep_collect { s with visited := .ref a :: s.visited } (.ref a)
            rw [hs']
            exact hstep.2.2.2.2.1 _ (List.mem_cons_self _ _)
  · intro cid fuel s v hv
    rw [processValueF, if_pos hv]

/-- Witness for `serialize_visit_semantics`: a fresh primitive gets marked; a
revisited value returns itself with the state unchanged. -/
theorem serialize_visit_semantics_witness :
    ((.prim .null : Val) ∈
      ({ SState.init sharedHeap 2 0 with visited := [.prim .null] } : SState).visited) ∧
    processValueF ctxId 1 { SState.init sharedHeap 2 0 with visited := [.ref 1] }
        (.ref 1) =
      some (.ref 1, { SState.init sharedHeap 2 0 with visited := [.ref 1] }) :=
  ⟨serialize_visit_semantics.1 ctxId 0 (SState.init sharedHeap 2 0) (.prim .null)
      (.prim .null) { SState.init sharedHeap 2 0 with visited := [.prim .null] }
      (by simp [processValueF, SState.init]),
   serialize_visit_semantics.2 ctxId 0 _ (.ref 1) (by decide)⟩

/-- C4 (amended): a function in a *directly processed* position — a bare
argument or an array element — is, on first visit, replaced by a callback
token object carrying a freshly generated uid, and the originating function
is recorded under that id in the function map.  (Functions nested behind
object-valued properties are copied verbatim instead — see the
counterexample.) -/
theorem function_tokenized (cid : Str) (fuel : Nat) (s : SState) (a : Nat)
    (hw : heapWF s.heap s.fresh)
    (hv : Val.ref a ∉ s.visited) (hfn : alook s.heap a = some .func) :
    processValueF cid (fuel + 1) s (.ref a) =
      some (.ref s.fresh,
        { s with visited := .ref a :: s.visited, uidc := s.uidc + 1,
                 functions := s.functions ++ [(uidStr s.uidc, .ref a)],
                 heap := s.heap ++ [(s.fresh, mkToken CALLBACK_FLAG cid (uidStr s.uidc))],
                 fresh := s.fresh + 1 }) ∧
    alook (s.heap ++ [(s.fresh, mkToken CALLBACK_FLAG cid (uidStr s.uidc))]) s.fresh =
      some (mkToken CALLBACK_FLAG cid (uidStr s.uidc)) := by
  constructor
  · rw [processValueF, if_neg hv]
    simp [hfn, createFunctionCallbackS]
  · rw [alook_append_none _ (alook_ge_fresh hw (le_refl _))]
    simp [alook]

/-- Witness for `function_tokenized`: the lone function at address `0`. -/
theorem function_tokenized_witness :
    processValueF ctxId 1 (SState.init [(0, Obj.func)] 1 0) (.ref 0) =
      some (.ref 1,
        { SState.init [(0, Obj.func)] 1 0 with
            visited := [.ref 0], uidc := 1,
            functions := [(uidStr 0, .ref 0)],
            heap := [(0, Obj.func), (1, mkToken CALLBACK_FLAG ctxId (uidStr 0))],
            fresh := 2 }) ∧
    alook [(0, Obj.func), (1, mkToken CALLBACK_FLAG ctxId (uidStr 0))] 1 =
      some (mkToken CALLBACK_FLAG ctxId (uidStr 0)) :=
  function_tokenized ctxId 0 (SState.init [(0, Obj.func)] 1 0) 0
    (by simp [heapWF, SState.init]) (by decide) (by rfl)

/-! ## Serializer closedness and data-only preservation -/

theorem valClosed_mono {fresh fresh' : Nat} (hle : fresh ≤ fresh') {v : Val}
    (hv : valClosed fresh v) : valClosed fresh' v := by
  cases v with
  | prim p => trivial
  | ref a => simp only [valClosed] at hv ⊢; omega

theorem heapValsClosed_mono {h : Heap} {n m : Nat} (hvc : heapValsClosed h n)
    (hnm : n ≤ m) : heapValsClosed h m :=
  fun p hp c hc => valClosed_mono hnm (hvc p hp c hc)

theorem bundle_append {h : Heap} {fresh : Nat} (o : Obj)
    (hw : heapWF h fresh) (hvc : heapValsClosed h fresh) (hdo : heapDataOnly h)
    (ho : ∀ c ∈ objChildVals o, valClosed fresh c)
    (hop : ∀ kd ∈ objProps o, kd.2.isData = true) :
    heapWF (h ++ [(fresh, o)]) (fresh + 1) ∧
    heapValsClosed (h ++ [(fresh, o)]) (fresh + 1) ∧
    heapDataOnly (h ++ [(fresh, o)]) := by
  refine ⟨heapWF_append hw o, ?_, ?_⟩
  · intro p hp c hc
    rcases List.mem_append.mp hp with hpo | hpn
    · exact valClosed_mono (Nat.le_succ _) (hvc p hpo c hc)
    · simp only [List.mem_singleton] at hpn
      subst hpn
      exact valClosed_mono (Nat.le_succ _) (ho c hc)
  · intro p hp kd hkd
    rcases List.mem_append.mp hp with hpo | hpn
    · exact hdo p hpo kd hkd
    · simp only [List.mem_singleton] at hpn
      subst hpn
      exact hop kd hkd

theorem mkToken_children_closed (flag cid fid : Str) (fresh : Nat) :
    ∀ c ∈ objChildVals (mkToken flag cid fid), valClosed fresh c := by
  intro c hc
  simp [mkToken, objChildVals] at hc
  rcases hc with h | h | h <;> (subst h; trivial)

theorem mkToken_props_data (flag cid fid : Str) :
    ∀ kd ∈ objProps (mkToken flag cid fid), kd.2.isData = true := by
  intro kd hkd
  simp [mkToken, objProps] at hkd
  rcases hkd with h | h | h <;> (subst h; rfl)

theorem good_cfc (cid : Str) (s : SState) (fv : Val)
    (hw : heapWF s.heap s.fresh) (hvc : heapValsClosed s.heap s.fresh)
    (hdo : heapDataOnly s.heap) :
    heapWF (createFunctionCallbackS cid s fv).2.heap
      (createFunctionCallbackS cid s fv).2.fresh ∧
    heapValsClosed (createFunctionCallbackS cid s fv).2.heap
      (createFunctionCallbackS cid s fv).2.fresh ∧
    heapDataOnly (createFunctionCallbackS cid s fv).2.heap ∧
    valClosed (createFunctionCallbackS cid s fv).2.fresh
      (createFunctionCallbackS cid s fv).1 := by
  have hb := bundle_append (mkToken CALLBACK_FLAG cid (uidStr s.uidc)) hw hvc hdo
    (mkToken_children_closed CALLBACK_FLAG cid (uidStr s.uidc) s.fresh)
    (mkToken_props_data CALLBACK_FLAG cid (uidStr s.uidc))
  refine ⟨hb.1, hb.2.1, hb.2.2, ?_⟩
  simp [createFunctionCallbackS, valClosed]

theorem good_cgo (cid : Str) (s : SState) (fv : Val)
    (hw : heapWF s.heap s.fresh) (hvc : heapValsClosed s.heap s.fresh)
    (hdo : heapDataOnly s.heap) :
    heapWF (createGetterObjectS cid s fv).2.heap
      (createGetterObjectS cid s fv).2.fresh ∧
    heapValsClosed (createGetterObjectS cid s fv).2.heap
      (createGetterObjectS cid s fv).2.fresh ∧
    heapDataOnly (createGetterObjectS cid s fv).2.heap ∧
    valClosed (createGetterObjectS cid s fv).2.fresh
      (createGetterObjectS cid s fv).1 := by
  have hb := bundle_append (mkToken GETTER_FLAG cid (uidStr s.uidc)) hw hvc hdo
    (mkToken_children_closed GETTER_FLAG cid (uidStr s.uidc) s.fresh)
    (mkToken_props_data GETTER_FLAG cid (uidStr s.uidc))
  refine ⟨hb.1, hb.2.1, hb.2.2, ?_⟩
  simp [createGetterObjectS, valClosed]

theorem good_collect (s : SState) (v : Val) :
    (collectTransferables s v).heap = s.heap ∧
    (collectTransferables s v).fresh = s.fresh := by
  cases v with
  | prim p => exact ⟨rfl, rfl⟩
  | ref a =>
    simp only [collectTransferables]
    cases halook : alook s.heap a with
    | none => exact ⟨rfl, rfl⟩
    | some o => cases o <;> exact ⟨rfl, rfl⟩

theorem objChildVals_obj_cases {ps : List (Str × PropD)} {c : Val}
    (hc : c ∈ objChildVals (.obj ps)) :
    ∃ kd ∈ ps, ∃ en w cf, kd.2 = PropD.data c en w cf := by
  induction ps with
  | nil => cases hc
  | cons q rest ihq =>
    obtain ⟨k1, d1⟩ := q
    cases d1 with
    | data dv1 en1 w1 cf1 =>
      simp only [objChildVals, List.foldr_cons] at hc
      rcases List.mem_cons.mp hc with hce | hcr
      · exact ⟨(k1, .data dv1 en1 w1 cf1), List.mem_cons_self _ _, en1, w1, cf1,
          by rw [hce]⟩
      · obtain ⟨kd2, hkd2, hx⟩ := ihq (by simpa [objChildVals] using hcr)
        exact ⟨kd2, List.mem_cons_of_mem _ hkd2, hx⟩
    | accessor g1 en1 cf1 =>
      simp only [objChildVals, List.foldr_cons] at hc
      obtain ⟨kd2, hkd2, hx⟩ := ihq (by simpa [objChildVals] using hc)
      exact ⟨kd2, List.mem_cons_of_mem _ hkd2, hx⟩

theorem processValsF_good_of (cid : Str) (fuel : Nat)
    (hv1 : ∀ s v v' s', processValueF cid fuel s v = some (v', s') →
      heapWF s.heap s.fresh → heapValsClosed s.heap s.fresh → heapDataOnly s.heap →
      valClosed s.fresh v →
      heapWF s'.heap s'.fresh ∧ heapValsClosed s'.heap s'.fresh ∧ heapDataOnly s'.heap ∧
        valClosed s'.fresh v') :
    ∀ (l : List Val) (s : SState) (l' : List Val) (s' : SState),
      processValsF cid fuel s l = some (l', s') →
      heapWF s.heap s.fresh → heapValsClosed s.heap s.fresh → heapDataOnly s.heap →
      (∀ x ∈ l, valClosed s.fresh x) →
      heapWF s'.heap s'.fresh ∧ heapValsClosed s'.heap s'.fresh ∧ heapDataOnly s'.heap ∧
        ∀ x ∈ l', valClosed s'.fresh x := by
  intro l
  induction l with
  | nil =>
    intro s l' s' h hw hvc hdo hl
    simp only [processValsF, Option.some.injEq, Prod.mk.injEq] at h
    obtain ⟨h1, h2⟩ := h
    subst h2
    exact ⟨hw, hvc, hdo, by rw [← h1]; intro x hx; cases hx⟩
  | cons v rest ih =>
    intro s l' s' h hw hvc hdo hl
    simp only [processValsF] at h
    rw [optBind_eq_some] at h
    obtain ⟨⟨v1, s1⟩, h1, h⟩ := h
    rw [optBind_eq_some] at h
    obtain ⟨⟨r1, s2⟩, h2, h⟩ := h
    simp only [Option.some.injEq, Prod.mk.injEq] at h
    obtain ⟨hL, hS⟩ := h
    subst hS
    have g1 := hv1 s v v1 s1 h1 hw hvc hdo (hl v (List.mem_cons_self _ _))
    have hstep1 := processValueF_mono cid fuel s v v1 s1 h1
    have g2 := ih s1 r1 s2 h2 g1.1 g1.2.1 g1.2.2.1
      (fun x hx => valClosed_mono hstep1.2.2.1
        (hl x (List.mem_cons_of_mem _ hx)))
    have hstep2 := processValsF_mono cid fuel rest s1 r1 s2 h2
    refine ⟨g2.1, g2.2.1, g2.2.2.1, ?_⟩
    rw [← hL]
    intro x hx
    rcases List.mem_cons.mp hx with hxe | hxr
    · subst hxe
      exact valClosed_mono hstep2.2.2.1 g1.2.2.2
    · exact g2.2.2.2 x hxr

theorem processPropsF_good_of (cid : Str) (fuel : Nat)
    (hv1 : ∀ s v v' s', processValueF cid fuel s v = some (v', s') →
      heapWF s.heap s.fresh → heapValsClosed s.heap s.fresh → heapDataOnly s.heap →
      valClosed s.fresh v →
      heapWF s'.heap s'.fresh ∧ heapValsClosed s'.heap s'.fresh ∧ heapDataOnly s'.heap ∧
        valClosed s'.fresh v') :
    ∀ (pl : List (Str × PropD)) (s : SState) (pl' : List (Str × PropD)) (s' : SState),
      processPropsF cid fuel s pl = some (pl', s') →
      heapWF s.heap s.fresh → heapValsClosed s.heap s.fresh → heapDataOnly s.heap →
      (∀ kd ∈ pl, ∀ dv en w cf, kd.2 = PropD.data dv en w cf → valClosed s.fresh dv) →
      heapWF s'.heap s'.fresh ∧ heapValsClosed s'.heap s'.fresh ∧ heapDataOnly s'.heap ∧
        ∀ kd ∈ pl', ∃ dv en w cf, kd.2 = PropD.data dv en w cf ∧ valClosed s'.fresh dv := by
  intro pl
  induction pl with
  | nil =>
    intro s pl' s' h hw hvc hdo hl
    simp only [processPropsF, Option.some.injEq, Prod.mk.injEq] at h
    obtain ⟨h1, h2⟩ := h
    subst h2
    exact ⟨hw, hvc, hdo, by rw [← h1]; intro x hx; cases hx⟩
  | cons kd rest ih =>
    intro s pl' s' h hw hvc hdo hl
    obtain ⟨k, d⟩ := kd
    cases d with
    | accessor g en cf =>
      simp only [processPropsF] at h
      rw [optBind_eq_some] at h
      obtain ⟨⟨r1, s2⟩, h2, h⟩ := h
      simp only [Option.some.injEq, Prod.mk.injEq] at h
      obtain ⟨hL, hS⟩ := h
      subst hS
      have g0 := good_cgo cid s (.ref g) hw hvc hdo
      have hstep2 := processPropsF_mono cid fuel rest _ r1 s2 h2
      have hstep0 := SStep_cgo cid s (.ref g)
      have g2 := ih (createGetterObjectS cid s (.ref g)).2 r1 s2 h2 g0.1 g0.2.1 g0.2.2.1
        (fun x hx dv en w cf hd =>
          valClosed_mono hstep0.2.2.1 (hl x (List.mem_cons_of_mem _ hx) dv en w cf hd))
      refine ⟨g2.1, g2.2.1, g2.2.2.1, ?_⟩
      rw [← hL]
      intro x hx
      rcases List.mem_cons.mp hx with hxe | hxr
      · subst hxe
        exact ⟨_, _, _, _, rfl, valClosed_mono hstep2.2.2.1 g0.2.2.2⟩
      · exact g2.2.2.2 x hxr
    | data dv en w cf =>
      by_cases hfn : isFunc s.heap dv
      · simp only [processPropsF, if_pos hfn] at h
        rw [optBind_eq_some] at h
        obtain ⟨⟨v1, s1⟩, h1, h⟩ := h
        rw [optBind_eq_some] at h
        obtain ⟨⟨r1, s2⟩, h2, h⟩ := h
        simp only [Option.some.injEq, Prod.mk.injEq] at h
        obtain ⟨hL, hS⟩ := h
        subst hS
        have g1 := hv1 s dv v1 s1 h1 hw hvc hdo
          (hl (k, .data dv en w cf) (List.mem_cons_self _ _) dv en w cf rfl)
        have hstep1 := processValueF_mono cid fuel s dv v1 s1 h1
        have g2 := ih s1 r1 s2 h2 g1.1 g1.2.1 g1.2.2.1
          (fun x hx dv1 en1 w1 cf1 hd =>
            valClosed_mono hstep1.2.2.1 (hl x (List.mem_cons_of_mem _ hx) dv1 en1 w1 cf1 hd))
        have hstep2 := processPropsF_mono cid fuel rest s1 r1 s2 h2
        refine ⟨g2.1, g2.2.1, g2.2.2.1, ?_⟩
        rw [← hL]
        intro x hx
        rcases List.mem_cons.mp hx with hxe | hxr
        · subst hxe
          exact ⟨_, _, _, _, rfl, valClosed_mono hstep2.2.2.1 g1.2.2.2⟩
        · exact g2.2.2.2 x hxr
      · simp only [processPropsF, if_neg hfn] at h
        rw [optBind_eq_some] at h
        obtain ⟨⟨r1, s2⟩, h2, h⟩ := h
        simp only [Option.some.injEq, Prod.mk.injEq] at h
        obtain ⟨hL, hS⟩ := h
        subst hS
        have hstep2 := processPropsF_mono cid fuel rest s r1 s2 h2
        have g2 := ih s r1 s2 h2 hw hvc hdo
          (fun x hx dv1 en1 w1 cf1 hd => hl x (List.mem_cons_of_mem _ hx) dv1 en1 w1 cf1 hd)
        refine ⟨g2.1, g2.2.1, g2.2.2.1, ?_⟩
        rw [← hL]
        intro x hx
        rcases List.mem_cons.mp hx with hxe | hxr
        · subst hxe
          exact ⟨_, _, _, _, rfl, valClosed_mono hstep2.2.2.1
            (hl (k, .data dv en w cf) (List.mem_cons_self _ _) dv en w cf rfl)⟩
        · exact g2.2.2.2 x hxr

theorem processValueF_good (cid : Str) :
    ∀ (fuel : Nat) (s : SState) (v v' : Val) (s' : SState),
      processValueF cid fuel s v = some (v', s') →
      heapWF s.heap s.fresh → heapValsClosed s.heap s.fresh → heapDataOnly s.heap →
      valClosed s.fresh v →
      heapWF s'.heap s'.fresh ∧ heapValsClosed s'.heap s'.fresh ∧ heapDataOnly s'.heap ∧
        valClosed s'.fresh v' := by
  intro fuel
  induction fuel with
  | zero => intro s v v' s' h; simp [processValueF] at h
  | succ fuel ih =>
    intro s v v' s' h hw hvc hdo hv
    rw [processValueF] at h
    by_cases hvis : v ∈ s.visited
    · rw [if_pos hvis] at h
      simp only [Option.some.injEq, Prod.mk.injEq] at h
      obtain ⟨h1, h2⟩ := h
      subst h2
      exact ⟨hw, hvc, hdo, h1 ▸ hv⟩
    · rw [if_neg hvis] at h
      cases v with
      | prim p =>
        simp only [Option.some.injEq, Prod.mk.injEq] at h
        obtain ⟨h1, h2⟩ := h
        subst h2
        exact ⟨hw, hvc, hdo, h1 ▸ hv⟩
      | ref a =>
        simp only at h
        cases halook : alook s.heap a with
        | none =>
          simp only [halook] at h
          simp only [Option.some.injEq, Prod.mk.injEq] at h
          obtain ⟨h1, h2⟩ := h
          have hcoll := good_collect { s with visited := .ref a :: s.visited } (.ref a)
          rw [← h2, hcoll.1, hcoll.2]
          exact ⟨hw, hvc, hdo, h1 ▸ hv⟩
        | some o =>
          cases o with
          | arr elems =>
            simp only [halook, bind, Option.bind] at h
            cases he : processValsF cid fuel { s with visited := .ref a :: s.visited }
                elems with
            | none => rw [he] at h; cases h
            | some p =>
              rw [he] at h
              obtain ⟨es, s2⟩ := p
              simp only [Option.some.injEq, Prod.mk.injEq] at h
              obtain ⟨h1, h2⟩ := h
              have helems : ∀ x ∈ elems, valClosed s.fresh x := by
                intro x hx
                exact hvc (a, .arr elems) (alook_mem halook) x (by simpa [objChildVals]
                  using hx)
              have g1 := processValsF_good_of cid fuel (fun s v v' s' h hw hvc hdo hv =>
                  ih s v v' s' h hw hvc hdo hv) elems _ es s2 he hw hvc hdo helems
              have hb := bundle_append (Obj.arr es) g1.1 g1.2.1 g1.2.2.1
                (by intro c hc; exact g1.2.2.2 c (by simpa [objChildVals] using hc))
                (by intro kd hkd; simp [objProps] at hkd)
              rw [← h2]
              exact ⟨hb.1, hb.2.1, hb.2.2, by rw [← h1]; simp [valClosed]⟩
          | obj props =>
            simp only [halook, bind, Option.bind] at h
            cases he : processPropsF cid fuel { s with visited := .ref a :: s.visited }
                props with
            | none => rw [he] at h; cases h
            | some p =>
              rw [he] at h
              obtain ⟨ps, s2⟩ := p
              simp only [Option.some.injEq, Prod.mk.injEq] at h
              obtain ⟨h1, h2⟩ := h
              have hprops : ∀ kd ∈ props, ∀ dv en w cf, kd.2 = PropD.data dv en w cf →
                  valClosed s.fresh dv := by
                intro kd hkd dv en w cf hd
                obtain ⟨k0, d0⟩ := kd
                simp only at hd
                subst hd
                exact hvc (a, .obj props) (alook_mem halook) dv (objChildVals_obj_mem hkd)
              have g1 := processPropsF_good_of cid fuel (fun s v v' s' h hw hvc hdo hv =>
                  ih s v v' s' h hw hvc hdo hv) props _ ps s2 he hw hvc hdo hprops
              have hb := bundle_append (Obj.obj ps) g1.1 g1.2.1 g1.2.2.1
                (by
                  intro c hc
                  obtain ⟨kd2, hkd2, en1, w1, cf1, hx⟩ := objChildVals_obj_cases hc
                  obtain ⟨dv2, en2, w2, cf2, hd2, hcl2⟩ := g1.2.2.2 kd2 hkd2
                  rw [hx] at hd2
                  cases hd2
                  exact hcl2)
                (by
                  intro kd hkd
                  obtain ⟨dv2, en2, w2, cf2, hd2, _⟩ := g1.2.2.2 kd hkd
                  rw [hd2]
                  rfl)
              rw [← h2]
              exact ⟨hb.1, hb.2.1, hb.2.2, by rw [← h1]; simp [valClosed]⟩
          | func =>
            simp only [halook, Option.some.injEq] at h
            have g0 := good_cfc cid { s with visited := .ref a :: s.visited } (.ref a)
              hw hvc hdo
            rw [show v' = (createFunctionCallbackS cid
                { s with visited := .ref a :: s.visited } (.ref a)).1 from
                  (congrArg Prod.fst h).symm,
               show s' = (createFunctionCallbackS cid
                { s with visited := .ref a :: s.visited } (.ref a)).2 from
                  (congrArg Prod.snd h).symm]
            exact g0
          | promise r =>
            simp only [halook, Option.some.injEq, Prod.mk.injEq] at h
            obtain ⟨h1, h2⟩ := h
            have hcoll := good_collect { s with visited := .ref a :: s.visited } (.ref a)
            rw [← h2, hcoll.1, hcoll.2]
            exact ⟨hw, hvc, hdo, h1 ▸ hv⟩
          | arrbuf =>
            simp only [halook, Option.some.injEq, Prod.mk.injEq] at h
            obtain ⟨h1, h2⟩ := h
            have hcoll := good_collect { s with visited := .ref a :: s.visited } (.ref a)
            rw [← h2, hcoll.1, hcoll.2]
            exact ⟨hw, hvc, hdo, h1 ▸ hv⟩
          | typedarr b =>
            simp only [halook, Option.some.injEq, Prod.mk.injEq] at h
            obtain ⟨h1, h2⟩ := h
            have hcoll := good_collect { s with visited := .ref a :: s.visited } (.ref a)
            rw [← h2, hcoll.1, hcoll.2]
            exact ⟨hw, hvc, hdo, h1 ▸ hv⟩

theorem mem_heapVals_cases {h : Heap} {v : Val} (hv : v ∈ heapVals h) :
    ∃ p ∈ h, v = Val.ref p.1 ∨ v ∈ objChildVals p.2 := by
  induction h with
  | nil => cases hv
  | cons q rest ih =>
    simp only [heapVals, List.foldr_cons] at hv
    rcases List.mem_cons.mp hv with hve | hvr
    · exact ⟨q, List.mem_cons_self _ _, Or.inl hve⟩
    · rcases List.mem_append.mp hvr with hvc | hvt
      · exact ⟨q, List.mem_cons_self _ _, Or.inr hvc⟩
      · obtain ⟨p, hp, hx⟩ := ih hvt
        exact ⟨p, List.mem_cons_of_mem _ hp, hx⟩

theorem heapClosedVals_of {h : Heap} {fresh : Nat} {extra : List Val}
    (hw : heapWF h fresh) (hvc : heapValsClosed h fresh)
    (hextra : ∀ v ∈ extra, valClosed fresh v) : heapClosedVals h fresh extra := by
  intro a ha
  rcases List.mem_append.mp ha with hah | hax
  · obtain ⟨p, hp, hx⟩ := mem_heapVals_cases hah
    rcases hx with hx | hx
    · cases hx
      exact hw p hp
    · exact hvc p hp _ hx
  · exact hextra _ hax

theorem heapValsClosed_of_closedVals {h : Heap} {fresh : Nat}
    (hcl : heapClosedVals h fresh []) : heapValsClosed h fresh := by
  intro p hp c hc
  cases c with
  | prim q => trivial
  | ref a =>
    exact hcl a (List.mem_append.mpr (Or.inl (mem_heapVals_of_child hp (.ref a) hc)))

theorem serializeRequestDataF_good (cid : Str) (h : Heap) (fresh uidc : Nat)
    (data out : List Val) (s : SState)
    (hser : serializeRequestDataF cid (bigFuel h data) h fresh uidc data = some (out, s))
    (hw : heapWF h fresh) (hvc : heapValsClosed h fresh) (hdo : heapDataOnly h)
    (hdata : ∀ x ∈ data, valClosed fresh x) :
    heapWF s.heap s.fresh ∧ heapValsClosed s.heap s.fresh ∧ heapDataOnly s.heap ∧
      ∀ x ∈ out, valClosed s.fresh x :=
  processValsF_good_of cid (bigFuel h data)
    (fun s v v' s' h hw hvc hdo hv => processValueF_good cid _ s v v' s' h hw hvc hdo hv)
    data (SState.init h fresh uidc) out s hser hw hvc hdo hdata

/-! ## Deserializer closedness preservation -/

theorem hset_mem_eq {h : Heap} {a : Nat} {o : Obj} {p : Nat × Obj}
    (hp : p ∈ hset h a o) : p = (a, o) ∨ p ∈ h := by
  induction h with
  | nil => simp [hset] at hp
  | cons q rest ih =>
    obtain ⟨a', o'⟩ := q
    by_cases he : a' = a
    · rw [hset, if_pos he] at hp
      rcases List.mem_cons.mp hp with h1 | h1
      · exact Or.inl h1
      · exact Or.inr (List.mem_cons_of_mem _ h1)
    · rw [hset, if_neg he] at hp
      rcases List.mem_cons.mp hp with h1 | h1
      · exact Or.inr (h1 ▸ List.mem_cons_self _ _)
      · rcases ih h1 with h2 | h2
        · exact Or.inl h2
        · exact Or.inr (List.mem_cons_of_mem _ h2)

theorem objChildVals_obj_append {ps : List (Str × PropD)} {k : Str} {d : PropD} {c : Val}
    (hc : c ∈ objChildVals (.obj (ps ++ [(k, d)]))) :
    c ∈ objChildVals (.obj ps) ∨ ∃ en w cf, d = PropD.data c en w cf := by
  obtain ⟨kd, hkd, en, w, cf, hx⟩ := objChildVals_obj_cases hc
  rcases List.mem_append.mp hkd with hin | hone
  · left
    obtain ⟨k0, d0⟩ := kd
    simp only at hx
    subst hx
    exact objChildVals_obj_mem hin
  · right
    simp only [List.mem_singleton] at hone
    subst hone
    exact ⟨en, w, cf, hx⟩

theorem heapValsClosed_hset {h : Heap} {fresh : Nat} (hvc : heapValsClosed h fresh)
    {a : Nat} {o : Obj} (ho : ∀ c ∈ objChildVals o, valClosed fresh c) :
    heapValsClosed (hset h a o) fresh := by
  intro p hp c hc
  rcases hset_mem_eq hp with hpe | hph
  · subst hpe
    exact ho c hc
  · exact hvc p hph c hc

theorem heapValsClosed_pushProp {h : Heap} {fresh : Nat} (hvc : heapValsClosed h fresh)
    {addr : Nat} {k : Str} {d : PropD}
    (hd : ∀ dv en w cf, d = PropD.data dv en w cf → valClosed fresh dv) :
    heapValsClosed (pushProp h addr k d) fresh := by
  unfold pushProp
  cases hao : alook h addr with
  | none => exact hvc
  | some o =>
    cases o with
    | obj ps =>
      refine heapValsClosed_hset hvc ?_
      intro c hc
      rcases objChildVals_obj_append hc with h1 | ⟨en, w, cf, h1⟩
      · exact hvc (addr, .obj ps) (alook_mem hao) c h1
      · exact hd c en w cf h1
    | arr es => exact hvc
    | func => exact hvc
    | promise r => exact hvc
    | arrbuf => exact hvc
    | typedarr b => exact hvc

theorem closed_append {h : Heap} {fresh : Nat} (o : Obj)
    (hw : heapWF h fresh) (hvc : heapValsClosed h fresh)
    (ho : ∀ c ∈ objChildVals o, valClosed fresh c) :
    heapWF (h ++ [(fresh, o)]) (fresh + 1) ∧
    heapValsClosed (h ++ [(fresh, o)]) (fresh + 1) := by
  refine ⟨heapWF_append hw o, ?_⟩
  intro p hp c hc
  rcases List.mem_append.mp hp with hpo | hpn
  · exact valClosed_mono (Nat.le_succ _) (hvc p hpo c hc)
  · simp only [List.mem_singleton] at hpn
    subst hpn
    exact valClosed_mono (Nat.le_succ _) (ho c hc)

theorem cacheClosed_set {st : DState} (hcc : cacheClosed st) {k0 r0 : Val}
    (hr0 : valClosed st.fresh r0) :
    cacheClosed { st with handled := assocSet st.handled k0 r0 } := by
  intro k r h
  simp only at h
  by_cases hk : k = k0
  · subst hk
    rw [alook_assocSet_self] at h
    cases h
    exact hr0
  · rw [alook_assocSet_ne _ _ hk] at h
    exact hcc k r h

theorem cacheClosed_alloc {st : DState} (hcc : cacheClosed st) {k0 r0 : Val}
    (hr0 : valClosed (st.fresh + 1) r0) (st' : DState)
    (hh : st'.handled = assocSet st.handled k0 r0) (hf : st'.fresh = st.fresh + 1) :
    cacheClosed st' := by
  intro k r h
  rw [hh] at h
  by_cases hk : k = k0
  · subst hk
    rw [alook_assocSet_self] at h
    cases h
    rw [hf]
    exact hr0
  · rw [alook_assocSet_ne _ _ hk] at h
    rw [hf]
    exact valClosed_mono (Nat.le_succ _) (hcc k r h)

theorem transformElemsF_closed_of (fuel : Nat)
    (hTF : ∀ st v r st', transformF fuel st v = some (r, st') →
      heapWF st.heap st.fresh → heapValsClosed st.heap st.fresh → cacheClosed st →
      valClosed st.fresh v →
      heapWF st'.heap st'.fresh ∧ heapValsClosed st'.heap st'.fresh ∧ cacheClosed st' ∧
        valClosed st'.fresh r) :
    ∀ (l : List Val) (st : DState) (l' : List Val) (st' : DState),
      transformElemsF fuel st l = some (l', st') →
      heapWF st.heap st.fresh → heapValsClosed st.heap st.fresh → cacheClosed st →
      (∀ x ∈ l, valClosed st.fresh x) →
      heapWF st'.heap st'.fresh ∧ heapValsClosed st'.heap st'.fresh ∧ cacheClosed st' ∧
        ∀ x ∈ l', valClosed st'.fresh x := by
  intro l
  induction l with
  | nil =>
    intro st l' st' h hw hvc hcc hl
    simp only [transformElemsF, Option.some.injEq, Prod.mk.injEq] at h
    obtain ⟨h1, h2⟩ := h
    subst h2
    exact ⟨hw, hvc, hcc, by rw [← h1]; intro x hx; cases hx⟩
  | cons it rest ih =>
    intro st l' st' h hw hvc hcc hl
    cases hh : alook st.handled it with
    | some o =>
      simp only [transformElemsF, hh] at h
      rw [optBind_eq_some] at h
      obtain ⟨⟨r1, s1⟩, h2, h⟩ := h
      simp only [Option.some.injEq, Prod.mk.injEq] at h
      obtain ⟨hL, hS⟩ := h
      subst hS
      have g2 := ih st r1 s1 h2 hw hvc hcc (fun x hx => hl x (List.mem_cons_of_mem _ hx))
      have hstep2 := transformElemsF_mono fuel rest st r1 s1 h2
      refine ⟨g2.1, g2.2.1, g2.2.2.1, ?_⟩
      rw [← hL]
      intro x hx
      rcases List.mem_cons.mp hx with hxe | hxr
      · subst hxe
        exact valClosed_mono hstep2.2.1 (hcc it x hh)
      · exact g2.2.2.2 x hxr
    | none =>
      simp only [transformElemsF, hh] at h
      rw [optBind_eq_some] at h
      obtain ⟨⟨r1, s1⟩, h1, h⟩ := h
      rw [optBind_eq_some] at h
      obtain ⟨⟨rest', s2⟩, h2, h⟩ := h
      simp only [Option.some.injEq, Prod.mk.injEq] at h
      obtain ⟨hL, hS⟩ := h
      subst hS
      have g1 := hTF st it r1 s1 h1 hw hvc hcc (hl it (List.mem_cons_self _ _))
      have hstep1 := (transformF_mono fuel st it r1 s1 h1).1
      have g1cc : cacheClosed { s1 with handled := assocSet s1.handled it r1 } :=
        cacheClosed_set g1.2.2.1 g1.2.2.2
      have g2 := ih { s1 with handled := assocSet s1.handled it r1 } rest' s2 h2
        g1.1 g1.2.1 g1cc
        (fun x hx => valClosed_mono hstep1.2.1 (hl x (List.mem_cons_of_mem _ hx)))
      have hstep2 := transformElemsF_mono fuel rest
        { s1 with handled := assocSet s1.handled it r1 } rest' s2 h2
      refine ⟨g2.1, g2.2.1, g2.2.2.1, ?_⟩
      rw [← hL]
      intro x hx
      rcases List.mem_cons.mp hx with hxe | hxr
      · subst hxe
        exact valClosed_mono hstep2.2.1 g1.2.2.2
      · exact g2.2.2.2 x hxr

theorem transformPropsF_closed_of (fuel : Nat)
    (hTF : ∀ st v r st', transformF fuel st v = some (r, st') →
      heapWF st.heap st.fresh → heapValsClosed st.heap st.fresh → cacheClosed st →
      valClosed st.fresh v →
      heapWF st'.heap st'.fresh ∧ heapValsClosed st'.heap st'.fresh ∧ cacheClosed st' ∧
        valClosed st'.fresh r) :
    ∀ (pl : List (Str × PropD)) (st : DState) (addr : Nat) (st' : DState),
      transformPropsF fuel st addr pl = some st' → addr < st.fresh →
      heapWF st.heap st.fresh → heapValsClosed st.heap st.fresh → cacheClosed st →
      (∀ kd ∈ pl, ∀ dv en w cf, kd.2 = PropD.data dv en w cf → valClosed st.fresh dv) →
      heapWF st'.heap st'.fresh ∧ heapValsClosed st'.heap st'.fresh ∧ cacheClosed st' := by
  intro pl
  induction pl with
  | nil =>
    intro st addr st' h ha hw hvc hcc hl
    simp only [transformPropsF, Option.some.injEq] at h
    subst h
    exact ⟨hw, hvc, hcc⟩
  | cons kd rest ih =>
    intro st addr st' h ha hw hvc hcc hl
    obtain ⟨k, d⟩ := kd
    cases d with
    | accessor g en cf => simp [transformPropsF] at h
    | data dv en w cf =>
      by_cases hg : isGetterV st.heap dv
      · rw [transformPropsF.eq_def] at h
        simp only [if_pos hg] at h
        set stG : DState := { st with
          heap := pushProp (st.heap ++ [(st.fresh, Obj.func)]) addr k
            (.accessor st.fresh false false),
          fresh := st.fresh + 1,
          proxies := st.proxies ++ [(st.fresh, propValueOf st.heap dv idKey)],
          registered := st.registered ++
            [(Val.ref st.fresh, propValueOf st.heap dv idKey)] } with hstG
        have hwG : heapWF stG.heap stG.fresh := by
          simp only [hstG]
          exact heapWF_pushProp (heapWF_append hw _) (by omega) _ _
        have hvcG : heapValsClosed stG.heap stG.fresh := by
          simp only [hstG]
          refine heapValsClosed_pushProp ?_ ?_
          · exact (closed_append Obj.func hw hvc (by intro c hc; cases hc)).2
          · intro dv1 en1 w1 cf1 hd
            cases hd
        have hccG : cacheClosed stG := by
          intro k1 r1 h1
          simp only [hstG] at h1 ⊢
          exact valClosed_mono (Nat.le_succ _) (hcc k1 r1 h1)
        have g2 := ih stG addr st' h (by simp only [hstG]; omega) hwG hvcG hccG
          (fun x hx dv1 en1 w1 cf1 hd => valClosed_mono (by simp only [hstG]; omega)
            (hl x (List.mem_cons_of_mem _ hx) dv1 en1 w1 cf1 hd))
        exact g2
      · rw [transformPropsF.eq_def] at h
        simp only [if_neg hg] at h
        rw [optBind_eq_some] at h
        obtain ⟨⟨r1, s1⟩, h1, h2⟩ := h
        have g1 := hTF st dv r1 s1 h1 hw hvc hcc
          (hl (k, .data dv en w cf) (List.mem_cons_self _ _) dv en w cf rfl)
        have hstep1 := (transformF_mono fuel st dv r1 s1 h1).1
        have ha1 : addr < s1.fresh := lt_of_lt_of_le ha hstep1.2.1
        set st2 : DState :=
          { s1 with heap := pushProp s1.heap addr k (.data r1 true true true) } with hst2
        have hw2 : heapWF st2.heap st2.fresh := by
          simp only [hst2]
          exact heapWF_pushProp g1.1 ha1 _ _
        have hvc2 : heapValsClosed st2.heap st2.fresh := by
          simp only [hst2]
          refine heapValsClosed_pushProp g1.2.1 ?_
          intro dv1 en1 w1 cf1 hd
          cases hd
          exact g1.2.2.2
        have hcc2 : cacheClosed st2 := by
          intro k1 r2 hk1
          simp only [hst2] at hk1 ⊢
          exact g1.2.2.1 k1 r2 hk1
        have g2 := ih st2 addr st' h2 (by simp only [hst2]; omega) hw2 hvc2 hcc2
          (fun x hx dv1 en1 w1 cf1 hd => valClosed_mono
            (show st.fresh ≤ st2.fresh from by simp only [hst2]; exact hstep1.2.1)
            (hl x (List.mem_cons_of_mem _ hx) dv1 en1 w1 cf1 hd))
        exact g2

theorem transformF_closed :
    ∀ (fuel : Nat) (st : DState) (v r : Val) (st' : DState),
      transformF fuel st v = some (r, st') →
      heapWF st.heap st.fresh → heapValsClosed st.heap st.fresh → cacheClosed st →
      valClosed st.fresh v →
      heapWF st'.heap st'.fresh ∧ heapValsClosed st'.heap st'.fresh ∧ cacheClosed st' ∧
        valClosed st'.fresh r := by
  intro fuel
  induction fuel with
  | zero => intro st v r st' h; simp [transformF] at h
  | succ fuel ih =>
    intro st v r st' h hw hvc hcc hv
    cases hh : alook st.handled v with
    | some o =>
      simp only [transformF, hh, Option.some.injEq, Prod.mk.injEq] at h
      obtain ⟨h1, h2⟩ := h
      subst h2
      exact ⟨hw, hvc, hcc, h1 ▸ hcc v o hh⟩
    | none =>
      have hwk : transformWorkF (fuel + 1) st v = some (r, st') := by
        rw [← h]
        simp [transformF, hh]
      clear h
      rw [transformWorkF.eq_def] at hwk
      by_cases hcb : isCallbackV st.heap v
      · simp only [if_pos hcb, Option.some.injEq, Prod.mk.injEq] at hwk
        obtain ⟨h1, h2⟩ := hwk
        have hca := closed_append Obj.func hw hvc (by intro c hc; cases hc)
        rw [← h2]
        refine ⟨hca.1, hca.2, ?_, by rw [← h1]; simp [valClosed]⟩
        exact cacheClosed_alloc hcc (by simp [valClosed]) _ rfl rfl
      · cases v with
        | prim p =>
          simp only [if_neg hcb, Option.some.injEq, Prod.mk.injEq] at hwk
          obtain ⟨h1, h2⟩ := hwk
          subst h2
          exact ⟨hw, hvc, hcc, h1 ▸ hv⟩
        | ref a =>
          simp only [if_neg hcb] at hwk
          cases halook : alook st.heap a with
          | none =>
            simp only [halook, Option.some.injEq, Prod.mk.injEq] at hwk
            obtain ⟨h1, h2⟩ := hwk
            subst h2
            exact ⟨hw, hvc, hcc, h1 ▸ hv⟩
          | some o =>
            cases o with
            | arr elems =>
              simp only [halook, bind, Option.bind] at hwk
              cases he2 : transformElemsF fuel { st with
                  heap := st.heap ++ [(st.fresh, Obj.arr [])], fresh := st.fresh + 1,
                  handled := assocSet st.handled (Val.ref a) (.ref st.fresh) } elems with
              | none => rw [he2] at hwk; cases hwk
              | some p2 =>
                rw [he2] at hwk
                obtain ⟨elems', s2⟩ := p2
                simp only [Option.some.injEq, Prod.mk.injEq] at hwk
                obtain ⟨h1, h2⟩ := hwk
                have hca := closed_append (Obj.arr []) hw hvc (by intro c hc; cases hc)
                have hcc1 : cacheClosed { st with
                    heap := st.heap ++ [(st.fresh, Obj.arr [])], fresh := st.fresh + 1,
                    handled := assocSet st.handled (Val.ref a) (.ref st.fresh) } :=
                  cacheClosed_alloc hcc (by simp [valClosed]) _ rfl rfl
                have helems : ∀ x ∈ elems, valClosed (st.fresh + 1) x := by
                  intro x hx
                  exact valClosed_mono (Nat.le_succ _)
                    (hvc (a, .arr elems) (alook_mem halook) x
                      (by simpa [objChildVals] using hx))
                have g2 := transformElemsF_closed_of fuel
                  (fun st v r st' h hw hvc hcc hv => ih st v r st' h hw hvc hcc hv)
                  elems _ elems' s2 he2 hca.1 hca.2 hcc1 helems
                have hstep2 := transformElemsF_mono fuel elems _ elems' s2 he2
                have hfa : st.fresh < s2.fresh := lt_of_lt_of_le (Nat.lt_succ_self _)
                  hstep2.2.1
                have hrr : valClosed s2.fresh r := by
                  rw [← h1]
                  simpa [valClosed] using hfa
                rw [← h2]
                refine ⟨heapWF_hset g2.1 hfa _, ?_, g2.2.2.1, hrr⟩
                refine heapValsClosed_hset g2.2.1 ?_
                intro c hc
                exact g2.2.2.2 c (by simpa [objChildVals] using hc)
            | obj props =>
              simp only [halook, bind, Option.bind] at hwk
              cases he2 : transformPropsF fuel { st with
                  heap := st.heap ++ [(st.fresh, Obj.obj [])], fresh := st.fresh + 1,
                  handled := assocSet st.handled (Val.ref a) (.ref st.fresh) }
                  st.fresh props with
              | none => rw [he2] at hwk; cases hwk
              | some s2 =>
                rw [he2] at hwk
                simp only [Option.some.injEq, Prod.mk.injEq] at hwk
                obtain ⟨h1, h2⟩ := hwk
                have hca := closed_append (Obj.obj []) hw hvc (by intro c hc; cases hc)
                have hcc1 : cacheClosed { st with
                    heap := st.heap ++ [(st.fresh, Obj.obj [])], fresh := st.fresh + 1,
                    handled := assocSet st.handled (Val.ref a) (.ref st.fresh) } :=
                  cacheClosed_alloc hcc (by simp [valClosed]) _ rfl rfl
                have hprops : ∀ kd ∈ props, ∀ dv en w cf, kd.2 = PropD.data dv en w cf →
                    valClosed (st.fresh + 1) dv := by
                  intro kd hkd dv en w cf hd
                  obtain ⟨k0, d0⟩ := kd
                  simp only at hd
                  subst hd
                  exact valClosed_mono (Nat.le_succ _)
                    (hvc (a, .obj props) (alook_mem halook) dv (objChildVals_obj_mem hkd))
                have g2 := transformPropsF_closed_of fuel
                  (fun st v r st' h hw hvc hcc hv => ih st v r st' h hw hvc hcc hv)
                  props _ st.fresh s2 he2 (Nat.lt_succ_self _) hca.1 hca.2 hcc1 hprops
                have hstep2 := transformPropsF_mono fuel props _ st.fresh s2
                  (Nat.lt_succ_self _) he2
                have hfa : st.fresh < s2.fresh := lt_of_lt_of_le (Nat.lt_succ_self _)
                  hstep2.2.1
                have hrr : valClosed s2.fresh r := by
                  rw [← h1]
                  simpa [valClosed] using hfa
                rw [← h2]
                exact ⟨g2.1, g2.2.1, g2.2.2, hrr⟩
            | func =>
              simp only [halook, Option.some.injEq, Prod.mk.injEq] at hwk
              obtain ⟨h1, h2⟩ := hwk
              subst h2
              exact ⟨hw, hvc, hcc, h1 ▸ hv⟩
            | promise r0 =>
              simp only [halook, Option.some.injEq, Prod.mk.injEq] at hwk
              obtain ⟨h1, h2⟩ := hwk
              subst h2
              exact ⟨hw, hvc, hcc, h1 ▸ hv⟩
            | arrbuf =>
              simp only [halook, Option.some.injEq, Prod.mk.injEq] at hwk
              obtain ⟨h1, h2⟩ := hwk
              subst h2
              exact ⟨hw, hvc, hcc, h1 ▸ hv⟩
            | typedarr b =>
              simp only [halook, Option.some.injEq, Prod.mk.injEq] at hwk
              obtain ⟨h1, h2⟩ := hwk
              subst h2
              exact ⟨hw, hvc, hcc, h1 ▸ hv⟩

theorem deserializeTopF_closed (fuel : Nat) :
    ∀ (l : List Val) (st : DState) (l' : List Val) (st' : DState),
      deserializeTopF fuel st l = some (l', st') →
      heapWF st.heap st.fresh → heapValsClosed st.heap st.fresh → cacheClosed st →
      (∀ x ∈ l, valClosed st.fresh x) →
      heapWF st'.heap st'.fresh ∧ heapValsClosed st'.heap st'.fresh ∧
        ∀ x ∈ l', valClosed st'.fresh x := by
  intro l
  induction l with
  | nil =>
    intro st l' st' h hw hvc hcc hl
    simp only [deserializeTopF, Option.some.injEq, Prod.mk.injEq] at h
    obtain ⟨h1, h2⟩ := h
    subst h2
    exact ⟨hw, hvc, by rw [← h1]; intro x hx; cases hx⟩
  | cons v rest ih =>
    intro st l' st' h hw hvc hcc hl
    simp only [deserializeTopF, optBind_eq_some] at h
    obtain ⟨⟨v1, s1⟩, h1, ⟨rest', s2⟩, h2, h⟩ := h
    simp only [Option.some.injEq, Prod.mk.injEq] at h
    obtain ⟨hL, hS⟩ := h
    subst hS
    have g1 := transformF_closed fuel st v v1 s1 h1 hw hvc hcc (hl v (List.mem_cons_self _ _))
    have hstep1 := (transformF_mono fuel st v v1 s1 h1).1
    have g2 := ih s1 rest' s2 h2 g1.1 g1.2.1 g1.2.2.1
      (fun x hx => valClosed_mono hstep1.2.1 (hl x (List.mem_cons_of_mem _ hx)))
    have hstep2 := deserializeTopF_mono fuel rest s1 rest' s2 h2
    refine ⟨g2.1, g2.2.1, ?_⟩
    rw [← hL]
    intro x hx
    rcases List.mem_cons.mp hx with hxe | hxr
    · subst hxe
      exact valClosed_mono hstep2.2.1 g1.2.2.2
    · exact g2.2.2 x hxr

/-- Shape of the state after running `deserializeRequestData`: heap
well-formedness, closedness of all stored values and closedness of the
results are preserved. -/
theorem deserializeRequestDataF_closed (fuel : Nat) (h : Heap) (fresh : Nat)
    (data out : List Val) (dst : DState)
    (hd : deserializeRequestDataF fuel h fresh data = some (out, dst))
    (hw : heapWF h fresh) (hvc : heapValsClosed h fresh)
    (hdata : ∀ x ∈ data, valClosed fresh x) :
    heapWF dst.heap dst.fresh ∧ heapValsClosed dst.heap dst.fresh ∧
      ∀ x ∈ out, valClosed dst.fresh x :=
  deserializeTopF_closed fuel data (DState.init h fresh) out dst hd hw hvc
    (fun k r hk => by simp [DState.init, alook] at hk) hdata

/-! ## Round-trip termination and endpoint Return discipline -/

set_option maxHeartbeats 1000000 in
set_option synthInstance.maxHeartbeats 200000 in
/-- C1 (amended): serializing and then deserializing `[v]` for a
self-referential object `v` (indeed for any argument list over a well-formed,
reference-closed, data-property-only heap) terminates; but the reconstructed
value does not satisfy `result.self === result` — the serializer's shallow
property copy points back at the original object, so reconstruction shifts
the cycle one level: `result.self` is a *new* self-referential object with
`result.self.self === result.self`. -/
theorem round_trip_self_ref_amended :
    (∀ (cid : Str) (h : Heap) (fresh uidc : Nat) (data : List Val),
       heapWF h fresh → heapValsClosed h fresh → heapDataOnly h →
       (∀ x ∈ data, valClosed fresh x) →
       ∃ out s,
         serializeRequestDataF cid (bigFuel h data) h fresh uidc data = some (out, s) ∧
         (deserializeRequestDataF (bigFuel s.heap out) s.heap s.fresh out).isSome) ∧
    ((serializeRequestDataF ctxId 10 selfRefHeap 1 0 [.ref 0]).map
        (fun p => (p.1, p.2.heap, p.2.fresh)) = some ([.ref 1], selfSerHeap, 2)) ∧
    ((deserializeRequestDataF 10 selfSerHeap 2 [.ref 1]).map
        (fun p => (propValueOf p.2.heap p.1.headI selfKey,
          propValueOf p.2.heap (propValueOf p.2.heap p.1.headI selfKey) selfKey)) =
      some (.ref 3, .ref 3)) := by
  refine ⟨?_, ?_, ?_⟩
  · intro cid h fresh uidc data hw hvc hdo hdata
    have ht := serializeRequestDataF_total cid h fresh uidc data hw
      (heapClosedVals_of hw hvc hdata)
    cases hser : serializeRequestDataF cid (bigFuel h data) h fresh uidc data with
    | none => rw [hser] at ht; cases ht
    | some p =>
      obtain ⟨out, s⟩ := p
      refine ⟨out, s, rfl, ?_⟩
      have hg := serializeRequestDataF_good cid h fresh uidc data out s hser hw hvc hdo
        hdata
      exact deserializeRequestDataF_total s.heap s.fresh out hg.1
        (heapClosedVals_of hg.1 hg.2.1 hg.2.2.2) hg.2.2.1
  · simp [serializeRequestDataF, processValsF, processValueF, processPropsF, SState.init,
      createFunctionCallbackS, collectTransferables, mkToken, uidStr, ctxId, selfRefHeap,
      selfSerHeap, alook, addIfAbsent, isFunc, flagKey, contextIdKey, idKey, selfKey]
  · simp [deserializeRequestDataF, deserializeTopF, transformF, transformWorkF,
      transformElemsF, transformPropsF, DState.init, assocSet, hset, pushProp,
      tokenFlagOf, isCallbackV, isGetterV, propValueOf, alook, selfSerHeap, selfKey,
      flagKey, CALLBACK_FLAG, GETTER_FLAG]

/-- Witness for `round_trip_self_ref_amended`: the termination clause at the
canonical self-referential heap. -/
theorem round_trip_self_ref_amended_witness :
    ∃ out s,
      serializeRequestDataF ctxId (bigFuel selfRefHeap [.ref 0]) selfRefHeap 1 0 [.ref 0] =
        some (out, s) ∧
      (deserializeRequestDataF (bigFuel s.heap out) s.heap s.fresh out).isSome :=
  round_trip_self_ref_amended.1 ctxId selfRefHeap 1 0 [.ref 0]
    (by intro p hp; simp [selfRefHeap] at hp; simp [hp])
    (by intro p hp c hc; simp [selfRefHeap] at hp; subst hp;
        simp [objChildVals] at hc; simp [hc, valClosed])
    (by intro p hp kd hkd; simp [selfRefHeap] at hp; subst hp;
        simp [objProps] at hkd; simp [hkd, PropD.isData])
    (by intro x hx; simp at hx; simp [hx, valClosed])

theorem isFunc_congr {h h' : Heap} {fresh : Nat}
    (hag : ∀ k, k < fresh → alook h' k = alook h k) {v : Val} (hv : valClosed fresh v) :
    isFunc h' v = isFunc h v := by
  cases v with
  | prim p => rfl
  | ref a =>
    simp only [isFunc]
    rw [hag a hv]

theorem isPromiseLikeV_congr {h h' : Heap} {fresh : Nat}
    (hag : ∀ k, k < fresh → alook h' k = alook h k) {v : Val} (hv : valClosed fresh v) :
    isPromiseLikeV h' v = isPromiseLikeV h v := by
  cases v with
  | prim p => rfl
  | ref a =>
    simp only [isPromiseLikeV]
    rw [hag a hv]

theorem classifyThen_congr {h h' : Heap} {fresh : Nat}
    (hag : ∀ k, k < fresh → alook h' k = alook h k)
    (hvc : heapValsClosed h fresh) {v : Val} (hv : valClosed fresh v) :
    classifyThen h' v = classifyThen h v := by
  cases v with
  | prim p => rfl
  | ref a =>
    simp only [classifyThen]
    rw [hag a hv]
    cases halook : alook h a with
    | none => rfl
    | some o =>
      cases o with
      | obj props =>
        cases hthen : alook props thenKey with
        | none => simp only [hthen]
        | some d =>
          cases d with
          | accessor g en cf => simp only [hthen]
          | data w en wr cf =>
            have hwv : valClosed fresh w := hvc (a, .obj props) (alook_mem halook) w
              (objChildVals_obj_mem (alook_mem hthen))
            simp only [hthen, isFunc_congr hag hwv]
      | arr es => rfl
      | func => rfl
      | promise r => rfl
      | arrbuf => rfl
      | typedarr b => rfl

theorem handleSuccess_sends (st1 : PortSt) (id : Str) (v : Val) (now : Int)
    (hw1 : heapWF st1.heap st1.fresh) (hvc1 : heapValsClosed st1.heap st1.fresh)
    (hv : valClosed st1.fresh v) :
    ∃ st2 effs, handleSuccess st1 id v now = some (st2, effs) ∧
      ∃ res, returnSends effs = [.ret id (some res) none now] := by
  have ht := serializeRequestDataF_total st1.portId st1.heap st1.fresh st1.uidc [v] hw1
    (heapClosedVals_of hw1 hvc1 (by intro x hx; simp at hx; rw [hx]; exact hv))
  cases hser : serializeRequestDataF st1.portId (bigFuel st1.heap [v]) st1.heap st1.fresh
      st1.uidc [v] with
  | none => rw [hser] at ht; cases ht
  | some p =>
    obtain ⟨data, s⟩ := p
    have hhs : handleSuccess st1 id v now =
        some ({ st1 with heap := s.heap, fresh := s.fresh, uidc := s.uidc,
                         callbacks := s.functions.foldl
                           (fun cb kv => assocSet cb kv.1 kv.2) st1.callbacks },
              [.send (.ret id (some data.headI) none now) s.transferables]) := by
      simp only [handleSuccess, hser]
    exact ⟨_, _, hhs, data.headI, by simp [returnSends]⟩

theorem invokeLocalMethod_one_return (beh : Nat → MethodBeh) (st1 : PortSt) (id : Str)
    (fa : Nat) (args : List Val) (now : Int)
    (hw1 : heapWF st1.heap st1.fresh) (hvc1 : heapValsClosed st1.heap st1.fresh)
    (hbeh : ∀ v, beh fa = .retv v → valClosed st1.fresh v ∧
      classifyThen st1.heap v ≠ .user ∧
      ∀ w, classifyThen st1.heap v = .settles (.ok w) → valClosed st1.fresh w) :
    ∃ st2 effs, invokeLocalMethod beh st1 id fa args now = some (st2, effs) ∧
      ∃ res err, returnSends effs = [.ret id res err now] := by
  cases hb : beh fa with
  | raise msg =>
    refine ⟨st1, [.send (.ret id none (some ⟨-32603, msg, none⟩) now) []],
      by simp [invokeLocalMethod, hb, handleError], none, some ⟨-32603, msg, none⟩,
      by simp [returnSends]⟩
  | retv v =>
    obtain ⟨hvcl, hnuser, hok⟩ := hbeh v hb
    by_cases hpl : isPromiseLikeV st1.heap v
    · cases hct : classifyThen st1.heap v with
      | user => exact absurd hct hnuser
      | notCallable =>
        refine ⟨st1, [.send (.ret id none (some ⟨-32603, thenTypeErrMsg, none⟩) now) []],
          by simp [invokeLocalMethod, hb, hpl, hct, handleError], none,
          some ⟨-32603, thenTypeErrMsg, none⟩, by simp [returnSends]⟩
      | settles r =>
        cases r with
        | ok w =>
          obtain ⟨st2, effs, hhs, res, hrs⟩ :=
            handleSuccess_sends st1 id w now hw1 hvc1 (hok w hct)
          refine ⟨st2, effs, ?_, some res, none, hrs⟩
          simp [invokeLocalMethod, hb, hpl, hct, hhs]
        | err m =>
          refine ⟨st1, [.send (.ret id none (some ⟨-32603, m, none⟩) now) []],
            by simp [invokeLocalMethod, hb, hpl, hct, handleError], none,
            some ⟨-32603, m, none⟩, by simp [returnSends]⟩
    · obtain ⟨st2, effs, hhs, res, hrs⟩ := handleSuccess_sends st1 id v now hw1 hvc1 hvcl
      refine ⟨st2, effs, ?_, some res, none, hrs⟩
      simp [invokeLocalMethod, hb, hpl, hhs]

/-- C2 (amended): for a Call message whose method name *does* resolve — to a
function-valued own property of the local instance or to a registered
callback — and whose behaviour stays in the modelled fragment (no
user-defined callable `then`), `receive` succeeds and exactly one Return
message carrying the same correlation id is sent, whether the method returns
a plain value, returns a promise that fulfils or rejects, returns an object
with a non-callable `then`, or throws.  When the name resolves to neither
(Method-Not-Found), *no* Return is sent at all: `handleMethodCall` throws
out of `receive` — see the counterexample. -/
theorem call_exactly_one_return (beh : Nat → MethodBeh) (st : PortSt) (id method : Str)
    (params : List Val) (now : Int) (fa : Nat)
    (hw : heapWF st.heap st.fresh) (hvc : heapValsClosed st.heap st.fresh)
    (hdo : heapDataOnly st.heap)
    (hparams : ∀ x ∈ params, valClosed st.fresh x)
    (hres : alook st.localInstance method = some (.ref fa) ∨
      (alook st.localInstance method = none ∧ alook st.callbacks method = some (.ref fa)))
    (hfa : alook st.heap fa = some .func)
    (hbeh : ∀ v, beh fa = .retv v → valClosed st.fresh v ∧
      classifyThen st.heap v ≠ .user ∧
      ∀ w, classifyThen st.heap v = .settles (.ok w) → valClosed st.fresh w) :
    ∃ st' effs, portReceive beh st (.call id method params now) now =
        some (.ok (st', effs)) ∧
      ∃ res err, returnSends effs = [.ret id res err now] := by
  have hdt := deserializeRequestDataF_total st.heap st.fresh params hw
    (heapClosedVals_of hw hvc hparams) hdo
  cases hdes : deserializeRequestDataF (bigFuel st.heap params) st.heap st.fresh
      params with
  | none => rw [hdes] at hdt; cases hdt
  | some p =>
    obtain ⟨args, dst⟩ := p
    have hdes' : deserializeTopF (bigFuel st.heap params) (DState.init st.heap st.fresh)
        params = some (args, dst) := hdes
    have hdstep := deserializeTopF_mono (bigFuel st.heap params) params
      (DState.init st.heap st.fresh) args dst hdes'
    have hdc := deserializeRequestDataF_closed (bigFuel st.heap params) st.heap st.fresh
      params args dst hdes hw hvc hparams
    have hfalt : fa < st.fresh := heapWF_alook hw hfa
    have hag : ∀ k, k < st.fresh → alook dst.heap k = alook st.heap k := hdstep.1
    have hfle : st.fresh ≤ dst.fresh := hdstep.2.1
    have hfunc : isFunc dst.heap (.ref fa) = true := by
      simp only [isFunc, hag fa hfalt, hfa]
    have hbeh1 : ∀ v, beh fa = .retv v → valClosed dst.fresh v ∧
        classifyThen dst.heap v ≠ .user ∧
        ∀ w, classifyThen dst.heap v = .settles (.ok w) → valClosed dst.fresh w := by
      intro v hv
      obtain ⟨h1, h2, h3⟩ := hbeh v hv
      have hcg := classifyThen_congr hag hvc h1
      exact ⟨valClosed_mono hfle h1, by rw [hcg]; exact h2,
        fun w hw' => valClosed_mono hfle (h3 w (by rw [← hcg]; exact hw'))⟩
    obtain ⟨st2, effs, hinv, res, err, hrs⟩ := invokeLocalMethod_one_return beh
      { st with heap := dst.heap, fresh := dst.fresh } id fa args now hdc.1 hdc.2.1 hbeh1
    refine ⟨st2, effs, ?_, res, err, hrs⟩
    simp only [portReceive, handleMethodCall, hdes]
    rcases hres with hloc | ⟨hloc, hcb⟩
    · simp only [hloc, hfunc, if_true, hinv]
      rfl
    · simp only [hloc, hcb, hfunc, if_true, hinv]
      rfl

/-- Witness for `call_exactly_one_return`: the resolvable method `"m"` of
`port2` returning `undefined`. -/
theorem call_exactly_one_return_witness :
    ∃ st' effs, portReceive beh0 port2 (.call "c/p/a".toList "m".toList [] 0) 0 =
        some (.ok (st', effs)) ∧
      ∃ res err, returnSends effs = [.ret "c/p/a".toList res err 0] :=
  call_exactly_one_return beh0 port2 "c/p/a".toList "m".toList [] 0 0
    (by intro p hp; simp [port2] at hp; subst hp; simp [port2])
    (by intro p hp c hc; simp [port2] at hp; subst hp; simp [objChildVals] at hc)
    (by intro p hp kd hkd; simp [port2] at hp; subst hp; simp [objProps] at hkd)
    (by intro x hx; cases hx)
    (Or.inl (by rfl)) (by rfl)
    (by
      intro v hv
      simp only [beh0, MethodBeh.retv.injEq] at hv
      rw [← hv]
      refine ⟨trivial, by simp [classifyThen], ?_⟩
      intro w hw
      simp [classifyThen] at hw)

/-- C3 (amended): the router's routing misses are all non-fatal — a malformed
datum, a message whose composite id does not parse, a foreign participant id
and an unknown endpoint name are each silently dropped with the router state
unchanged; but a Call that *routes* to a known endpoint and then resolves no
method is not handled locally: the `Method not found` error propagates out of
`receive` (see the counterexample). -/
theorem receive_routing_misses (beh : Nat → MethodBeh) (rt : RouterSt) (now : Int) :
    (routerReceive beh rt none now = some (.ok (rt, []))) ∧
    (∀ m e, parseInvocationId m.msgId = .error e →
       routerReceive beh rt (some m) now = some (.ok (rt, []))) ∧
    (∀ m pid, parseInvocationId m.msgId = .ok pid → pid.clientId ≠ rt.clientId →
       routerReceive beh rt (some m) now = some (.ok (rt, []))) ∧
    (∀ m pid, parseInvocationId m.msgId = .ok pid → pid.clientId = rt.clientId →
       alook rt.ports pid.portId = none →
       routerReceive beh rt (some m) now = some (.ok (rt, []))) ∧
    (∀ id method params pid p, parseInvocationId id = .ok pid →
       pid.clientId = rt.clientId → alook rt.ports pid.portId = some p →
       heapWF p.heap p.fresh → heapValsClosed p.heap p.fresh → heapDataOnly p.heap →
       (∀ x ∈ params, valClosed p.fresh x) →
       alook p.localInstance method = none → alook p.callbacks method = none →
       routerReceive beh rt (some (.call id method params now)) now =
         some (.error (methodNotFoundErr method))) := by
  refine ⟨rfl, ?_, ?_, ?_, ?_⟩
  · intro m e hpe
    simp only [routerReceive, hpe]
  · intro m pid hpid hne
    simp only [routerReceive, hpid]
    rw [if_pos hne]
  · intro m pid hpid hcl hport
    simp only [routerReceive, hpid]
    rw [if_neg (not_ne_iff.mpr hcl), hport]
  · intro id method params pid p hpid hcl hport hw hvc hdo hparams hloc hcb
    have hdt := deserializeRequestDataF_total p.heap p.fresh params hw
      (heapClosedVals_of hw hvc hparams) hdo
    cases hdes : deserializeRequestDataF (bigFuel p.heap params) p.heap p.fresh
        params with
    | none => rw [hdes] at hdt; cases hdt
    | some q =>
      obtain ⟨args, dst⟩ := q
      simp only [routerReceive, RPCMsg.msgId, hpid]
      rw [if_neg (not_ne_iff.mpr hcl), hport]
      simp only [portReceive, handleMethodCall, hdes, hloc, hcb]
      rfl

/-- Witness for `receive_routing_misses` on `router0`: each routing-miss
clause at a concrete input, plus the known-endpoint unknown-method error. -/
theorem receive_routing_misses_witness :
    routerReceive beh0 router0 none 0 = some (.ok (router0, [])) ∧
    routerReceive beh0 router0 (some (.ret "bad".toList none none 0)) 0 =
      some (.ok (router0, [])) ∧
    routerReceive beh0 router0 (some (.ret "d/p/a".toList none none 0)) 0 =
      some (.ok (router0, [])) ∧
    routerReceive beh0 router0 (some (.ret "c/q/a".toList none none 0)) 0 =
      some (.ok (router0, [])) ∧
    routerReceive beh0 router0 (some (.call "c/p/a".toList "x".toList [] 0)) 0 =
      some (.error (methodNotFoundErr "x".toList)) :=
  ⟨(receive_routing_misses beh0 router0 0).1,
   (receive_routing_misses beh0 router0 0).2.1 (.ret "bad".toList none none 0)
     (invocationIdErr "bad".toList) (by rfl),
   (receive_routing_misses beh0 router0 0).2.2.1 (.ret "d/p/a".toList none none 0)
     ⟨"d".toList, "p".toList, "a".toList⟩ (by rfl) (by decide),
   (receive_routing_misses beh0 router0 0).2.2.2.1 (.ret "c/q/a".toList none none 0)
     ⟨"c".toList, "q".toList, "a".toList⟩ (by rfl) (by rfl) (by decide),
   (receive_routing_misses beh0 router0 0).2.2.2.2 "c/p/a".toList "x".toList []
     ⟨"c".toList, "p".toList, "a".toList⟩ port0 (by rfl) (by rfl) (by decide)
     (by intro p hp; cases hp) (by intro p hp c hc; cases hp) (by intro p hp kd hkd; cases hp)
     (by intro x hx; cases hx) (by rfl) (by rfl)⟩

/-! ## JSON-tree reading: stability lemmas -/

theorem alook_append_high {h1 h2 : Heap} {a n1 : Nat} (hh2 : ∀ p ∈ h2, n1 ≤ p.1)
    (ha : a < n1) : alook (h1 ++ h2) a = alook h1 a := by
  cases hl : alook h1 a with
  | some o => exact alook_append_some _ hl
  | none =>
    rw [alook_append_none _ hl]
    cases hl2 : alook h2 a with
    | none => rfl
    | some o =>
      have := hh2 (a, o) (alook_mem hl2)
      omega

theorem reads_mono_all : ∀ (n : Nat),
    (∀ (t : JTree) (h h' : Heap) (v : Val) (l : List Nat), tsize t ≤ n →
      (∀ a ∈ l, alook h' a = alook h a) → ReadsT h v t l → ReadsT h' v t l) ∧
    (∀ (ts : List JTree) (h h' : Heap) (vs : List Val) (ls : List Nat), tsizeL ts ≤ n →
      (∀ a ∈ ls, alook h' a = alook h a) → ReadsL h vs ts ls → ReadsL h' vs ts ls) ∧
    (∀ (ps : List (Str × JTree)) (h h' : Heap) (pl : List (Str × PropD))
      (ls : List Nat), tsizeP ps ≤ n →
      (∀ a ∈ ls, alook h' a = alook h a) → ReadsP h pl ps ls → ReadsP h' pl ps ls) := by
  intro n
  induction n using Nat.strong_induction_on with
  | _ n ih =>
    have hT : ∀ (t : JTree) (h h' : Heap) (v : Val) (l : List Nat), tsize t ≤ n →
        (∀ a ∈ l, alook h' a = alook h a) → ReadsT h v t l → ReadsT h' v t l := by
      intro t h h' v l hsz hag hr
      cases hr with
      | prim p => exact .prim h' p
      | arr a vs ts ls hlook hL =>
        refine .arr h' a vs ts ls ?_ ?_
        · rw [hag a (List.mem_cons_self _ _)]
          exact hlook
        · have hlt : tsizeL ts < n := by
            simp only [tsize] at hsz
            omega
          exact (ih (tsizeL ts) hlt).2.1 ts h h' vs ls (le_refl _)
            (fun a ha => hag a (List.mem_cons_of_mem _ ha)) hL
      | obj a props pts ls hlook hP =>
        refine .obj h' a props pts ls ?_ ?_
        · rw [hag a (List.mem_cons_self _ _)]
          exact hlook
        · have hlt : tsizeP pts < n := by
            simp only [tsize] at hsz
            omega
          exact (ih (tsizeP pts) hlt).2.2 pts h h' props ls (le_refl _)
            (fun a ha => hag a (List.mem_cons_of_mem _ ha)) hP
    refine ⟨hT, ?_, ?_⟩
    · intro ts
      induction ts with
      | nil =>
        intro h h' vs ls hsz hag hL
        cases hL
        exact .nil h'
      | cons t ts' ihts =>
        intro h h' vs ls hsz hag hL
        cases hL with
        | cons v t0 l vs' ts0 ls' hr hL' =>
          refine .cons h' v t l vs' ts' ls' ?_ ?_
          · exact hT t h h' v l (by simp only [tsizeL] at hsz; omega)
              (fun a ha => hag a (List.mem_append.mpr (Or.inl ha))) hr
          · exact ihts h h' vs' ls' (by simp only [tsizeL] at hsz; omega)
              (fun a ha => hag a (List.mem_append.mpr (Or.inr ha))) hL'
    · intro ps
      induction ps with
      | nil =>
        intro h h' pl ls hsz hag hP
        cases hP
        exact .nil h'
      | cons kt ps' ihps =>
        intro h h' pl ls hsz hag hP
        cases hP with
        | cons k v t0 l pl' ts0 ls' hr hP' =>
          refine .cons h' k v t0 l pl' ps' ls' ?_ ?_
          · exact hT t0 h h' v l (by simp only [tsizeP] at hsz; omega)
              (fun a ha => hag a (List.mem_append.mpr (Or.inl ha))) hr
          · exact ihps h h' pl' ls' (by simp only [tsizeP] at hsz; omega)
              (fun a ha => hag a (List.mem_append.mpr (Or.inr ha))) hP'

theorem ReadsT_mono {t : JTree} {h h' : Heap} {v : Val} {l : List Nat}
    (hag : ∀ a ∈ l, alook h' a = alook h a) (hr : ReadsT h v t l) : ReadsT h' v t l :=
  (reads_mono_all (tsize t)).1 t h h' v l (le_refl _) hag hr

theorem ReadsL_mono {ts : List JTree} {h h' : Heap} {vs : List Val} {ls : List Nat}
    (hag : ∀ a ∈ ls, alook h' a = alook h a) (hr : ReadsL h vs ts ls) :
    ReadsL h' vs ts ls :=
  (reads_mono_all (tsizeL ts)).2.1 ts h h' vs ls (le_refl _) hag hr

theorem ReadsP_mono {ps : List (Str × JTree)} {h h' : Heap} {pl : List (Str × PropD)}
    {ls : List Nat} (hag : ∀ a ∈ ls, alook h' a = alook h a) (hr : ReadsP h pl ps ls) :
    ReadsP h' pl ps ls :=
  (reads_mono_all (tsizeP ps)).2.2 ps h h' pl ls (le_refl _) hag hr

theorem reads_not_func {h : Heap} {v : Val} {t : JTree} {l : List Nat}
    (hr : ReadsT h v t l) : isFunc h v = false := by
  cases hr with
  | prim p => rfl
  | arr a vs ts ls hlook hL => simp [isFunc, hlook]
  | obj a props pts ls hlook hP => simp [isFunc, hlook]

theorem readsP_alook {h : Heap} :
    ∀ {props : List (Str × PropD)} {pts : List (Str × JTree)} {ls : List Nat},
      ReadsP h props pts ls → ∀ k : Str,
      (alook props k = none ∧ alook pts k = none) ∨
      (∃ w tw l', alook props k = some (.data w true true true) ∧
        alook pts k = some tw ∧ ReadsT h w tw l') := by
  intro props
  induction props with
  | nil =>
    intro pts ls hP k
    cases hP
    exact Or.inl ⟨rfl, rfl⟩
  | cons kd rest ih =>
    intro pts ls hP k
    cases hP with
    | cons k0 v t0 l pl' ts0 ls' hr hP' =>
      by_cases hk : k0 = k
      · exact Or.inr ⟨v, t0, l, by simp [alook, hk], by simp [alook, hk], hr⟩
      · rcases ih hP' k with ⟨h1, h2⟩ | ⟨w, tw, l', h1, h2, h3⟩
        · exact Or.inl ⟨by simp [alook, hk, h1], by simp [alook, hk, h2]⟩
        · exact Or.inr ⟨w, tw, l', by simp [alook, hk, h1], by simp [alook, hk, h2], h3⟩

theorem reads_tokenFree_not_token {h : Heap} {v : Val} {t : JTree} {l : List Nat}
    (hr : ReadsT h v t l) (htf : tokenFree t = true) :
    tokenFlagOf h v = none ∨
      ∃ s, tokenFlagOf h v = some s ∧ s ≠ CALLBACK_FLAG ∧ s ≠ GETTER_FLAG := by
  cases hr with
  | prim p => exact Or.inl rfl
  | arr a vs ts ls hlook hL => exact Or.inl (by simp [tokenFlagOf, hlook])
  | obj a props pts ls hlook hP =>
    rcases readsP_alook hP flagKey with ⟨h1, h2⟩ | ⟨w, tw, l', h1, h2, h3⟩
    · exact Or.inl (by simp [tokenFlagOf, hlook, h1])
    · cases w with
      | ref b => exact Or.inl (by simp [tokenFlagOf, hlook, h1])
      | prim q =>
        cases q with
        | str s =>
          have htw : tw = .prim (.str s) := by
            cases h3
            rfl
          subst htw
          rw [tokenFree] at htf
          rw [h2] at htf
          simp only [Bool.and_eq_true, decide_eq_true_eq] at htf
          exact Or.inr ⟨s, by simp [tokenFlagOf, hlook, h1], htf.1.1, htf.1.2⟩
        | num m => exact Or.inl (by simp [tokenFlagOf, hlook, h1])
        | bool b => exact Or.inl (by simp [tokenFlagOf, hlook, h1])
        | null => exact Or.inl (by simp [tokenFlagOf, hlook, h1])
        | undefinedV => exact Or.inl (by simp [tokenFlagOf, hlook, h1])

theorem reads_not_callback {h : Heap} {v : Val} {t : JTree} {l : List Nat}
    (hr : ReadsT h v t l) (htf : tokenFree t = true) :
    isCallbackV h v = false ∧ isGetterV h v = false := by
  rcases reads_tokenFree_not_token hr htf with h1 | ⟨s, h1, h2, h3⟩
  · simp [isCallbackV, isGetterV, h1]
  · simp [isCallbackV, isGetterV, h1, h2, h3]

/-! ## Correctness of the tree builder -/

theorem alook_none_of_high {h : Heap} {a n1 : Nat} (hh : ∀ p ∈ h, p.1 < n1)
    (ha : n1 ≤ a) : alook h a = none := by
  cases hl : alook h a with
  | none => rfl
  | some o =>
    have := hh (a, o) (alook_mem hl)
    omega

theorem build_reads_all : ∀ (n : Nat),
    (∀ (t : JTree) (m : Nat), tsize t ≤ n →
      ∀ v hs m', buildT t m = (v, hs, m') →
      m ≤ m' ∧ (∀ p ∈ hs, m ≤ p.1 ∧ p.1 < m') ∧
      (∀ p ∈ hs, ∀ c ∈ objChildVals p.2, valClosed m' c) ∧
      (∀ p ∈ hs, ∀ kd ∈ objProps p.2, kd.2.isData = true) ∧
      valClosed m' v ∧
      ∃ l, ReadsT hs v t l ∧ l.Nodup ∧ ∀ a ∈ l, m ≤ a ∧ a < m') ∧
    (∀ (ts : List JTree) (m : Nat), tsizeL ts ≤ n →
      ∀ vs hs m', buildL ts m = (vs, hs, m') →
      m ≤ m' ∧ (∀ p ∈ hs, m ≤ p.1 ∧ p.1 < m') ∧
      (∀ p ∈ hs, ∀ c ∈ objChildVals p.2, valClosed m' c) ∧
      (∀ p ∈ hs, ∀ kd ∈ objProps p.2, kd.2.isData = true) ∧
      (∀ v ∈ vs, valClosed m' v) ∧
      ∃ ls, ReadsL hs vs ts ls ∧ ls.Nodup ∧ ∀ a ∈ ls, m ≤ a ∧ a < m') ∧
    (∀ (ps : List (Str × JTree)) (m : Nat), tsizeP ps ≤ n →
      ∀ pl hs m', buildP ps m = (pl, hs, m') →
      m ≤ m' ∧ (∀ p ∈ hs, m ≤ p.1 ∧ p.1 < m') ∧
      (∀ p ∈ hs, ∀ c ∈ objChildVals p.2, valClosed m' c) ∧
      (∀ p ∈ hs, ∀ kd ∈ objProps p.2, kd.2.isData = true) ∧
      (∀ kd ∈ pl, ∃ dv, kd.2 = PropD.data dv true true true ∧ valClosed m' dv) ∧
      ∃ ls, ReadsP hs pl ps ls ∧ ls.Nodup ∧ ∀ a ∈ ls, m ≤ a ∧ a < m') := by
  intro n
  induction n using Nat.strong_induction_on with
  | _ n ih =>
    have hT : ∀ (t : JTree) (m : Nat), tsize t ≤ n →
        ∀ v hs m', buildT t m = (v, hs, m') →
        m ≤ m' ∧ (∀ p ∈ hs, m ≤ p.1 ∧ p.1 < m') ∧
        (∀ p ∈ hs, ∀ c ∈ objChildVals p.2, valClosed m' c) ∧
        (∀ p ∈ hs, ∀ kd ∈ objProps p.2, kd.2.isData = true) ∧
        valClosed m' v ∧
        ∃ l, ReadsT hs v t l ∧ l.Nodup ∧ ∀ a ∈ l, m ≤ a ∧ a < m' := by
      intro t m hsz v hs m' hb
      cases t with
      | prim p =>
        simp only [buildT, Prod.mk.injEq] at hb
        obtain ⟨h1, h2, h3⟩ := hb
        subst h1; subst h2; subst h3
        refine ⟨le_refl _, ?_, ?_, ?_, trivial, [], .prim _ p, List.nodup_nil, ?_⟩
        · intro q hq; cases hq
        · intro q hq; cases hq
        · intro q hq; cases hq
        · intro a ha; cases ha
      | arr ts =>
        rcases hbl : buildL ts m with ⟨vs, hs1, n1⟩
        rw [buildT, hbl] at hb
        simp only [Prod.mk.injEq] at hb
        obtain ⟨h1, h2, h3⟩ := hb
        subst h1; subst h2; subst h3
        have hlt : tsizeL ts < n := by
          simp only [tsize] at hsz
          omega
        obtain ⟨hm, hkeys, hvc, hdo, hvcs, ls, hL, hnd, hbnd⟩ :=
          (ih (tsizeL ts) hlt).2.1 ts m (le_refl _) vs hs1 n1 hbl
        refine ⟨by omega, ?_, ?_, ?_, by simp [valClosed], n1 :: ls, ?_, ?_, ?_⟩
        · intro p hp
          rcases List.mem_append.mp hp with hpo | hpn
          · have := hkeys p hpo
            omega
          · simp only [List.mem_singleton] at hpn
            subst hpn
            refine ⟨by omega, by omega⟩
        · intro p hp c hc
          rcases List.mem_append.mp hp with hpo | hpn
          · exact valClosed_mono (Nat.le_succ _) (hvc p hpo c hc)
          · simp only [List.mem_singleton] at hpn
            subst hpn
            exact valClosed_mono (Nat.le_succ _)
              (hvcs c (by simpa [objChildVals] using hc))
        · intro p hp kd hkd
          rcases List.mem_append.mp hp with hpo | hpn
          · exact hdo p hpo kd hkd
          · simp only [List.mem_singleton] at hpn
            subst hpn
            simp [objProps] at hkd
        · refine .arr _ n1 vs ts ls ?_ ?_
          · rw [alook_append_none _ (alook_none_of_high (fun p hp => (hkeys p hp).2)
              (le_refl _))]
            simp [alook]
          · refine ReadsL_mono ?_ hL
            intro a ha
            have hone : ∀ q ∈ [(n1, Obj.arr vs)], n1 ≤ q.1 := by
              intro q hq
              simp only [List.mem_singleton] at hq
              subst hq
              exact le_refl _
            exact alook_append_high hone (hbnd a ha).2
        · refine List.nodup_cons.mpr ⟨?_, hnd⟩
          intro hmem
          have := hbnd n1 hmem
          omega
        · intro a ha
          rcases List.mem_cons.mp ha with h1 | h1
          · omega
          · have := hbnd a h1
            omega
      | obj ps =>
        rcases hbp : buildP ps m with ⟨pl, hs1, n1⟩
        rw [buildT, hbp] at hb
        simp only [Prod.mk.injEq] at hb
        obtain ⟨h1, h2, h3⟩ := hb
        subst h1; subst h2; subst h3
        have hlt : tsizeP ps < n := by
          simp only [tsize] at hsz
          omega
        obtain ⟨hm, hkeys, hvc, hdo, hpls, ls, hP, hnd, hbnd⟩ :=
          (ih (tsizeP ps) hlt).2.2 ps m (le_refl _) pl hs1 n1 hbp
        refine ⟨by omega, ?_, ?_, ?_, by simp [valClosed], n1 :: ls, ?_, ?_, ?_⟩
        · intro p hp
          rcases List.mem_append.mp hp with hpo | hpn
          · have := hkeys p hpo
            omega
          · simp only [List.mem_singleton] at hpn
            subst hpn
            refine ⟨by omega, by omega⟩
        · intro p hp c hc
          rcases List.mem_append.mp hp with hpo | hpn
          · exact valClosed_mono (Nat.le_succ _) (hvc p hpo c hc)
          · simp only [List.mem_singleton] at hpn
            subst hpn
            obtain ⟨kd, hkd, en, w, cf, hx⟩ := objChildVals_obj_cases hc
            obtain ⟨dv, hdv, hdvc⟩ := hpls kd hkd
            rw [hx] at hdv
            cases hdv
            exact valClosed_mono (Nat.le_succ _) hdvc
        · intro p hp kd hkd
          rcases List.mem_append.mp hp with hpo | hpn
          · exact hdo p hpo kd hkd
          · simp only [List.mem_singleton] at hpn
            subst hpn
            obtain ⟨dv, hdv, hdvc⟩ := hpls kd (by simpa [objProps] using hkd)
            rw [hdv]
            rfl
        · refine .obj _ n1 pl ps ls ?_ ?_
          · rw [alook_append_none _ (alook_none_of_high (fun p hp => (hkeys p hp).2)
              (le_refl _))]
            simp [alook]
          · refine ReadsP_mono ?_ hP
            intro a ha
            have hone : ∀ q ∈ [(n1, Obj.obj pl)], n1 ≤ q.1 := by
              intro q hq
              simp only [List.mem_singleton] at hq
              subst hq
              exact le_refl _
            exact alook_append_high hone (hbnd a ha).2
        · refine List.nodup_cons.mpr ⟨?_, hnd⟩
          intro hmem
          have := hbnd n1 hmem
          omega
        · intro a ha
          rcases List.mem_cons.mp ha with h1 | h1
          · omega
          · have := hbnd a h1
            omega
    refine ⟨hT, ?_, ?_⟩
    · intro ts
      induction ts with
      | nil =>
        intro m hsz vs hs m' hb
        simp only [buildL, Prod.mk.injEq] at hb
        obtain ⟨h1, h2, h3⟩ := hb
        subst h1; subst h2; subst h3
        refine ⟨le_refl _, ?_, ?_, ?_, ?_, [], .nil _, List.nodup_nil, ?_⟩
        · intro q hq; cases hq
        · intro q hq; cases hq
        · intro q hq; cases hq
        · intro v hv; cases hv
        · intro a ha; cases ha
      | cons t ts' ihts =>
        intro m hsz vs hs m' hb
        rcases hbt : buildT t m with ⟨v1, h1, n1⟩
        rcases hbl : buildL ts' n1 with ⟨vs2, h2, n2⟩
        simp only [buildL, hbt, hbl] at hb
        simp only [Prod.mk.injEq] at hb
        obtain ⟨e1, e2, e3⟩ := hb
        subst e1; subst e2; subst e3
        obtain ⟨hm1, hkeys1, hvc1, hdo1, hclo1, l1, hr1, hnd1, hbnd1⟩ :=
          hT t m (by simp only [tsizeL] at hsz; omega) v1 h1 n1 hbt
        obtain ⟨hm2, hkeys2, hvc2, hdo2, hclo2, ls2, hr2, hnd2, hbnd2⟩ :=
          ihts n1 (by simp only [tsizeL] at hsz; omega) vs2 h2 n2 hbl
        have hagl : ∀ a ∈ l1, alook (h1 ++ h2) a = alook h1 a := by
          intro a ha
          exact alook_append_high (fun p hp => (hkeys2 p hp).1) (hbnd1 a ha).2
        have hagr : ∀ a ∈ ls2, alook (h1 ++ h2) a = alook h2 a := by
          intro a ha
          exact alook_append_none _ (alook_none_of_high (fun p hp => (hkeys1 p hp).2)
            (hbnd2 a ha).1)
        refine ⟨by omega, ?_, ?_, ?_, ?_, l1 ++ ls2, ?_, ?_, ?_⟩
        · intro p hp
          rcases List.mem_append.mp hp with hpo | hpn
          · have := hkeys1 p hpo
            omega
          · have := hkeys2 p hpn
            omega
        · intro p hp c hc
          rcases List.mem_append.mp hp with hpo | hpn
          · exact valClosed_mono hm2 (hvc1 p hpo c hc)
          · exact hvc2 p hpn c hc
        · intro p hp kd hkd
          rcases List.mem_append.mp hp with hpo | hpn
          · exact hdo1 p hpo kd hkd
          · exact hdo2 p hpn kd hkd
        · intro x hx
          rcases List.mem_cons.mp hx with h1e | h1r
          · subst h1e
            exact valClosed_mono hm2 hclo1
          · exact hclo2 x h1r
        · refine .cons _ v1 t l1 vs2 ts' ls2 ?_ ?_
          · exact ReadsT_mono hagl hr1
          · exact ReadsL_mono hagr hr2
        · rw [List.nodup_append]
          refine ⟨hnd1, hnd2, ?_⟩
          intro a ha1 ha2
          have := hbnd1 a ha1
          have := hbnd2 a ha2
          omega
        · intro a ha
          rcases List.mem_append.mp ha with h1m | h1m
          · have := hbnd1 a h1m
            omega
          · have := hbnd2 a h1m
            omega
    · intro ps
      induction ps with
      | nil =>
        intro m hsz pl hs m' hb
        simp only [buildP, Prod.mk.injEq] at hb
        obtain ⟨h1, h2, h3⟩ := hb
        subst h1; subst h2; subst h3
        refine ⟨le_refl _, ?_, ?_, ?_, ?_, [], .nil _, List.nodup_nil, ?_⟩
        · intro q hq; cases hq
        · intro q hq; cases hq
        · intro q hq; cases hq
        · intro kd hkd; cases hkd
        · intro a ha; cases ha
      | cons kt ps' ihps =>
        intro m hsz pl hs m' hb
        rcases hbt : buildT kt.2 m with ⟨v1, h1, n1⟩
        rcases hbp : buildP ps' n1 with ⟨pl2, h2, n2⟩
        simp only [buildP, hbt, hbp] at hb
        simp only [Prod.mk.injEq] at hb
        obtain ⟨e1, e2, e3⟩ := hb
        subst e1; subst e2; subst e3
        obtain ⟨hm1, hkeys1, hvc1, hdo1, hclo1, l1, hr1, hnd1, hbnd1⟩ :=
          hT kt.2 m (by simp only [tsizeP] at hsz; omega) v1 h1 n1 hbt
        obtain ⟨hm2, hkeys2, hvc2, hdo2, hclo2, ls2, hr2, hnd2, hbnd2⟩ :=
          ihps n1 (by simp only [tsizeP] at hsz; omega) pl2 h2 n2 hbp
        have hagl : ∀ a ∈ l1, alook (h1 ++ h2) a = alook h1 a := by
          intro a ha
          exact alook_append_high (fun p hp => (hkeys2 p hp).1) (hbnd1 a ha).2
        have hagr : ∀ a ∈ ls2, alook (h1 ++ h2) a = alook h2 a := by
          intro a ha
          exact alook_append_none _ (alook_none_of_high (fun p hp => (hkeys1 p hp).2)
            (hbnd2 a ha).1)
        refine ⟨by omega, ?_, ?_, ?_, ?_, l1 ++ ls2, ?_, ?_, ?_⟩
        · intro p hp
          rcases List.mem_append.mp hp with hpo | hpn
          · have := hkeys1 p hpo
            omega
          · have := hkeys2 p hpn
            omega
        · intro p hp c hc
          rcases List.mem_append.mp hp with hpo | hpn
          · exact valClosed_mono hm2 (hvc1 p hpo c hc)
          · exact hvc2 p hpn c hc
        · intro p hp kd hkd
          rcases List.mem_append.mp hp with hpo | hpn
          · exact hdo1 p hpo kd hkd
          · exact hdo2 p hpn kd hkd
        · intro kd hkd
          rcases List.mem_cons.mp hkd with h1e | h1r
          · subst h1e
            exact ⟨v1, rfl, valClosed_mono hm2 hclo1⟩
          · exact hclo2 kd h1r
        · refine .cons _ kt.1 v1 kt.2 l1 pl2 ps' ls2 ?_ ?_
          · exact ReadsT_mono hagl hr1
          · exact ReadsP_mono hagr hr2
        · rw [List.nodup_append]
          refine ⟨hnd1, hnd2, ?_⟩
          intro a ha1 ha2
          have := hbnd1 a ha1
          have := hbnd2 a ha2
          omega
        · intro a ha
          rcases List.mem_append.mp ha with h1m | h1m
          · have := hbnd1 a h1m
            omega
          · have := hbnd2 a h1m
            omega

/-! ## The serializer preserves tree readings -/

theorem processPropsF_reads_id (cid : Str) (fuel : Nat) :
    ∀ (props : List (Str × PropD)) (pts : List (Str × JTree)) (ls : List Nat)
      (s : SState), ReadsP s.heap props pts ls →
      processPropsF cid fuel s props = some (props, s) := by
  intro props
  induction props with
  | nil =>
    intro pts ls s hP
    simp [processPropsF]
  | cons kd rest ih =>
    intro pts ls s hP
    cases hP with
    | cons k v t l pl' ts0 ls' hr hP' =>
      have hnf : isFunc s.heap v = false := reads_not_func hr
      have hrest := ih ts0 ls' s hP'
      simp [processPropsF, hnf, hrest]

theorem ser_reads_all : ∀ (n : Nat),
    (∀ (t : JTree) (cid : Str) (fuel : Nat) (s : SState) (v : Val) (l : List Nat)
      (v' : Val) (s' : SState), tsize t ≤ n →
      processValueF cid fuel s v = some (v', s') →
      ReadsT s.heap v t l → l.Nodup → (∀ a ∈ l, a < s.fresh) →
      heapWF s.heap s.fresh →
      ∃ l', ReadsT s'.heap v' t l' ∧ l'.Nodup ∧
        ∀ a ∈ l', a ∈ l ∨ (s.fresh ≤ a ∧ a < s'.fresh)) ∧
    (∀ (ts : List JTree) (cid : Str) (fuel : Nat) (s : SState) (vs : List Val)
      (ls : List Nat) (vs' : List Val) (s' : SState), tsizeL ts ≤ n →
      processValsF cid fuel s vs = some (vs', s') →
      ReadsL s.heap vs ts ls → ls.Nodup → (∀ a ∈ ls, a < s.fresh) →
      heapWF s.heap s.fresh →
      ∃ ls', ReadsL s'.heap vs' ts ls' ∧ ls'.Nodup ∧
        ∀ a ∈ ls', a ∈ ls ∨ (s.fresh ≤ a ∧ a < s'.fresh)) := by
  intro n
  induction n using Nat.strong_induction_on with
  | _ n ih =>
    have hT : ∀ (t : JTree) (cid : Str) (fuel : Nat) (s : SState) (v : Val) (l : List Nat)
        (v' : Val) (s' : SState), tsize t ≤ n →
        processValueF cid fuel s v = some (v', s') →
        ReadsT s.heap v t l → l.Nodup → (∀ a ∈ l, a < s.fresh) →
        heapWF s.heap s.fresh →
        ∃ l', ReadsT s'.heap v' t l' ∧ l'.Nodup ∧
          ∀ a ∈ l', a ∈ l ∨ (s.fresh ≤ a ∧ a < s'.fresh) := by
      intro t cid fuel s v l v' s' hsz heq hr hnd hbnd hw
      cases fuel with
      | zero => simp [processValueF] at heq
      | succ fuel =>
        rw [processValueF] at heq
        by_cases hvis : v ∈ s.visited
        · rw [if_pos hvis] at heq
          simp only [Option.some.injEq, Prod.mk.injEq] at heq
          obtain ⟨e1, e2⟩ := heq
          subst e2
          exact ⟨l, e1 ▸ hr, hnd, fun a ha => Or.inl ha⟩
        · rw [if_neg hvis] at heq
          cases hr with
          | prim p =>
            simp only [Option.some.injEq, Prod.mk.injEq] at heq
            obtain ⟨e1, e2⟩ := heq
            subst e2
            exact ⟨[], e1 ▸ .prim _ p, List.nodup_nil, by intro a ha; cases ha⟩
          | arr a vs0 ts ls0 hlook hL =>
            simp only [hlook, bind, Option.bind] at heq
            cases he2 : processValsF cid fuel { s with visited := .ref a :: s.visited }
                vs0 with
            | none => rw [he2] at heq; cases heq
            | some p2 =>
              rw [he2] at heq
              obtain ⟨vs', s2⟩ := p2
              simp only [Option.some.injEq, Prod.mk.injEq] at heq
              obtain ⟨e1, e2⟩ := heq
              obtain ⟨hnda, hnd0⟩ := List.nodup_cons.mp hnd
              have hlt : tsizeL ts < n := by
                simp only [tsize] at hsz
                omega
              obtain ⟨ls', hL', hnd', hprov⟩ := (ih (tsizeL ts) hlt).2 ts cid fuel
                { s with visited := .ref a :: s.visited } vs0 ls0 vs' s2 (le_refl _)
                he2 hL hnd0 (fun x hx => hbnd x (List.mem_cons_of_mem _ hx)) hw
              have hstep := processValsF_mono cid fuel vs0
                { s with visited := .ref a :: s.visited } vs' s2 he2
              have hw2 : heapWF s2.heap s2.fresh := hstep.2.2.2.2.2.2 hw
              have hfle : s.fresh ≤ s2.fresh := hstep.2.2.1
              have hlsbnd : ∀ x ∈ ls', x < s2.fresh := by
                intro x hx
                rcases hprov x hx with hxin | hxr
                · have := hbnd x (List.mem_cons_of_mem _ hxin)
                  omega
                · omega
              subst e1
              subst e2
              refine ⟨s2.fresh :: ls', ?_, ?_, ?_⟩
              · refine .arr _ s2.fresh vs' ts ls' ?_ ?_
                · show alook (s2.heap ++ [(s2.fresh, Obj.arr vs')]) s2.fresh =
                    some (Obj.arr vs')
                  rw [alook_append_none _ (alook_ge_fresh hw2 (le_refl _))]
                  simp [alook]
                · refine ReadsL_mono ?_ hL'
                  intro x hx
                  exact alook_append_ne s2.heap _ (by have := hlsbnd x hx; omega)
              · refine List.nodup_cons.mpr ⟨?_, hnd'⟩
                intro hmem
                have := hlsbnd s2.fresh hmem
                omega
              · intro x hx
                rcases List.mem_cons.mp hx with hxe | hxm
                · subst hxe
                  refine Or.inr ⟨hfle, ?_⟩
                  show s2.fresh < s2.fresh + 1
                  omega
                · rcases hprov x hxm with hxin | hxr
                  · exact Or.inl (List.mem_cons_of_mem _ hxin)
                  · refine Or.inr ⟨hxr.1, ?_⟩
                    show x < s2.fresh + 1
                    omega
          | obj a props pts lsp hlook hP =>
            simp only [hlook, bind, Option.bind] at heq
            have hid := processPropsF_reads_id cid fuel props pts lsp
              { s with visited := .ref a :: s.visited } hP
            rw [hid] at heq
            simp only [Option.some.injEq, Prod.mk.injEq] at heq
            obtain ⟨e1, e2⟩ := heq
            obtain ⟨hnda, hnd0⟩ := List.nodup_cons.mp hnd
            subst e1
            subst e2
            refine ⟨s.fresh :: lsp, ?_, ?_, ?_⟩
            · refine .obj _ s.fresh props pts lsp ?_ ?_
              · show alook (s.heap ++ [(s.fresh, Obj.obj props)]) s.fresh =
                  some (Obj.obj props)
                rw [alook_append_none _ (alook_ge_fresh hw (le_refl _))]
                simp [alook]
              · refine ReadsP_mono ?_ hP
                intro x hx
                exact alook_append_ne s.heap _
                  (by have := hbnd x (List.mem_cons_of_mem _ hx); omega)
            · refine List.nodup_cons.mpr ⟨?_, hnd0⟩
              intro hmem
              have := hbnd s.fresh (List.mem_cons_of_mem _ hmem)
              omega
            · intro x hx
              rcases List.mem_cons.mp hx with hxe | hxm
              · subst hxe
                refine Or.inr ⟨le_refl _, ?_⟩
                show s.fresh < s.fresh + 1
                omega
              · exact Or.inl (List.mem_cons_of_mem _ hxm)
    refine ⟨hT, ?_⟩
    intro ts
    induction ts with
    | nil =>
      intro cid fuel s vs ls vs' s' hsz heq hL hnd hbnd hw
      cases hL
      simp only [processValsF, Option.some.injEq, Prod.mk.injEq] at heq
      obtain ⟨e1, e2⟩ := heq
      subst e2
      exact ⟨[], e1 ▸ .nil _, List.nodup_nil, by intro a ha; cases ha⟩
    | cons t ts' ihts =>
      intro cid fuel s vs ls vs' s' hsz heq hL hnd hbnd hw
      cases hL with
      | cons v t0 l1 vs2 ts0 ls2 hr1 hL2 =>
        simp only [processValsF] at heq
        rw [optBind_eq_some] at heq
        obtain ⟨⟨v1, s1⟩, h1, heq⟩ := heq
        rw [optBind_eq_some] at heq
        obtain ⟨⟨rest', s2⟩, h2, heq⟩ := heq
        simp only [Option.some.injEq, Prod.mk.injEq] at heq
        obtain ⟨e1, e2⟩ := heq
        subst e2
        rw [List.nodup_append] at hnd
        obtain ⟨hnd1, hnd2, hdis⟩ := hnd
        obtain ⟨l1', hr1', hnd1', hprov1⟩ := hT t cid fuel s v l1 v1 s1
          (by simp only [tsizeL] at hsz; omega) h1 hr1 hnd1
          (fun x hx => hbnd x (List.mem_append.mpr (Or.inl hx))) hw
        have hstep1 := processValueF_mono cid fuel s v v1 s1 h1
        have hw1 : heapWF s1.heap s1.fresh := hstep1.2.2.2.2.2.2 hw
        have hf1 : s.fresh ≤ s1.fresh := hstep1.2.2.1
        have hL2' : ReadsL s1.heap vs2 ts' ls2 := by
          refine ReadsL_mono ?_ hL2
          intro x hx
          exact hstep1.2.1 x (hbnd x (List.mem_append.mpr (Or.inr hx)))
        obtain ⟨ls2', hL2'', hnd2', hprov2⟩ := ihts cid fuel s1 vs2 ls2 rest' s2
          (by simp only [tsizeL] at hsz; omega) h2 hL2' hnd2
          (fun x hx => lt_of_lt_of_le (hbnd x (List.mem_append.mpr (Or.inr hx))) hf1)
          hw1
        have hstep2 := processValsF_mono cid fuel vs2 s1 rest' s2 h2
        have hf2 : s1.fresh ≤ s2.fresh := hstep2.2.2.1
        have hbnd1' : ∀ x ∈ l1', x < s1.fresh := by
          intro x hx
          rcases hprov1 x hx with hxin | hxr
          · have := hbnd x (List.mem_append.mpr (Or.inl hxin))
            omega
          · omega
        have hr1'' : ReadsT s2.heap v1 t l1' := by
          refine ReadsT_mono ?_ hr1'
          intro x hx
          exact hstep2.2.1 x (hbnd1' x hx)
        refine ⟨l1' ++ ls2', ?_, ?_, ?_⟩
        · rw [← e1]
          exact .cons _ v1 t l1' rest' ts' ls2' hr1'' hL2''
        · rw [List.nodup_append]
          refine ⟨hnd1', hnd2', ?_⟩
          intro x hx1 hx2
          rcases hprov1 x hx1 with ha1 | ha1 <;> rcases hprov2 x hx2 with ha2 | ha2
          · exact hdis ha1 ha2
          · have := hbnd x (List.mem_append.mpr (Or.inl ha1))
            omega
          · have := hbnd x (List.mem_append.mpr (Or.inr ha2))
            omega
          · omega
        · intro x hx
          rcases List.mem_append.mp hx with hx1 | hx1
          · rcases hprov1 x hx1 with ha | ha
            · exact Or.inl (List.mem_append.mpr (Or.inl ha))
            · right
              omega
          · rcases hprov2 x hx1 with ha | ha
            · exact Or.inl (List.mem_append.mpr (Or.inr ha))
            · right
              omega

/-! ## The deserializer preserves tree readings -/

theorem alook_pushProp_self {h : Heap} {addr : Nat} {ps : List (Str × PropD)}
    (ha : alook h addr = some (.obj ps)) (k : Str) (d : PropD) :
    alook (pushProp h addr k d) addr = some (.obj (ps ++ [(k, d)])) := by
  unfold pushProp
  rw [ha]
  exact alook_hset_self ha

theorem des_reads_all (H0 : Heap) (fresh0 : Nat) : ∀ (n : Nat),
    (∀ (t : JTree) (fuel : Nat) (st : DState) (v : Val) (l : List Nat) (r : Val)
      (st' : DState) (done : List Nat), tsize t ≤ n →
      transformF fuel st v = some (r, st') →
      ReadsT H0 v t l → l.Nodup → tokenFree t = true →
      (∀ a ∈ l, a < fresh0) → (∀ a ∈ l, a ∉ done) →
      fresh0 ≤ st.fresh → (∀ k, k < fresh0 → alook st.heap k = alook H0 k) →
      heapWF st.heap st.fresh →
      (∀ p r', alook st.handled (Val.prim p) = some r' → r' = .prim p) →
      (∀ a r', alook st.handled (Val.ref a) = some r' → a ∈ done) →
      ∃ l', ReadsT st'.heap r t l' ∧ l'.Nodup ∧
        (∀ a ∈ l', st.fresh ≤ a ∧ a < st'.fresh) ∧
        (∀ p r', alook st'.handled (Val.prim p) = some r' → r' = .prim p) ∧
        (∀ a r', alook st'.handled (Val.ref a) = some r' → a ∈ done ∨ a ∈ l)) ∧
    (∀ (ts : List JTree) (fuel : Nat) (st : DState) (vs : List Val) (ls : List Nat)
      (vs' : List Val) (st' : DState) (done : List Nat), tsizeL ts ≤ n →
      transformElemsF fuel st vs = some (vs', st') →
      ReadsL H0 vs ts ls → ls.Nodup → tokenFreeL ts = true →
      (∀ a ∈ ls, a < fresh0) → (∀ a ∈ ls, a ∉ done) →
      fresh0 ≤ st.fresh → (∀ k, k < fresh0 → alook st.heap k = alook H0 k) →
      heapWF st.heap st.fresh →
      (∀ p r', alook st.handled (Val.prim p) = some r' → r' = .prim p) →
      (∀ a r', alook st.handled (Val.ref a) = some r' → a ∈ done) →
      ∃ ls', ReadsL st'.heap vs' ts ls' ∧ ls'.Nodup ∧
        (∀ a ∈ ls', st.fresh ≤ a ∧ a < st'.fresh) ∧
        (∀ p r', alook st'.handled (Val.prim p) = some r' → r' = .prim p) ∧
        (∀ a r', alook st'.handled (Val.ref a) = some r' → a ∈ done ∨ a ∈ ls)) ∧
    (∀ (ps : List (Str × JTree)) (fuel : Nat) (st : DState) (addr : Nat)
      (acc props : List (Str × PropD)) (ls : List Nat) (st' : DState)
      (done : List Nat), tsizeP ps ≤ n →
      transformPropsF fuel st addr props = some st' →
      ReadsP H0 props ps ls → ls.Nodup → tokenFreeP ps = true →
      (∀ a ∈ ls, a < fresh0) → (∀ a ∈ ls, a ∉ done) →
      fresh0 ≤ st.fresh → (∀ k, k < fresh0 → alook st.heap k = alook H0 k) →
      heapWF st.heap st.fresh →
      (∀ p r', alook st.handled (Val.prim p) = some r' → r' = .prim p) →
      (∀ a r', alook st.handled (Val.ref a) = some r' → a ∈ done) →
      fresh0 ≤ addr → addr < st.fresh → alook st.heap addr = some (.obj acc) →
      ∃ props' ls', alook st'.heap addr = some (.obj (acc ++ props')) ∧
        ReadsP st'.heap props' ps ls' ∧ ls'.Nodup ∧
        (∀ a ∈ ls', st.fresh ≤ a ∧ a < st'.fresh) ∧
        (∀ p r', alook st'.handled (Val.prim p) = some r' → r' = .prim p) ∧
        (∀ a r', alook st'.handled (Val.ref a) = some r' → a ∈ done ∨ a ∈ ls)) := by
  intro n
  induction n using Nat.strong_induction_on with
  | _ n ih =>
    have hT : ∀ (t : JTree) (fuel : Nat) (st : DState) (v : Val) (l : List Nat) (r : Val)
        (st' : DState) (done : List Nat), tsize t ≤ n →
        transformF fuel st v = some (r, st') →
        ReadsT H0 v t l → l.Nodup → tokenFree t = true →
        (∀ a ∈ l, a < fresh0) → (∀ a ∈ l, a ∉ done) →
        fresh0 ≤ st.fresh → (∀ k, k < fresh0 → alook st.heap k = alook H0 k) →
        heapWF st.heap st.fresh →
        (∀ p r', alook st.handled (Val.prim p) = some r' → r' = .prim p) →
        (∀ a r', alook st.handled (Val.ref a) = some r' → a ∈ done) →
        ∃ l', ReadsT st'.heap r t l' ∧ l'.Nodup ∧
          (∀ a ∈ l', st.fresh ≤ a ∧ a < st'.fresh) ∧
          (∀ p r', alook st'.handled (Val.prim p) = some r' → r' = .prim p) ∧
          (∀ a r', alook st'.handled (Val.ref a) = some r' → a ∈ done ∨ a ∈ l) := by
      intro t fuel st v l r st' done hsz heq hr hnd htf hlb hdis hfr0 hag0 hwst hcw hcr
      have hrst : ReadsT st.heap v t l :=
        ReadsT_mono (fun a ha => hag0 a (hlb a ha)) hr
      cases fuel with
      | zero => simp [transformF] at heq
      | succ fuel =>
        cases hh : alook st.handled v with
        | some o =>
          simp only [transformF, hh, Option.some.injEq, Prod.mk.injEq] at heq
          obtain ⟨e1, e2⟩ := heq
          subst e2
          cases hr with
          | prim p =>
            have ho : o = .prim p := hcw p o hh
            refine ⟨[], ?_, List.nodup_nil, ?_, hcw, ?_⟩
            · rw [← e1, ho]
              exact .prim _ p
            · intro a ha
              cases ha
            · intro a r' ha
              exact Or.inl (hcr a r' ha)
          | arr a vs ts ls0 hlook hL =>
            exact absurd (hcr a o hh) (hdis a (List.mem_cons_self _ _))
          | obj a props pts lsp hlook hP =>
            exact absurd (hcr a o hh) (hdis a (List.mem_cons_self _ _))
        | none =>
          have hwk : transformWorkF (fuel + 1) st v = some (r, st') := by
            rw [← heq]
            simp [transformF, hh]
          clear heq
          rw [transformWorkF.eq_def] at hwk
          have hcb : ¬ (isCallbackV st.heap v = true) := by
            simp [(reads_not_callback hrst htf).1]
          simp only [if_neg hcb] at hwk
          cases hr with
          | prim p =>
            simp only [Option.some.injEq, Prod.mk.injEq] at hwk
            obtain ⟨e1, e2⟩ := hwk
            subst e2
            refine ⟨[], ?_, List.nodup_nil, ?_, hcw, ?_⟩
            · rw [← e1]
              exact .prim _ p
            · intro a ha
              cases ha
            · intro a r' ha
              exact Or.inl (hcr a r' ha)
          | arr a vs ts ls0 hlook hL =>
            have hlookst : alook st.heap a = some (.arr vs) := by
              rw [hag0 a (hlb a (List.mem_cons_self _ _))]
              exact hlook
            simp only [hlookst, bind, Option.bind] at hwk
            obtain ⟨hnda, hnd0⟩ := List.nodup_cons.mp hnd
            cases he2 : transformElemsF fuel { st with
                heap := st.heap ++ [(st.fresh, Obj.arr [])], fresh := st.fresh + 1,
                handled := assocSet st.handled (Val.ref a) (.ref st.fresh) } vs with
            | none => rw [he2] at hwk; cases hwk
            | some p2 =>
              obtain ⟨elems', st2⟩ := p2
              rw [he2] at hwk
              simp only [Option.some.injEq, Prod.mk.injEq] at hwk
              obtain ⟨e1, e2⟩ := hwk
              subst e1
              subst e2
              have hlt : tsizeL ts < n := by
                simp only [tsize] at hsz
                omega
              have hg2 := (ih (tsizeL ts) hlt).2.1 ts fuel { st with
                  heap := st.heap ++ [(st.fresh, Obj.arr [])], fresh := st.fresh + 1,
                  handled := assocSet st.handled (Val.ref a) (.ref st.fresh) }
                vs ls0 elems' st2 (a :: done) (le_refl _) he2 hL hnd0
                (by simpa [tokenFree] using htf)
                (fun x hx => hlb x (List.mem_cons_of_mem _ hx))
                (by
                  intro x hx
                  simp only [List.mem_cons, not_or]
                  exact ⟨fun hxa => hnda (hxa ▸ hx), hdis x (List.mem_cons_of_mem _ hx)⟩)
                (by show fresh0 ≤ st.fresh + 1; omega)
                (by
                  intro k hk
                  show alook (st.heap ++ [(st.fresh, Obj.arr [])]) k = alook H0 k
                  rw [alook_append_ne st.heap _ (by omega)]
                  exact hag0 k hk)
                (heapWF_append hwst _)
                (by
                  intro p r' hp
                  replace hp : alook (assocSet st.handled (Val.ref a)
                      (Val.ref st.fresh)) (Val.prim p) = some r' := hp
                  rw [alook_assocSet_ne _ _ (by simp)] at hp
                  exact hcw p r' hp)
                (by
                  intro b r' hb
                  replace hb : alook (assocSet st.handled (Val.ref a)
                      (Val.ref st.fresh)) (Val.ref b) = some r' := hb
                  by_cases hba : (Val.ref b) = (Val.ref a)
                  · simp only [Val.ref.injEq] at hba
                    subst hba
                    exact List.mem_cons_self _ _
                  · rw [alook_assocSet_ne _ _ hba] at hb
                    exact List.mem_cons_of_mem _ (hcr b r' hb))
              obtain ⟨ls', hL', hnd', hrng', hcw', hcr'⟩ := hg2
              have hstep2 := transformElemsF_mono fuel vs _ elems' st2 he2
              have hf2 : st.fresh + 1 ≤ st2.fresh := hstep2.2.1
              have haddr2 : alook st2.heap st.fresh = some (Obj.arr []) := by
                rw [hstep2.1 st.fresh (by show st.fresh < st.fresh + 1; omega)]
                show alook (st.heap ++ [(st.fresh, Obj.arr [])]) st.fresh =
                  some (Obj.arr [])
                rw [alook_append_none _ (alook_ge_fresh hwst (le_refl _))]
                simp [alook]
              refine ⟨st.fresh :: ls', ?_, ?_, ?_, hcw', ?_⟩
              · refine .arr _ st.fresh elems' ts ls' ?_ ?_
                · show alook (hset st2.heap st.fresh (Obj.arr elems')) st.fresh =
                    some (Obj.arr elems')
                  exact alook_hset_self haddr2
                · refine ReadsL_mono ?_ hL'
                  intro x hx
                  have hxr := hrng' x hx
                  exact alook_hset_ne (show x ≠ st.fresh by
                    have : st.fresh + 1 ≤ x := hxr.1
                    omega)
              · refine List.nodup_cons.mpr ⟨?_, hnd'⟩
                intro hmem
                have : st.fresh + 1 ≤ st.fresh := (hrng' st.fresh hmem).1
                omega
              · intro x hx
                rcases List.mem_cons.mp hx with hxe | hxm
                · subst hxe
                  exact ⟨le_refl _, by show st.fresh < st2.fresh; omega⟩
                · have hxr := hrng' x hxm
                  have h1 : st.fresh + 1 ≤ x := hxr.1
                  have h2 : x < st2.fresh := hxr.2
                  exact ⟨by omega, by show x < st2.fresh; omega⟩
              · intro b r' hb
                rcases hcr' b r' hb with hbd | hbl
                · rcases List.mem_cons.mp hbd with hba | hbd2
                  · exact Or.inr (hba ▸ List.mem_cons_self _ _)
                  · exact Or.inl hbd2
                · exact Or.inr (List.mem_cons_of_mem _ hbl)
          | obj a props pts lsp hlook hP =>
            have hlookst : alook st.heap a = some (.obj props) := by
              rw [hag0 a (hlb a (List.mem_cons_self _ _))]
              exact hlook
            simp only [hlookst, bind, Option.bind] at hwk
            obtain ⟨hnda, hnd0⟩ := List.nodup_cons.mp hnd
            cases he2 : transformPropsF fuel { st with
                heap := st.heap ++ [(st.fresh, Obj.obj [])], fresh := st.fresh + 1,
                handled := assocSet st.handled (Val.ref a) (.ref st.fresh) }
                st.fresh props with
            | none => rw [he2] at hwk; cases hwk
            | some st2 =>
              rw [he2] at hwk
              simp only [Option.some.injEq, Prod.mk.injEq] at hwk
              obtain ⟨e1, e2⟩ := hwk
              subst e1
              subst e2
              have hlt : tsizeP pts < n := by
                simp only [tsize] at hsz
                omega
              have haddr1 : alook (st.heap ++ [(st.fresh, Obj.obj [])]) st.fresh =
                  some (Obj.obj []) := by
                rw [alook_append_none _ (alook_ge_fresh hwst (le_refl _))]
                simp [alook]
              have htf2 : tokenFreeP pts = true := by
                rw [tokenFree] at htf
                simp only [Bool.and_eq_true] at htf
                exact htf.2
              have hg2 := (ih (tsizeP pts) hlt).2.2 pts fuel { st with
                  heap := st.heap ++ [(st.fresh, Obj.obj [])], fresh := st.fresh + 1,
                  handled := assocSet st.handled (Val.ref a) (.ref st.fresh) }
                st.fresh [] props lsp st2 (a :: done) (le_refl _) he2 hP hnd0 htf2
                (fun x hx => hlb x (List.mem_cons_of_mem _ hx))
                (by
                  intro x hx
                  simp only [List.mem_cons, not_or]
                  exact ⟨fun hxa => hnda (hxa ▸ hx), hdis x (List.mem_cons_of_mem _ hx)⟩)
                (by show fresh0 ≤ st.fresh + 1; omega)
                (by
                  intro k hk
                  show alook (st.heap ++ [(st.fresh, Obj.obj [])]) k = alook H0 k
                  rw [alook_append_ne st.heap _ (by omega)]
                  exact hag0 k hk)
                (heapWF_append hwst _)
                (by
                  intro p r' hp
                  replace hp : alook (assocSet st.handled (Val.ref a)
                      (Val.ref st.fresh)) (Val.prim p) = some r' := hp
                  rw [alook_assocSet_ne _ _ (by simp)] at hp
                  exact hcw p r' hp)
                (by
                  intro b r' hb
                  replace hb : alook (assocSet st.handled (Val.ref a)
                      (Val.ref st.fresh)) (Val.ref b) = some r' := hb
                  by_cases hba : (Val.ref b) = (Val.ref a)
                  · simp only [Val.ref.injEq] at hba
                    subst hba
                    exact List.mem_cons_self _ _
                  · rw [alook_assocSet_ne _ _ hba] at hb
                    exact List.mem_cons_of_mem _ (hcr b r' hb))
                hfr0
                (by show st.fresh < st.fresh + 1; omega)
                haddr1
              obtain ⟨props', ls', haddr', hP', hnd', hrng', hcw', hcr'⟩ := hg2
              have hstep2 := transformPropsF_mono fuel props _ st.fresh st2
                (by show st.fresh < st.fresh + 1; omega) he2
              have hf2 : st.fresh + 1 ≤ st2.fresh := hstep2.2.1
              refine ⟨st.fresh :: ls', ?_, ?_, ?_, hcw', ?_⟩
              · refine .obj _ st.fresh props' pts ls' ?_ hP'
                simpa using haddr'
              · refine List.nodup_cons.mpr ⟨?_, hnd'⟩
                intro hmem
                have : st.fresh + 1 ≤ st.fresh := (hrng' st.fresh hmem).1
                omega
              · intro x hx
                rcases List.mem_cons.mp hx with hxe | hxm
                · subst hxe
                  exact ⟨le_refl _, by show st.fresh < st2.fresh; omega⟩
                · have hxr := hrng' x hxm
                  have h1 : st.fresh + 1 ≤ x := hxr.1
                  have h2 : x < st2.fresh := hxr.2
                  exact ⟨by omega, by show x < st2.fresh; omega⟩
              · intro b r' hb
                rcases hcr' b r' hb with hbd | hbl
                · rcases List.mem_cons.mp hbd with hba | hbd2
                  · exact Or.inr (hba ▸ List.mem_cons_self _ _)
                  · exact Or.inl hbd2
                · exact Or.inr (List.mem_cons_of_mem _ hbl)
    refine ⟨hT, ?_, ?_⟩
    · intro ts
      induction ts with
      | nil =>
        intro fuel st vs ls vs' st' done hsz heq hL hnd htf hlb hdis hfr0 hag0 hwst
          hcw hcr
        cases hL
        simp only [transformElemsF, Option.some.injEq, Prod.mk.injEq] at heq
        obtain ⟨e1, e2⟩ := heq
        subst e2
        refine ⟨[], ?_, List.nodup_nil, ?_, hcw, ?_⟩
        · rw [← e1]
          exact .nil _
        · intro a ha
          cases ha
        · intro a r' ha
          exact Or.inl (hcr a r' ha)
      | cons t ts' ihts =>
        intro fuel st vs ls vs' st' done hsz heq hL hnd htf hlb hdis hfr0 hag0 hwst
          hcw hcr
        cases hL with
        | cons v t0 l1 vs2 ts0 ls2 hr1 hL2 =>
          rw [List.nodup_append] at hnd
          obtain ⟨hnd1, hnd2, hdisj⟩ := hnd
          rw [tokenFreeL] at htf
          simp only [Bool.and_eq_true] at htf
          cases hh : alook st.handled v with
          | some o =>
            simp only [transformElemsF, hh] at heq
            rw [optBind_eq_some] at heq
            obtain ⟨⟨rest', s2⟩, h2, heq⟩ := heq
            simp only [Option.some.injEq, Prod.mk.injEq] at heq
            obtain ⟨e1, e2⟩ := heq
            subst e2
            cases hr1 with
            | arr a vs0 ts1 ls1 hlook hL1 =>
              exact absurd (hcr a o hh)
                (hdis a (List.mem_append.mpr (Or.inl (List.mem_cons_self _ _))))
            | obj a props pts lsp hlook hP1 =>
              exact absurd (hcr a o hh)
                (hdis a (List.mem_append.mpr (Or.inl (List.mem_cons_self _ _))))
            | prim p =>
              have ho : o = .prim p := hcw p o hh
              obtain ⟨ls2', hL2', hnd2', hrng2', hcw2', hcr2'⟩ := ihts fuel st vs2 ls2
                rest' s2 done (by simp only [tsizeL] at hsz; omega) h2 hL2 hnd2 htf.2
                (fun x hx => hlb x (List.mem_append.mpr (Or.inr hx)))
                (fun x hx => hdis x (List.mem_append.mpr (Or.inr hx)))
                hfr0 hag0 hwst hcw hcr
              refine ⟨ls2', ?_, hnd2', hrng2', hcw2', ?_⟩
              · rw [← e1, ho]
                have := ReadsL.cons s2.heap (Val.prim p) (JTree.prim p) [] rest' ts' ls2'
                  (.prim _ p) hL2'
                simpa using this
              · intro b r' hb
                rcases hcr2' b r' hb with h1 | h1
                · exact Or.inl h1
                · exact Or.inr (List.mem_append.mpr (Or.inr h1))
          | none =>
            simp only [transformElemsF, hh] at heq
            rw [optBind_eq_some] at heq
            obtain ⟨⟨r1, s1⟩, h1, heq⟩ := heq
            rw [optBind_eq_some] at heq
            obtain ⟨⟨rest', s2⟩, h2, heq⟩ := heq
            simp only [Option.some.injEq, Prod.mk.injEq] at heq
            obtain ⟨e1, e2⟩ := heq
            subst e2
            obtain ⟨l1', hr1', hnd1', hrng1', hcw1, hcr1⟩ := hT t fuel st v l1 r1 s1 done
              (by simp only [tsizeL] at hsz; omega) h1 hr1 hnd1 htf.1
              (fun x hx => hlb x (List.mem_append.mpr (Or.inl hx)))
              (fun x hx => hdis x (List.mem_append.mpr (Or.inl hx)))
              hfr0 hag0 hwst hcw hcr
            have hstep1 := (transformF_mono fuel st v r1 s1 h1).1
            have hf1 : st.fresh ≤ s1.fresh := hstep1.2.1
            have hcwM : ∀ p r', alook (assocSet s1.handled v r1) (Val.prim p) =
                some r' → r' = .prim p := by
              intro p r' hp
              by_cases hpv : (Val.prim p) = v
              · rw [hpv, alook_assocSet_self] at hp
                cases hp
                rw [← hpv] at hr1
                cases hr1
                cases hr1'
                rfl
              · rw [alook_assocSet_ne _ _ hpv] at hp
                exact hcw1 p r' hp
            have hcrM : ∀ b r', alook (assocSet s1.handled v r1) (Val.ref b) =
                some r' → b ∈ done ++ l1 := by
              intro b r' hb
              by_cases hbv : (Val.ref b) = v
              · rw [← hbv] at hr1
                cases hr1 with
                | arr a2 vs0 ts1 ls1 hlook2 hL1 =>
                  exact List.mem_append.mpr (Or.inr (List.mem_cons_self _ _))
                | obj a2 props2 pts2 lsp2 hlook2 hP1 =>
                  exact List.mem_append.mpr (Or.inr (List.mem_cons_self _ _))
              · rw [alook_assocSet_ne _ _ hbv] at hb
                rcases hcr1 b r' hb with hx | hx
                · exact List.mem_append.mpr (Or.inl hx)
                · exact List.mem_append.mpr (Or.inr hx)
            obtain ⟨ls2', hL2', hnd2', hrng2', hcw2', hcr2'⟩ := ihts fuel
              { s1 with handled := assocSet s1.handled v r1 } vs2 ls2 rest' s2
              (done ++ l1) (by simp only [tsizeL] at hsz; omega) h2 hL2 hnd2 htf.2
              (fun x hx => hlb x (List.mem_append.mpr (Or.inr hx)))
              (by
                intro x hx hxc
                rcases List.mem_append.mp hxc with hxd | hxl
                · exact hdis x (List.mem_append.mpr (Or.inr hx)) hxd
                · exact hdisj hxl hx)
              (le_trans hfr0 hf1)
              (by
                intro k hk
                show alook s1.heap k = alook H0 k
                rw [hstep1.1 k (by omega)]
                exact hag0 k hk)
              (hstep1.2.2.2 hwst)
              hcwM hcrM
            have hstep2 := transformElemsF_mono fuel vs2
              { s1 with handled := assocSet s1.handled v r1 } rest' s2 h2
            have hf2 : s1.fresh ≤ s2.fresh := hstep2.2.1
            have hr1'' : ReadsT s2.heap r1 t l1' := by
              refine ReadsT_mono ?_ hr1'
              intro x hx
              exact hstep2.1 x (hrng1' x hx).2
            refine ⟨l1' ++ ls2', ?_, ?_, ?_, hcw2', ?_⟩
            · rw [← e1]
              exact .cons _ r1 t l1' rest' ts' ls2' hr1'' hL2'
            · rw [List.nodup_append]
              refine ⟨hnd1', hnd2', ?_⟩
              intro x hx1 hx2
              have a1 := hrng1' x hx1
              have a2 := (hrng2' x hx2).1
              have : s1.fresh ≤ x := a2
              omega
            · intro x hx
              rcases List.mem_append.mp hx with h1m | h1m
              · have := hrng1' x h1m
                exact ⟨this.1, by omega⟩
              · have hx1 : s1.fresh ≤ x := (hrng2' x h1m).1
                have hx2 : x < s2.fresh := (hrng2' x h1m).2
                exact ⟨by omega, hx2⟩
            · intro b r' hb
              rcases hcr2' b r' hb with h1m | h1m
              · rcases List.mem_append.mp h1m with h2m | h2m
                · exact Or.inl h2m
                · exact Or.inr (List.mem_append.mpr (Or.inl h2m))
              · exact Or.inr (List.mem_append.mpr (Or.inr h1m))
    · intro ps
      induction ps with
      | nil =>
        intro fuel st addr acc props ls st' done hsz heq hP hnd htf hlb hdis hfr0 hag0
          hwst hcw hcr hfa haddr hacc
        cases hP
        simp only [transformPropsF, Option.some.injEq] at heq
        subst heq
        refine ⟨[], [], ?_, .nil _, List.nodup_nil, ?_, hcw, ?_⟩
        · simpa using hacc
        · intro a ha
          cases ha
        · intro a r' ha
          exact Or.inl (hcr a r' ha)
      | cons kt ps' ihps =>
        intro fuel st addr acc props ls st' done hsz heq hP hnd htf hlb hdis hfr0 hag0
          hwst hcw hcr hfa haddr hacc
        cases hP with
        | cons k v t0 l1 pl' ts0 ls2 hr1 hP2 =>
          rw [List.nodup_append] at hnd
          obtain ⟨hnd1, hnd2, hdisj⟩ := hnd
          rw [tokenFreeP] at htf
          simp only [Bool.and_eq_true] at htf
          have hrst1 : ReadsT st.heap v t0 l1 :=
            ReadsT_mono (fun x hx => hag0 x (hlb x (List.mem_append.mpr (Or.inl hx))))
              hr1
          have hg : ¬ (isGetterV st.heap v = true) := by
            simp [(reads_not_callback hrst1 htf.1).2]
          rw [transformPropsF.eq_def] at heq
          simp only [if_neg hg] at heq
          rw [optBind_eq_some] at heq
          obtain ⟨⟨r1, s1⟩, h1, h2⟩ := heq
          obtain ⟨l1', hr1', hnd1', hrng1', hcw1, hcr1⟩ := hT t0 fuel st v l1 r1 s1 done
            (by simp only [tsizeP] at hsz; omega) h1 hr1 hnd1 htf.1
            (fun x hx => hlb x (List.mem_append.mpr (Or.inl hx)))
            (fun x hx => hdis x (List.mem_append.mpr (Or.inl hx)))
            hfr0 hag0 hwst hcw hcr
          have hstep1 := (transformF_mono fuel st v r1 s1 h1).1
          have hf1 : st.fresh ≤ s1.fresh := hstep1.2.1
          have hacc1 : alook s1.heap addr = some (.obj acc) := by
            rw [hstep1.1 addr haddr]
            exact hacc
          have hacc2 : alook (pushProp s1.heap addr k (.data r1 true true true)) addr =
              some (.obj (acc ++ [(k, .data r1 true true true)])) :=
            alook_pushProp_self hacc1 _ _
          obtain ⟨props'', ls2', haddr', hP2', hnd2', hrng2', hcw2', hcr2'⟩ := ihps fuel
            { s1 with heap := pushProp s1.heap addr k (.data r1 true true true) } addr
            (acc ++ [(k, .data r1 true true true)]) pl' ls2 st' (done ++ l1)
            (by simp only [tsizeP] at hsz; omega) h2 hP2 hnd2 htf.2
            (fun x hx => hlb x (List.mem_append.mpr (Or.inr hx)))
            (by
              intro x hx hxc
              rcases List.mem_append.mp hxc with hxd | hxl
              · exact hdis x (List.mem_append.mpr (Or.inr hx)) hxd
              · exact hdisj hxl hx)
            (le_trans hfr0 hf1)
            (by
              intro k0 hk0
              show alook (pushProp s1.heap addr k (.data r1 true true true)) k0 =
                alook H0 k0
              rw [alook_pushProp_ne (show k0 ≠ addr by omega)]
              rw [hstep1.1 k0 (by omega)]
              exact hag0 k0 hk0)
            (heapWF_pushProp (hstep1.2.2.2 hwst) (lt_of_lt_of_le haddr hf1) _ _)
            (by
              intro p r' hp
              exact hcw1 p r' hp)
            (by
              intro b r' hb
              rcases hcr1 b r' hb with hx | hx
              · exact List.mem_append.mpr (Or.inl hx)
              · exact List.mem_append.mpr (Or.inr hx))
            hfa
            (lt_of_lt_of_le haddr hf1)
            hacc2
          have hstepP := transformPropsF_mono fuel pl'
            { s1 with heap := pushProp s1.heap addr k (.data r1 true true true) } addr
            st' (lt_of_lt_of_le haddr hf1) h2
          have hr1'' : ReadsT st'.heap r1 t0 l1' := by
            refine ReadsT_mono ?_ hr1'
            intro x hx
            have hxr := hrng1' x hx
            rw [hstepP.1 x hxr.2 (show x ≠ addr by omega)]
            exact alook_pushProp_ne (show x ≠ addr by omega)
          refine ⟨(k, .data r1 true true true) :: props'', l1' ++ ls2', ?_, ?_, ?_, ?_,
            hcw2', ?_⟩
          · rw [List.append_assoc, List.singleton_append] at haddr'
            exact haddr'
          · exact .cons _ k r1 t0 l1' props'' ps' ls2' hr1'' hP2'
          · rw [List.nodup_append]
            refine ⟨hnd1', hnd2', ?_⟩
            intro x hx1 hx2
            have a1 := hrng1' x hx1
            have a2 := (hrng2' x hx2).1
            have : s1.fresh ≤ x := a2
            omega
          · intro x hx
            rcases List.mem_append.mp hx with h1m | h1m
            · have := hrng1' x h1m
              have hf2 : s1.fresh ≤ st'.fresh := hstepP.2.1
              exact ⟨this.1, by omega⟩
            · have hx1 : s1.fresh ≤ x := (hrng2' x h1m).1
              have hx2 : x < st'.fresh := (hrng2' x h1m).2
              exact ⟨by omega, hx2⟩
          · intro b r' hb
            rcases hcr2' b r' hb with h1m | h1m
            · rcases List.mem_append.mp h1m with h2m | h2m
              · exact Or.inl h2m
              · exact Or.inr (List.mem_append.mpr (Or.inl h2m))
            · exact Or.inr (List.mem_append.mpr (Or.inr h1m))

/-- C6 (amended): for every acyclic JSON-compatible value — a tree of
primitives, arrays and plain objects with no functions, accessors or binary
payloads — *whose objects do not carry the reserved token discriminator*
(a `flag` property equal to `$$WEB-RPC-CALLBACK` or `$$WEB-RPC-GETTER`),
deserializing the data produced by serializing it terminates and yields a
value structurally equal to the original: the reconstruction reads back as
the same tree.  Without the token-freeness proviso the law fails — a plain
object shaped like a callback token round-trips into a function (see the
counterexample). -/
theorem round_trip_preserves_structure (t : JTree) (htf : tokenFree t = true) :
    ∃ v0 h0 n0, buildT t 0 = (v0, h0, n0) ∧
    (∃ l0, ReadsT h0 v0 t l0) ∧
    ∃ out s,
      serializeRequestDataF ctxId (bigFuel h0 [v0]) h0 n0 0 [v0] = some (out, s) ∧
      ∃ res dst,
        deserializeRequestDataF (bigFuel s.heap out) s.heap s.fresh out =
          some (res, dst) ∧
        ∃ r l', res = [r] ∧ ReadsT dst.heap r t l' := by
  rcases hb : buildT t 0 with ⟨v0, h0, n0⟩
  obtain ⟨hm0, hkeys, hvcb, hdob, hv0, l0, hr0, hnd0, hbnd0⟩ :=
    (build_reads_all (tsize t)).1 t 0 (le_refl _) v0 h0 n0 hb
  have hw0 : heapWF h0 n0 := fun p hp => (hkeys p hp).2
  have hvc0 : heapValsClosed h0 n0 := hvcb
  have hdata0 : ∀ x ∈ [v0], valClosed n0 x := by
    intro x hx
    simp only [List.mem_singleton] at hx
    subst hx
    exact hv0
  have hst := serializeRequestDataF_total ctxId h0 n0 0 [v0] hw0
    (heapClosedVals_of hw0 hvc0 hdata0)
  cases hser : serializeRequestDataF ctxId (bigFuel h0 [v0]) h0 n0 0 [v0] with
  | none => rw [hser] at hst; cases hst
  | some p =>
    obtain ⟨out, s⟩ := p
    have hgood := serializeRequestDataF_good ctxId h0 n0 0 [v0] out s hser hw0 hvc0
      hdob hdata0
    have hser' : processValsF ctxId (bigFuel h0 [v0]) (SState.init h0 n0 0) [v0] =
        some (out, s) := hser
    have hL0 : ReadsL (SState.init h0 n0 0).heap [v0] [t] (l0 ++ []) :=
      .cons _ v0 t l0 [] [] [] hr0 (.nil _)
    obtain ⟨ls', hL', hnd', hprov⟩ := (ser_reads_all (tsizeL [t])).2 [t] ctxId
      (bigFuel h0 [v0]) (SState.init h0 n0 0) [v0] (l0 ++ []) out s (le_refl _)
      hser' hL0 (by simpa using hnd0)
      (by
        intro a ha
        simp only [List.append_nil] at ha
        exact hbnd0 a ha |>.2)
      hw0
    have hstep0 := processValsF_mono ctxId (bigFuel h0 [v0]) [v0]
      (SState.init h0 n0 0) out s hser'
    have hfle0 : n0 ≤ s.fresh := hstep0.2.2.1
    have hbnd' : ∀ a ∈ ls', a < s.fresh := by
      intro a ha
      rcases hprov a ha with h1 | h1
      · simp only [List.append_nil] at h1
        have := (hbnd0 a h1).2
        omega
      · exact h1.2
    have hdt := deserializeRequestDataF_total s.heap s.fresh out hgood.1
      (heapClosedVals_of hgood.1 hgood.2.1 hgood.2.2.2) hgood.2.2.1
    cases hdes : deserializeRequestDataF (bigFuel s.heap out) s.heap s.fresh out with
    | none => rw [hdes] at hdt; cases hdt
    | some q =>
      obtain ⟨res, dst⟩ := q
      refine ⟨v0, h0, n0, rfl, ⟨l0, hr0⟩, out, s, hser, res, dst, hdes, ?_⟩
      cases hL' with
      | cons w tw lw ws tws lws hrw hLnil =>
        cases hLnil
        have hdes' : deserializeTopF (bigFuel s.heap [w])
            (DState.init s.heap s.fresh) [w] = some (res, dst) := hdes
        simp only [deserializeTopF, optBind_eq_some] at hdes'
        obtain ⟨⟨r0, st1⟩, h1, ⟨rest0, st2⟩, h2, hdes'⟩ := hdes'
        simp only [deserializeTopF, Option.some.injEq, Prod.mk.injEq] at h2
        obtain ⟨hre, hse⟩ := h2
        subst hse
        simp only [Option.some.injEq, Prod.mk.injEq] at hdes'
        obtain ⟨he1, he2⟩ := hdes'
        subst he2
        rw [List.nodup_append] at hnd'
        obtain ⟨l1', hr1', _, _, _, _⟩ := (des_reads_all s.heap s.fresh (tsize t)).1 t
          (bigFuel s.heap [w]) (DState.init s.heap s.fresh) w lw r0 st1 []
          (le_refl _) h1 hrw hnd'.1 htf
          (fun a ha => hbnd' a (List.mem_append.mpr (Or.inl ha)))
          (fun a ha hc => by cases hc)
          (le_refl _) (fun k hk => rfl) hgood.1
          (fun p r' hp => by simpa [DState.init, alook] using hp)
          (fun a r' hp => by simpa [DState.init, alook] using hp)
        refine ⟨r0, l1', ?_, hr1'⟩
        rw [← he1, ← hre]

/-- Witness for `round_trip_preserves_structure` at the concrete tree
`{b: [1]}`. -/
theorem round_trip_preserves_structure_witness :
    ∃ v0 h0 n0,
      buildT (JTree.obj [(bKey, .arr [.prim (.num 1)])]) 0 = (v0, h0, n0) ∧
    (∃ l0, ReadsT h0 v0 (JTree.obj [(bKey, .arr [.prim (.num 1)])]) l0) ∧
    ∃ out s,
      serializeRequestDataF ctxId (bigFuel h0 [v0]) h0 n0 0 [v0] = some (out, s) ∧
      ∃ res dst,
        deserializeRequestDataF (bigFuel s.heap out) s.heap s.fresh out =
          some (res, dst) ∧
        ∃ r l', res = [r] ∧
          ReadsT dst.heap r (JTree.obj [(bKey, .arr [.prim (.num 1)])]) l' :=
  round_trip_preserves_structure (JTree.obj [(bKey, .arr [.prim (.num 1)])]) (by decide)

end WebRPC
